import Mathlib

/-!
Verification development for the `orlo` / `orlo_reint` yosys plugin
(`src/orlo-plugin/orlo.cc`).

The file shallowly embeds the program's data model and algorithms:
the signal registry (`map_signal`, `mark_port`), the BLIF emitter's
truth-table rows, the name remapper (`remap_name`), the loop breaker
(`handle_loops`), the reintegration boundary connections and the
output-file entry check of `orlo_reintegrate`, and the clock-domain
partitioner of `OrloPass::execute`.  Theorems about these definitions
settle the specification claims.
-/

set_option maxHeartbeats 1000000

namespace Orlo

/-- Gate kinds, mirroring `enum class gate_type_t` in orlo.cc. -/
inductive GateType where
  | G_NONE | G_FF | G_BUF | G_NOT | G_AND | G_NAND | G_OR | G_NOR
  | G_XOR | G_XNOR | G_ANDNOT | G_ORNOT | G_MUX | G_NMUX
  | G_AOI3 | G_OAI3 | G_AOI4 | G_OAI4
  deriving DecidableEq, Repr

open GateType

/-! ## The `.names` truth-table rows emitted by `orlo_module` (orlo.cc:1238-1310)

A BLIF `.names` row is a string over `{0,1,-}` plus a trailing `1`:
the row asserts the output for every input combination matching the
pattern (`-` is don't-care); absent combinations give output 0
(sum-of-products cover semantics, spec section 6). -/

/-- One input-column entry of a `.names` row: `0`, `1` or `-`. -/
inductive Trit where
  | t0 | t1 | dc
  deriving DecidableEq, Repr

open Trit

/-- The `.names` rows `orlo_module` prints for each gate type
(orlo.cc:1238-1299).  Kinds that emit no `.names` construct
(`G_NONE`, `G_FF`) get the empty list. -/
def namesRows : GateType → List (List Trit)
  | G_BUF    => [[t1]]
  | G_NOT    => [[t0]]
  | G_AND    => [[t1, t1]]
  | G_NAND   => [[t0, dc], [dc, t0]]
  | G_OR     => [[dc, t1], [t1, dc]]
  | G_NOR    => [[t0, t0]]
  | G_XOR    => [[t0, t1], [t1, t0]]
  | G_XNOR   => [[t0, t0], [t1, t1]]
  | G_ANDNOT => [[t1, t0]]
  | G_ORNOT  => [[t1, dc], [dc, t0]]
  | G_MUX    => [[t1, dc, t0], [dc, t1, t1]]
  | G_NMUX   => [[t0, dc, t0], [dc, t0, t1]]
  | G_AOI3   => [[dc, t0, t0], [t0, dc, t0]]
  | G_OAI3   => [[t0, t0, dc], [dc, dc, t0]]
  | G_AOI4   => [[dc, t0, dc, t0], [dc, t0, t0, dc], [t0, dc, dc, t0], [t0, dc, t0, dc]]
  | G_OAI4   => [[t0, t0, dc, dc], [dc, dc, t0, t0]]
  | _        => []

/-- Does one row pattern match an input assignment (positionally)? -/
def rowMatches : List Trit → List Bool → Bool
  | [], [] => true
  | t0 :: ts, b :: bs => !b && rowMatches ts bs
  | t1 :: ts, b :: bs => b && rowMatches ts bs
  | dc :: ts, _ :: bs => rowMatches ts bs
  | _, _ => false

/-- Sum-of-products cover evaluation: output is 1 iff some row matches. -/
def sopEval (rows : List (List Trit)) (xs : List Bool) : Bool :=
  rows.any (fun r => rowMatches r xs)

/-- Number of fan-ins of each gate kind (the number of `ys__n%d`
fan-in ids printed on the `.names` header line). -/
def gateArity : GateType → Nat
  | G_BUF | G_NOT => 1
  | G_AND | G_NAND | G_OR | G_NOR | G_XOR | G_XNOR | G_ANDNOT | G_ORNOT => 2
  | G_MUX | G_NMUX | G_AOI3 | G_OAI3 => 3
  | G_AOI4 | G_OAI4 => 4
  | G_NONE | G_FF => 0

/-- The defining Boolean function of each combinational gate kind, as
the program itself states it in the genlib file written by
`orlo_module` (orlo.cc:1328-1359), e.g. `GATE NAND Y=!(A*B)`,
`GATE AOI3 Y=!((A*B)+C)`, `GATE MUX Y=(A*B)+(S*B)+(!S*A)`.
Inputs are supplied in the fan-in order of the `.names` line
(`in1 in2 in3 in4`, with MUX/NMUX select = third input). -/
def gateFun : GateType → Bool → Bool → Bool → Bool → Bool
  | G_BUF,    a, _, _, _ => a
  | G_NOT,    a, _, _, _ => !a
  | G_AND,    a, b, _, _ => a && b
  | G_NAND,   a, b, _, _ => !(a && b)
  | G_OR,     a, b, _, _ => a || b
  | G_NOR,    a, b, _, _ => !(a || b)
  | G_XOR,    a, b, _, _ => xor a b
  | G_XNOR,   a, b, _, _ => !(xor a b)
  | G_ANDNOT, a, b, _, _ => a && !b
  | G_ORNOT,  a, b, _, _ => a || !b
  | G_MUX,    a, b, s, _ => (a && b) || (s && b) || (!s && a)
  | G_NMUX,   a, b, s, _ => !((a && b) || (s && b) || (!s && a))
  | G_AOI3,   a, b, c, _ => !((a && b) || c)
  | G_OAI3,   a, b, c, _ => !((a || b) && c)
  | G_AOI4,   a, b, c, d => !((a && b) || (c && d))
  | G_OAI4,   a, b, c, d => !((a || b) && (c || d))
  | G_NONE, _, _, _, _ => false
  | G_FF, _, _, _, _ => false

/-- Truncate a full 4-tuple of inputs to the argument list the gate's
`.names` line actually carries. -/
def gateInputs (g : GateType) (a b c d : Bool) : List Bool :=
  List.take (gateArity g) [a, b, c, d]

/-- C2: for every gate kind emitted to the interchange file (every kind
other than `G_NONE` and `G_FF`), the `.names` rows written by the
emitter, evaluated as a sum-of-products cover, equal the gate's defining
Boolean function on all input combinations; in particular NAND emits
exactly the rows `0- 1` and `-0 1`. -/
theorem names_rows_match_gate_function :
    namesRows G_NAND = [[t0, dc], [dc, t0]] ∧
    ∀ g : GateType, g ≠ G_NONE → g ≠ G_FF →
      ∀ a b c d : Bool,
        sopEval (namesRows g) (gateInputs g a b c d) = gateFun g a b c d := by
  constructor
  · rfl
  · intro g h1 h2 a b c d
    cases g <;> first
      | exact absurd rfl h1
      | exact absurd rfl h2
      | (cases a <;> cases b <;> cases c <;> cases d <;> rfl)

/-- Witness for C2: the theorem's hypotheses hold at `G_NAND`, and the
cover rows evaluate correctly there, e.g. NAND(false, true) = true. -/
theorem names_rows_match_gate_function_witness :
    sopEval (namesRows G_NAND) (gateInputs G_NAND false true false false) =
      gateFun G_NAND false true false false :=
  names_rows_match_gate_function.2 G_NAND
    (by decide) (by decide) false true false false

/-! ## Decimal rendering and parsing

`orlo.cc` prints ids with `printf`-style `%d` and parses them back with
`atoi` (in `remap_name`).  `natToDecStr` embeds `%d` on naturals;
`decValue` embeds the digit-consuming core of `atoi` (the leading
character is checked to be a digit before it is called). -/

/-- The ASCII digit character for a value `d < 10`. -/
def digitChar10 (d : Nat) : Char :=
  match d with
  | 0 => '0' | 1 => '1' | 2 => '2' | 3 => '3' | 4 => '4'
  | 5 => '5' | 6 => '6' | 7 => '7' | 8 => '8' | _ => '9'

/-- Is `c` an ASCII decimal digit (`isdigit`)? -/
def isDigitC (c : Char) : Bool := 48 ≤ c.toNat && c.toNat ≤ 57

/-- Little-endian digit list of `n` (with explicit fuel, `n` itself
is always enough fuel). -/
def natToDecAux : Nat → Nat → List Char
  | 0, _ => []
  | _ + 1, 0 => []
  | fuel + 1, n + 1 => digitChar10 ((n + 1) % 10) :: natToDecAux fuel ((n + 1) / 10)

/-- Decimal rendering of a natural number, as `%d` prints it. -/
def natToDecStr (n : Nat) : List Char :=
  if n = 0 then ['0'] else (natToDecAux n n).reverse

/-- Value of a digit string (most-significant first), as `atoi`
accumulates it. -/
def decValue (cs : List Char) : Nat :=
  cs.foldl (fun a c => 10 * a + (c.toNat - 48)) 0

theorem digitChar10_toNat {d : Nat} (h : d < 10) :
    (digitChar10 d).toNat = 48 + d := by
  interval_cases d <;> rfl

theorem isDigitC_digitChar10 {d : Nat} (h : d < 10) :
    isDigitC (digitChar10 d) = true := by
  interval_cases d <;> rfl

theorem natToDecAux_digits {f n : Nat} :
    ∀ c ∈ natToDecAux f n, isDigitC c = true := by
  induction f generalizing n with
  | zero => intro c hc; simp [natToDecAux] at hc
  | succ f ih =>
    intro c hc
    cases n with
    | zero => simp [natToDecAux] at hc
    | succ m =>
      simp only [natToDecAux, List.mem_cons] at hc
      rcases hc with h | h
      · subst h; exact isDigitC_digitChar10 (Nat.mod_lt _ (by omega))
      · exact ih _ h

theorem natToDecAux_foldl {f : Nat} :
    ∀ {n : Nat}, n ≤ f → ∀ a : Nat,
      (natToDecAux f n).reverse.foldl (fun a c => 10 * a + (c.toNat - 48)) a
        = a * 10 ^ (natToDecAux f n).length + n := by
  induction f with
  | zero => intro n hn a; interval_cases n; simp [natToDecAux]
  | succ f ih =>
    intro n hn a
    cases n with
    | zero => simp [natToDecAux]
    | succ m =>
      have hdiv : (m + 1) / 10 ≤ f := by
        have := Nat.div_lt_self (Nat.succ_pos m) (by omega : 1 < 10)
        omega
      simp only [natToDecAux, List.reverse_cons, List.foldl_append, List.foldl_cons,
        List.foldl_nil, List.length_cons]
      rw [ih hdiv a]
      rw [digitChar10_toNat (Nat.mod_lt _ (by omega))]
      have hmod := Nat.div_add_mod (m + 1) 10
      ring_nf
      omega

theorem decValue_natToDecStr (n : Nat) : decValue (natToDecStr n) = n := by
  by_cases h : n = 0
  · subst h; rfl
  · unfold natToDecStr decValue
    rw [if_neg h, natToDecAux_foldl (Nat.le_refl n) 0]
    simp

theorem natToDecStr_ne_nil (n : Nat) : natToDecStr n ≠ [] := by
  unfold natToDecStr
  by_cases h : n = 0
  · simp [h]
  · rw [if_neg h]
    cases n with
    | zero => exact absurd rfl h
    | succ m => simp [natToDecAux]

theorem natToDecStr_digits (n : Nat) : ∀ c ∈ natToDecStr n, isDigitC c = true := by
  unfold natToDecStr
  by_cases h : n = 0
  · simp [h]; rfl
  · rw [if_neg h]
    intro c hc
    exact natToDecAux_digits c (List.mem_reverse.mp hc)

theorem natToDecStr_injective : Function.Injective natToDecStr := by
  intro a b hab
  have := decValue_natToDecStr a
  rw [hab, decValue_natToDecStr] at this
  omega

theorem takeWhile_append_digits {p : Char → Bool} :
    ∀ (xs : List Char), (∀ c ∈ xs, p c = true) →
      ∀ ys : List Char, (∀ c, ys.head? = some c → p c = false) →
        (xs ++ ys).takeWhile p = xs ∧ (xs ++ ys).dropWhile p = ys := by
  intro xs hxs
  induction xs with
  | nil =>
    intro ys hy
    cases ys with
    | nil => exact ⟨rfl, rfl⟩
    | cons y ys =>
      constructor
      · simp [List.takeWhile_cons, hy y rfl]
      · simp [List.dropWhile_cons, hy y rfl]
  | cons x xs ih =>
    intro ys hy
    have hx : p x = true := hxs x (List.mem_cons_self x xs)
    have hrest := ih (fun c hc => hxs c (List.mem_cons_of_mem x hc)) ys hy
    constructor
    · simp [List.takeWhile_cons, hx, hrest.1]
    · simp [List.dropWhile_cons, hx, hrest.2]

/-! ## Data model: signal bits and gate records

`RTLIL::SigBit` is either a bit of a wire (wire pointer + offset) or a
constant (`wire == nullptr`, with a constant state).  `gate_t`
(orlo.cc:182-190) is the signal-registry record. -/

/-- A host-design wire: its `IdString` name (including the leading
`\`/`$` character) and its width. -/
structure WireM where
  name : List Char
  width : Nat
  deriving DecidableEq, Repr

/-- A canonical signal bit: a (wire, offset) pair, or a constant when
`wire = none` (`cval` is the constant's logic value). -/
structure BitM where
  wire : Option WireM
  offset : Nat
  cval : Bool := false
  deriving DecidableEq, Repr

/-- Initial value of a flip-flop output bit (`RTLIL::State` as used
here: 0, 1 or don't-care). -/
inductive InitV where
  | s0 | s1 | sx
  deriving DecidableEq, Repr

/-- The registry record `gate_t` of orlo.cc:182-190. -/
structure Gate where
  id : Nat
  type : GateType
  in1 : Int
  in2 : Int
  in3 : Int
  in4 : Int
  is_port : Bool
  bit : BitM
  init : InitV
  deriving DecidableEq, Repr

/-- The registry state: the globals `signal_list` (a vector of gates
indexed by id) and `signal_map` (a map from canonical bit to id,
modelled as an association list with distinct keys). -/
structure RegState where
  signal_list : List Gate
  signal_map : List (BitM × Nat)
  deriving DecidableEq, Repr

/-- Lookup in the modelled `std::map<RTLIL::SigBit, int>`. -/
def smLookup : List (BitM × Nat) → BitM → Option Nat
  | [], _ => none
  | (k, v) :: m, b => if k = b then some v else smLookup m b

/-- `map_signal` (orlo.cc:216-249).  `σ` models the `assign_map`
signal-map collaborator (`assign_map.apply(bit)`), `iv` the `initvals`
collaborator.  Returns the id and the updated registry; repeated calls
never fail (the function is total). -/
def map_signal (σ : BitM → BitM) (iv : BitM → InitV) (s : RegState) (bit : BitM)
    (gate_type : GateType := G_NONE) (in1 : Int := -1) (in2 : Int := -1)
    (in3 : Int := -1) (in4 : Int := -1) : Nat × RegState :=
  let b := σ bit
  let s1 : RegState :=
    if smLookup s.signal_map b = none then
      { signal_list := s.signal_list ++
          [{ id := s.signal_list.length, type := G_NONE, in1 := -1, in2 := -1,
             in3 := -1, in4 := -1, is_port := false, bit := b, init := iv b }],
        signal_map := (b, s.signal_list.length) :: s.signal_map }
    else s
  match smLookup s1.signal_map b with
  | none => (0, s1)
  | some gid =>
    match s1.signal_list[gid]? with
    | none => (gid, s1)
    | some g =>
      let g' : Gate :=
        { g with
          type := if gate_type ≠ G_NONE then gate_type else g.type,
          in1 := if 0 ≤ in1 then in1 else g.in1,
          in2 := if 0 ≤ in2 then in2 else g.in2,
          in3 := if 0 ≤ in3 then in3 else g.in3,
          in4 := if 0 ≤ in4 then in4 else g.in4 }
      (gid, { s1 with signal_list := s1.signal_list.set gid g' })

/-- One iteration of the `mark_port` loop body (orlo.cc:253-255):
set `is_port` when the canonical bit is wire-backed and registered. -/
def mark_port_step (σ : BitM → BitM) (st : RegState) (bit : BitM) : RegState :=
  let b := σ bit
  if b.wire ≠ none then
    match smLookup st.signal_map b with
    | some idx =>
      match st.signal_list[idx]? with
      | some g =>
        { st with signal_list := st.signal_list.set idx { g with is_port := true } }
      | none => st
    | none => st
  else st

/-- `mark_port` (orlo.cc:251-256): for every bit of the canonicalized
signal, set `is_port` when the bit is wire-backed and registered. -/
def mark_port (σ : BitM → BitM) (s : RegState) (sig : List BitM) : RegState :=
  sig.foldl (mark_port_step σ) s

/-- Registry well-formedness: every map entry points at a gate in range
whose stored bit is the map key. -/
def RegWf (s : RegState) : Prop :=
  ∀ p ∈ s.signal_map, p.2 < s.signal_list.length ∧
    ∃ g, s.signal_list[p.2]? = some g ∧ g.bit = p.1

instance (s : RegState) : Decidable (RegWf s) := by
  unfold RegWf; infer_instance

theorem smLookup_mem : ∀ {m : List (BitM × Nat)} {b : BitM} {i : Nat},
    smLookup m b = some i → (b, i) ∈ m := by
  intro m
  induction m with
  | nil => intro b i h; simp [smLookup] at h
  | cons p m ih =>
    intro b i h
    obtain ⟨k, v⟩ := p
    by_cases hpb : k = b
    · subst hpb
      simp only [smLookup, if_pos rfl] at h
      obtain rfl := Option.some_inj.mp h
      exact List.mem_cons_self _ _
    · exact List.mem_cons_of_mem _ (ih (by simpa [smLookup, hpb] using h))

/-- C8: `register`/`map_signal` first canonicalizes the bit through the
signal map; an unseen canonical bit allocates the next dense id and
stores a node with kind `unconnected` and all four fan-ins `-1`; a
non-`unconnected` kind argument overwrites the stored kind; each fan-in
argument `≥ 0` overwrites the corresponding slot; the (possibly
pre-existing) id is returned, and repeated calls never raise an error
(the function is total and the map and the other gates are untouched). -/
theorem map_signal_register_semantics (σ : BitM → BitM) (iv : BitM → InitV)
    (s : RegState) (bit : BitM) (t : GateType) (i1 i2 i3 i4 : Int)
    (hwf : RegWf s) :
    (∀ (σ' : BitM → BitM) (bit' : BitM), σ bit = σ' bit' →
      map_signal σ iv s bit t i1 i2 i3 i4 = map_signal σ' iv s bit' t i1 i2 i3 i4) ∧
    (smLookup s.signal_map (σ bit) = none →
      let r := map_signal σ iv s bit t i1 i2 i3 i4
      r.1 = s.signal_list.length ∧
      r.2.signal_map = (σ bit, s.signal_list.length) :: s.signal_map ∧
      r.2.signal_list.length = s.signal_list.length + 1 ∧
      r.2.signal_list[r.1]? = some
        { id := s.signal_list.length,
          type := if t ≠ G_NONE then t else G_NONE,
          in1 := if 0 ≤ i1 then i1 else -1,
          in2 := if 0 ≤ i2 then i2 else -1,
          in3 := if 0 ≤ i3 then i3 else -1,
          in4 := if 0 ≤ i4 then i4 else -1,
          is_port := false, bit := σ bit, init := iv (σ bit) } ∧
      (∀ j, j ≠ r.1 → r.2.signal_list[j]? = s.signal_list[j]?)) ∧
    (∀ i, smLookup s.signal_map (σ bit) = some i →
      let r := map_signal σ iv s bit t i1 i2 i3 i4
      r.1 = i ∧
      r.2.signal_map = s.signal_map ∧
      r.2.signal_list.length = s.signal_list.length ∧
      (∀ g, s.signal_list[i]? = some g →
        r.2.signal_list[i]? = some
          { g with
            type := if t ≠ G_NONE then t else g.type,
            in1 := if 0 ≤ i1 then i1 else g.in1,
            in2 := if 0 ≤ i2 then i2 else g.in2,
            in3 := if 0 ≤ i3 then i3 else g.in3,
            in4 := if 0 ≤ i4 then i4 else g.in4 }) ∧
      (∀ j, j ≠ i → r.2.signal_list[j]? = s.signal_list[j]?)) := by
  refine ⟨?_, ?_, ?_⟩
  · intro σ' bit' h
    unfold map_signal
    rw [h]
  · intro hnone
    unfold map_signal
    simp only [hnone, if_pos rfl, smLookup, if_pos rfl, reduceIte]
    have hlen : (s.signal_list ++
        [{ id := s.signal_list.length, type := G_NONE, in1 := -1, in2 := -1,
           in3 := -1, in4 := -1, is_port := false, bit := σ bit,
           init := iv (σ bit) }])[s.signal_list.length]? = some
        { id := s.signal_list.length, type := G_NONE, in1 := -1, in2 := -1,
          in3 := -1, in4 := -1, is_port := false, bit := σ bit,
          init := iv (σ bit) } := List.getElem?_concat_length _ _
    simp only [hlen]
    refine ⟨trivial, trivial, by simp, ?_, ?_⟩
    · rw [List.getElem?_set_self', hlen]
      rfl
    · intro j hj
      rw [List.getElem?_set_ne (fun hcl => hj hcl.symm)]
      by_cases hlt : j < s.signal_list.length
      · exact List.getElem?_append_left hlt
      · rw [List.getElem?_eq_none
            (by simp only [List.length_set, List.length_append, List.length_singleton]; omega),
          List.getElem?_eq_none (by omega)]
  · intro i hsome
    rcases hwf (σ bit, i) (smLookup_mem hsome) with ⟨hi0, g, hg0, hbit0⟩
    have hg : s.signal_list[i]? = some g := hg0
    unfold map_signal
    simp only [hsome, reduceCtorEq, reduceIte, hg]
    refine ⟨trivial, trivial, by simp, ?_, ?_⟩
    · intro g2 hg2
      have hgg : g2 = g := (Option.some_inj.mp hg2).symm
      subst hgg
      rw [List.getElem?_set_self', hg]
      rfl
    · intro j hj
      rw [List.getElem?_set_ne (fun hc => hj hc.symm)]

/-- Witness input for the registry theorems: one registered wire-backed
bit and one registered constant bit. -/
def wireW : WireM := { name := ['\\', 'a'], width := 1 }

/-- Witness bit backed by `wireW`. -/
def bitW : BitM := { wire := some wireW, offset := 0 }

/-- Witness constant bit (no backing wire). -/
def bitC : BitM := { wire := none, offset := 0, cval := true }

/-- Witness registry with `bitW` and `bitC` registered. -/
def regW : RegState :=
  { signal_list :=
      [{ id := 0, type := G_NONE, in1 := -1, in2 := -1, in3 := -1, in4 := -1,
         is_port := false, bit := bitW, init := InitV.sx },
       { id := 1, type := G_NONE, in1 := -1, in2 := -1, in3 := -1, in4 := -1,
         is_port := false, bit := bitC, init := InitV.sx }],
    signal_map := [(bitW, 0), (bitC, 1)] }

/-- Witness for C8: registering the already-seen bit `bitW` with kind
`G_AND` returns id 0, leaves the map unchanged and overwrites the kind. -/
theorem map_signal_register_semantics_witness :
    (map_signal id (fun _ => InitV.sx) regW bitW G_AND 1 (-1) (-1) (-1)).1 = 0 ∧
    (map_signal id (fun _ => InitV.sx) regW bitW G_AND 1 (-1) (-1) (-1)).2.signal_map
      = regW.signal_map :=
  ⟨((map_signal_register_semantics id (fun _ => InitV.sx) regW bitW G_AND
      1 (-1) (-1) (-1) (by decide)).2.2 0 (by decide)).1,
   ((map_signal_register_semantics id (fun _ => InitV.sx) regW bitW G_AND
      1 (-1) (-1) (-1) (by decide)).2.2 0 (by decide)).2.1⟩

/-- Relation between the original registry and a registry obtained from
it by only turning on `is_port` flags of wire-backed nodes. -/
def PortFrame (s st : RegState) : Prop :=
  st.signal_map = s.signal_map ∧
  st.signal_list.length = s.signal_list.length ∧
  ∀ (i : Nat) (g' : Gate), st.signal_list[i]? = some g' →
    ∃ g : Gate, s.signal_list[i]? = some g ∧
      g'.id = g.id ∧ g'.type = g.type ∧ g'.in1 = g.in1 ∧ g'.in2 = g.in2 ∧
      g'.in3 = g.in3 ∧ g'.in4 = g.in4 ∧ g'.bit = g.bit ∧ g'.init = g.init ∧
      (g'.is_port = true → g.is_port = true ∨ g.bit.wire ≠ none)

theorem portFrame_refl (s : RegState) : PortFrame s s := by
  refine ⟨rfl, rfl, fun i g' h => ⟨g', h, rfl, rfl, rfl, rfl, rfl, rfl, rfl, rfl, ?_⟩⟩
  intro h2
  exact Or.inl h2

theorem portFrame_step (σ : BitM → BitM) (s : RegState) (hwf : RegWf s)
    (st : RegState) (hst : PortFrame s st) (b0 : BitM) :
    PortFrame s (mark_port_step σ st b0) := by
  obtain ⟨hmap, hlen, hpt⟩ := hst
  unfold mark_port_step
  by_cases hw : (σ b0).wire = none
  · rw [if_neg (by simp [hw])]
    exact ⟨hmap, hlen, hpt⟩
  · rw [if_pos (by simp [hw])]
    split
    rotate_left
    · exact ⟨hmap, hlen, hpt⟩
    rename_i idx hlk
    split
    rotate_left
    · exact ⟨hmap, hlen, hpt⟩
    rename_i g hget
    · refine ⟨hmap, by simpa using hlen, ?_⟩
      intro i g' hi
      by_cases hidx : i = idx
      · subst hidx
        rw [List.getElem?_set_self', hget] at hi
        obtain rfl := Option.some_inj.mp hi.symm
        obtain ⟨g0, hg0, hid, hty, h1, h2, h3, h4, hbitf, hinitf, hport⟩ := hpt i g hget
        refine ⟨g0, hg0, hid, hty, h1, h2, h3, h4, hbitf, hinitf, ?_⟩
        intro _
        right
        rcases hwf (σ b0, i) (smLookup_mem (by rw [← hmap]; exact hlk))
          with ⟨hlt0, gs, hgs, hbits⟩
        have hgs2 : some g0 = some gs := by
          have h3 : s.signal_list[i]? = some gs := hgs
          rw [hg0] at h3
          exact h3
        obtain hge := Option.some_inj.mp hgs2
        rw [hge, hbits]
        exact hw
      · rw [List.getElem?_set_ne (fun hc => hidx hc.symm)] at hi
        exact hpt i g' hi

theorem mark_port_fold_inv (σ : BitM → BitM) (s : RegState) (hwf : RegWf s) :
    ∀ (sig : List BitM) (st : RegState), PortFrame s st →
      PortFrame s (mark_port σ st sig) := by
  intro sig
  induction sig with
  | nil => intro st h; exact h
  | cons b0 sig ih =>
    intro st hst
    exact ih _ (portFrame_step σ s hwf st hst b0)

/-- C10: `mark_port` only ever sets `is_port`, and only on nodes whose
stored bit is backed by a wire and already registered; a registered
constant bit is never marked, and no other field of any node changes
(nor does the map or the list length). -/
theorem mark_port_only_sets_port_on_wire_backed (σ : BitM → BitM) (s : RegState)
    (sig : List BitM) (hwf : RegWf s) :
    (mark_port σ s sig).signal_map = s.signal_map ∧
    (mark_port σ s sig).signal_list.length = s.signal_list.length ∧
    ∀ (i : Nat) (g' : Gate), (mark_port σ s sig).signal_list[i]? = some g' →
      ∃ g : Gate, s.signal_list[i]? = some g ∧
        g'.id = g.id ∧ g'.type = g.type ∧ g'.in1 = g.in1 ∧ g'.in2 = g.in2 ∧
        g'.in3 = g.in3 ∧ g'.in4 = g.in4 ∧ g'.bit = g.bit ∧ g'.init = g.init ∧
        (g'.is_port = true → g.is_port = true ∨ g.bit.wire ≠ none) :=
  mark_port_fold_inv σ s hwf sig s (portFrame_refl s)

/-- Witness for C10: marking both the wire-backed bit and the constant
bit of `regW` leaves the map unchanged, and the constant node (index 1)
keeps `is_port = false`. -/
theorem mark_port_only_sets_port_on_wire_backed_witness :
    (mark_port id regW [bitW, bitC]).signal_map = regW.signal_map :=
  (mark_port_only_sets_port_on_wire_backed id regW [bitW, bitC] (by decide)).1

/-! ## `remap_name` (orlo.cc:423-460)

Maps a name from ABC's output BLIF back to a design-stable name.
Internal emitter names look like `\ys__n<id>` (optionally prefixed by
`new_` for ABC's duplicate instances and postfixed by a non-digit
suffix); they are resolved through `signal_list` back to the original
wire's name under the `$abc$<map_autoidx>$...` namespace. -/

/-- The characters of `"new_"`. -/
def newPfx : List Char := ['n', 'e', 'w', '_']

/-- The characters of `"ys__n"`. -/
def ysnPfx : List Char := ['y', 's', '_', '_', 'n']

/-- The characters of `"$abc$%d$"` with the pass counter filled in. -/
def abcPfx (autoidx : Nat) : List Char :=
  '$' :: 'a' :: 'b' :: 'c' :: '$' :: (natToDecStr autoidx ++ ['$'])

/-- The fallback result of `remap_name` (orlo.cc:459): namespace the
whole foreign name (minus its first character) under the pass counter. -/
def fallbackName (autoidx : Nat) (nm : List Char) : List Char :=
  abcPfx autoidx ++ nm.drop 1

/-- The part of `remap_name` after the optional `new_` prefix has been
stripped (`s2` is `abc_sname`, `isnew` records the stripped prefix). -/
def remapCore (sl : List Gate) (autoidx : Nat) (nm s2 : List Char) (isnew : Bool) :
    List Char :=
  if s2.take 5 = ysnPfx then
    let s3 := s2.drop 5
    match s3.head? with
    | some c =>
      if isDigitC c then
        let sid := decValue (s3.takeWhile isDigitC)
        let sfx := s3.dropWhile isDigitC
        match sl[sid]? with
        | some g =>
          match g.bit.wire with
          | some w =>
            abcPfx autoidx ++ w.name.drop 1
              ++ (if w.width ≠ 1 then '[' :: (natToDecStr g.bit.offset ++ [']']) else [])
              ++ (if isnew then ['_', 'n', 'e', 'w'] else [])
              ++ sfx
          | none => fallbackName autoidx nm
        | none => fallbackName autoidx nm
      else fallbackName autoidx nm
    | none => fallbackName autoidx nm
  else fallbackName autoidx nm

/-- `remap_name` (orlo.cc:423-460). -/
def remapName (sl : List Gate) (autoidx : Nat) (nm : List Char) : List Char :=
  let sname := nm.drop 1
  if sname.take 4 = newPfx then remapCore sl autoidx nm (sname.drop 4) true
  else remapCore sl autoidx nm sname false

theorem remapCore_resolves (sl : List Gate) (autoidx id : Nat) (isnew : Bool)
    (nm sfx : List Char) (g : Gate) (w : WireM)
    (hid : sl[id]? = some g) (hw : g.bit.wire = some w)
    (hsfx : ∀ c, sfx.head? = some c → isDigitC c = false) :
    remapCore sl autoidx nm (ysnPfx ++ natToDecStr id ++ sfx) isnew
      = abcPfx autoidx ++ w.name.drop 1
          ++ (if w.width ≠ 1 then '[' :: (natToDecStr g.bit.offset ++ [']']) else [])
          ++ (if isnew then ['_', 'n', 'e', 'w'] else [])
          ++ sfx := by
  have htake : ((ysnPfx ++ natToDecStr id ++ sfx)).take 5 = ysnPfx := by
    rw [List.append_assoc]
    have := List.take_left ysnPfx (natToDecStr id ++ sfx)
    simpa [ysnPfx] using this
  have hdrop : ((ysnPfx ++ natToDecStr id ++ sfx)).drop 5 = natToDecStr id ++ sfx := by
    rw [List.append_assoc]
    have := List.drop_left ysnPfx (natToDecStr id ++ sfx)
    simpa [ysnPfx] using this
  obtain ⟨c, cs, hdec⟩ : ∃ c cs, natToDecStr id = c :: cs := by
    cases h : natToDecStr id with
    | nil => exact absurd h (natToDecStr_ne_nil id)
    | cons c cs => exact ⟨c, cs, rfl⟩
  have hheadc : (natToDecStr id ++ sfx).head? = some c := by rw [hdec]; rfl
  have hcdig : isDigitC c = true :=
    natToDecStr_digits id c (by rw [hdec]; exact List.mem_cons_self _ _)
  have hsplit := takeWhile_append_digits (natToDecStr id) (natToDecStr_digits id) sfx hsfx
  unfold remapCore
  rw [if_pos htake]
  simp only [hdrop, hheadc, hcdig, if_pos rfl, hsplit.1, hsplit.2,
    decValue_natToDecStr, hid, hw, if_true]

/-- C7: for a flattened node whose originating bit belongs to a named
wire, `remap_name` applied to the emitter's internal name
`\ys__n<id>` (with optional `new_` prefix and a non-digit suffix)
returns exactly `$abc$<pass counter>$<original wire name>` with
`[<bit offset>]` appended when the wire is wider than one bit, `_new`
appended for the duplicate-instance prefix, and the suffix carried
over — for every pass-counter / id / bus-index combination. -/
theorem remap_name_recovers_documented_convention (sl : List Gate)
    (autoidx id : Nat) (isnew : Bool) (sfx : List Char) (g : Gate) (w : WireM)
    (hid : sl[id]? = some g) (hw : g.bit.wire = some w)
    (hsfx : ∀ c, sfx.head? = some c → isDigitC c = false) :
    remapName sl autoidx
        ('\\' :: ((if isnew then newPfx else []) ++ (ysnPfx ++ natToDecStr id ++ sfx)))
      = abcPfx autoidx ++ w.name.drop 1
          ++ (if w.width ≠ 1 then '[' :: (natToDecStr g.bit.offset ++ [']']) else [])
          ++ (if isnew then ['_', 'n', 'e', 'w'] else [])
          ++ sfx := by
  cases isnew with
  | true =>
    have htake : ((newPfx ++ (ysnPfx ++ natToDecStr id ++ sfx))).take 4 = newPfx := by
      have h2 := List.take_left newPfx (ysnPfx ++ natToDecStr id ++ sfx)
      simpa [newPfx] using h2
    have hdrop : ((newPfx ++ (ysnPfx ++ natToDecStr id ++ sfx))).drop 4
        = ysnPfx ++ natToDecStr id ++ sfx := by
      have h2 := List.drop_left newPfx (ysnPfx ++ natToDecStr id ++ sfx)
      simpa [newPfx] using h2
    unfold remapName
    simp only [List.drop_succ_cons, List.drop_zero, eq_self_iff_true, if_true]
    rw [if_pos htake, hdrop]
    have h3 := remapCore_resolves sl autoidx id true
      ('\\' :: (newPfx ++ (ysnPfx ++ natToDecStr id ++ sfx))) sfx g w hid hw hsfx
    simpa using h3
  | false =>
    have htake : ((ysnPfx ++ natToDecStr id ++ sfx)).take 4 ≠ newPfx := by
      rw [List.append_assoc,
        List.take_append_of_le_length (by simp [ysnPfx] : 4 ≤ ysnPfx.length)]
      decide
    unfold remapName
    simp only [List.drop_succ_cons, List.drop_zero, Bool.false_eq_true, if_false,
      List.nil_append]
    rw [if_neg htake]
    have h3 := remapCore_resolves sl autoidx id false
      ('\\' :: (ysnPfx ++ natToDecStr id ++ sfx)) sfx g w hid hw hsfx
    simpa using h3

/-- Witness input for C7: a registry whose node 7 originates from bit 3
of the four-bit wire `\counter`. -/
def slCounter : List Gate :=
  List.replicate 7
    { id := 0, type := G_NONE, in1 := -1, in2 := -1, in3 := -1, in4 := -1,
      is_port := false, bit := bitC, init := InitV.sx } ++
  [{ id := 7, type := G_AND, in1 := 0, in2 := 1, in3 := -1, in4 := -1,
     is_port := true,
     bit := { wire := some { name := "\\counter".toList, width := 4 }, offset := 3 },
     init := InitV.sx }]

/-- Witness for C7: display name `\counter[3]`, internal id 7, pass
counter 42 yields exactly `$abc$42$counter[3]`. -/
theorem remap_name_recovers_documented_convention_witness :
    remapName slCounter 42
        ('\\' :: ((if false then newPfx else []) ++ (ysnPfx ++ natToDecStr 7 ++ [])))
      = "$abc$42$counter[3]".toList := by
  rw [remap_name_recovers_documented_convention slCounter 42 7 false []
    (slCounter.getLast (by decide))
    { name := "\\counter".toList, width := 4 }
    (by decide) (by decide) (fun c hc => by simp at hc)]
  decide

/-! ## `orlo_reintegrate`: output-file entry check (orlo.cc:759-771)

`orlo_reintegrate` begins by testing whether `<tempdir>/output.blif`
exists; a missing file is logged and the function returns without
touching the design.  Only a file that exists but cannot be opened is a
fatal `log_error`.  The number of outputs the domain declared
(`count_output` of the emitting pass) is not consulted here — it is not
even in scope in `orlo_reintegrate`; it is threaded through as a
phantom argument below only so that independence from it can be
stated. -/

/-- Outcome of the entry check of `orlo_reintegrate`. -/
inductive ReintAct where
  | skip | fatalOpen | proceed
  deriving DecidableEq, Repr

/-- The entry check of `orlo_reintegrate` (orlo.cc:759-771).
`declaredOutputs` is the number of `.outputs` entries the emitting pass
declared for this domain; the code never reads it. -/
def orlo_reintegrate_entry (outputFileExists openOk : Bool)
    (declaredOutputs : Nat) : ReintAct :=
  if outputFileExists = false then ReintAct.skip
  else if openOk = false then ReintAct.fatalOpen
  else ReintAct.proceed

/-- Counterexample for C9: for a domain with one declared output and a
missing output file, the code skips normally instead of raising the
fatal error the claim requires. -/
theorem orlo_reintegrate_entry_cx :
    orlo_reintegrate_entry false true 1 = ReintAct.skip ∧
    ReintAct.skip ≠ ReintAct.fatalOpen := by
  decide

/-- C9 (amended): a missing optimizer output file is always treated as
a normal skip (return without modifying the design), regardless of how
many outputs the domain declared; the entry check never depends on the
declared-output count, and its fatal error arises exactly when the file
exists but cannot be opened. -/
theorem orlo_reintegrate_entry_missing_file_skips :
    (∀ (openOk : Bool) (n : Nat),
      orlo_reintegrate_entry false openOk n = ReintAct.skip) ∧
    (∀ (ex ok : Bool) (n n' : Nat),
      orlo_reintegrate_entry ex ok n = orlo_reintegrate_entry ex ok n') ∧
    (∀ n : Nat, orlo_reintegrate_entry true false n = ReintAct.fatalOpen) ∧
    (∀ n : Nat, orlo_reintegrate_entry true true n = ReintAct.proceed) := by
  refine ⟨fun ok n => rfl, fun ex ok n n' => ?_, fun n => rfl, fun n => rfl⟩
  cases ex <;> cases ok <;> rfl

/-! ## Reintegration: closing the domain boundary (orlo.cc:989-1005)

After the mapped cells are rebuilt, every `is_port` node of
`signal_list` gets one host-module connection.  In RTLIL a connection
is a pair whose FIRST component is the driven signal and whose SECOND
component is the driver; orlo.cc itself fixes this orientation at
lines 798-803, where the `ZERO`/`ONE` cells connect the driven wire `Y`
as `conn.first` and the constant — which cannot be driven — as
`conn.second`. -/

/-- One side of an RTLIL connection: an original signal bit, or the
module wire found by name (`module->wire(remap_name(...))`). -/
inductive SigM where
  | bit (b : BitM)
  | wref (nm : List Char)
  deriving DecidableEq, Repr

/-- The buffer `"\ys__n%d"` built by `snprintf` at orlo.cc:993. -/
def ysBuf (id : Nat) : List Char := '\\' :: (ysnPfx ++ natToDecStr id)

/-- The boundary-closing loop of `orlo_reintegrate` (orlo.cc:990-1005):
for every `is_port` node, produce the `(driven, driver)` connection the
code passes to `module->connect`. -/
def reint_port_conns (sl : List Gate) (autoidx : Nat) : List (SigM × SigM) :=
  sl.flatMap (fun si =>
    if si.is_port = false then []
    else if si.type ≠ G_NONE then
      [(SigM.bit si.bit, SigM.wref (remapName sl autoidx (ysBuf si.id)))]
    else
      [(SigM.wref (remapName sl autoidx (ysBuf si.id)), SigM.bit si.bit)])

/-- Witness input for C1: a single boundary node with the concrete kind
`G_AND` originating from the wire-backed bit `bitW`. -/
def slC1 : List Gate :=
  [{ id := 0, type := G_AND, in1 := -1, in2 := -1, in3 := -1, in4 := -1,
     is_port := true, bit := bitW, init := InitV.sx }]

/-- Counterexample for C1: for the concrete-kind boundary node of
`slC1`, the emitted connection drives the original bit from the
remapped wire — the pair with the original bit as driver (which the
claim requires) is not produced. -/
theorem reint_port_conns_direction_cx :
    reint_port_conns slC1 5 =
      [(SigM.bit bitW, SigM.wref (remapName slC1 5 (ysBuf 0)))] ∧
    (SigM.wref (remapName slC1 5 (ysBuf 0)), SigM.bit bitW) ∉
      reint_port_conns slC1 5 := by
  decide

/-- C1 (amended): after reintegration every boundary node is connected
back to its original bit, with the drive directions as the code
produces them: a boundary node with a concrete gate kind has its
original bit DRIVEN BY the remapped output wire named from
`ys__n<id>`, and a boundary node with kind `unconnected` has the
remapped input wire DRIVEN BY its original bit. -/
theorem reint_port_conns_close_boundary (sl : List Gate) (autoidx : Nat) :
    ∀ si ∈ sl, si.is_port = true →
      (si.type ≠ G_NONE →
        (SigM.bit si.bit, SigM.wref (remapName sl autoidx (ysBuf si.id)))
          ∈ reint_port_conns sl autoidx) ∧
      (si.type = G_NONE →
        (SigM.wref (remapName sl autoidx (ysBuf si.id)), SigM.bit si.bit)
          ∈ reint_port_conns sl autoidx) := by
  intro si hmem hport
  constructor
  · intro hty
    refine List.mem_flatMap.mpr ⟨si, hmem, ?_⟩
    rw [hport]
    simp only [Bool.true_eq_false, if_false, if_pos hty]
    exact List.mem_singleton.mpr rfl
  · intro hty
    refine List.mem_flatMap.mpr ⟨si, hmem, ?_⟩
    rw [hport]
    have : ¬ (si.type ≠ G_NONE) := by simp [hty]
    simp only [Bool.true_eq_false, if_false, if_neg this]
    exact List.mem_singleton.mpr rfl

/-- Witness for C1 (amended): the `G_AND` boundary node of `slC1`
produces the bit-driven-by-remapped-wire connection. -/
theorem reint_port_conns_close_boundary_witness :
    (SigM.bit bitW, SigM.wref (remapName slC1 5 (ysBuf 0)))
      ∈ reint_port_conns slC1 5 :=
  ((reint_port_conns_close_boundary slC1 5
      { id := 0, type := G_AND, in1 := -1, in2 := -1, in3 := -1, in4 := -1,
        is_port := true, bit := bitW, init := InitV.sx }
      (by decide) rfl).1 (by decide))

/-! ## `handle_loops` (orlo.cc:491-622)

Kahn's topological sort over the fan-in graph of `signal_list`,
breaking residual combinational cycles by promoting a node to a domain
boundary.  The C++ state is embedded as follows: the `std::map<int,
std::set<int>> edges` becomes a key set plus a value function (an
absent key has the empty value); `std::set<int> workpool` becomes a
`Finset` whose `begin()` is its minimum; `in_edges_count` stays a list
indexed by node id.  The `$abcloop$` wire created by a break goes
through `map_signal`; a brand-new wire is not in `assign_map`, which
therefore returns its bit unchanged, so the registry is invoked with
the identity signal map. -/

/-- A combinational node: neither a boundary (`G_NONE`) nor a
flip-flop. -/
def isComb (g : Gate) : Prop := g.type ≠ G_NONE ∧ g.type ≠ G_FF

instance (g : Gate) : Decidable (isComb g) := by unfold isComb; infer_instance

/-- The distinct non-negative fan-ins of a gate, with the duplicate
tests exactly as written at orlo.cc:510-525. -/
def fanList (g : Gate) : List Nat :=
  (if 0 ≤ g.in1 then [g.in1.toNat] else []) ++
  (if 0 ≤ g.in2 ∧ g.in2 ≠ g.in1 then [g.in2.toNat] else []) ++
  (if 0 ≤ g.in3 ∧ g.in3 ≠ g.in2 ∧ g.in3 ≠ g.in1 then [g.in3.toNat] else []) ++
  (if 0 ≤ g.in4 ∧ g.in4 ≠ g.in3 ∧ g.in4 ≠ g.in2 ∧ g.in4 ≠ g.in1 then [g.in4.toNat] else [])

/-- The set of fan-in node ids of a gate. -/
def fanSet (g : Gate) : Finset Nat := (fanList g).toFinset

theorem mem_fanSet {g : Gate} {u : Nat} :
    u ∈ fanSet g ↔
      g.in1 = (u : Int) ∨ g.in2 = (u : Int) ∨ g.in3 = (u : Int) ∨ g.in4 = (u : Int) := by
  unfold fanSet fanList
  simp only [List.mem_toFinset, List.mem_append]
  constructor
  · intro h
    rcases h with ((h | h) | h) | h <;> split_ifs at h <;>
      simp only [List.mem_singleton, List.not_mem_nil] at h <;> omega
  · intro h
    by_cases h1 : g.in1 = (u : Int)
    · left; left; left
      rw [if_pos (by omega)]
      simp only [List.mem_singleton]
      omega
    · by_cases h2 : g.in2 = (u : Int)
      · left; left; right
        rw [if_pos (by omega)]
        simp only [List.mem_singleton]
        omega
      · by_cases h3 : g.in3 = (u : Int)
        · left; right
          rw [if_pos (by omega)]
          simp only [List.mem_singleton]
          omega
        · have h4 : g.in4 = (u : Int) := by tauto
          right
          rw [if_pos (by omega)]
          simp only [List.mem_singleton]
          omega

/-- `std::string operator<`: lexicographic comparison of char lists. -/
def strLt : List Char → List Char → Bool
  | [], [] => false
  | [], _ :: _ => true
  | _ :: _, [] => false
  | a :: as, b :: bs => if a < b then true else if b < a then false else strLt as bs

theorem strLt_irrefl : ∀ x : List Char, strLt x x = false := by
  intro x
  induction x with
  | nil => rfl
  | cons a as ih => simp [strLt, ih]

theorem strLt_asymm : ∀ x y : List Char, strLt x y = true → strLt y x = false := by
  intro x
  induction x with
  | nil => intro y h; cases y <;> simp_all [strLt]
  | cons a as ih =>
    intro y h
    cases y with
    | nil => simp [strLt] at h
    | cons b bs =>
      simp only [strLt] at h ⊢
      by_cases hab : a < b
      · have hba : ¬ b < a := by
          intro hc; exact absurd (lt_trans hab hc) (lt_irrefl a)
        simp [hba, hab]
      · by_cases hba : b < a
        · simp [hab, hba] at h
        · simp only [hab, hba, if_false] at h ⊢
          exact ih bs h

theorem strLt_total : ∀ x y : List Char, strLt x y = false → strLt y x = false → x = y := by
  intro x
  induction x with
  | nil => intro y h1 h2; cases y <;> simp_all [strLt]
  | cons a as ih =>
    intro y h1 h2
    cases y with
    | nil => simp [strLt] at h2
    | cons b bs =>
      simp only [strLt] at h1 h2
      by_cases hab : a < b
      · simp [hab] at h1
      · by_cases hba : b < a
        · simp [hba, hab] at h2
        · have hEq : a = b := le_antisymm (not_lt.mp hba) (not_lt.mp hab)
          simp only [hab, hba, if_false] at h1 h2
          rw [hEq, ih bs h1 (by simpa using h2)]

theorem strLt_trans : ∀ x y z : List Char,
    strLt x y = true → strLt y z = true → strLt x z = true := by
  intro x
  induction x with
  | nil =>
    intro y z h1 h2
    cases y with
    | nil => simp [strLt] at h1
    | cons b bs => cases z with
      | nil => simp [strLt] at h2
      | cons c cs => rfl
  | cons a as ih =>
    intro y z h1 h2
    cases y with
    | nil => simp [strLt] at h1
    | cons b bs =>
      cases z with
      | nil => simp [strLt] at h2
      | cons c cs =>
        simp only [strLt] at h1 h2 ⊢
        by_cases hab : a < b
        · by_cases hbc : b < c
          · simp [lt_trans hab hbc]
          · by_cases hcb : c < b
            · rw [if_neg hbc, if_pos hcb] at h2
              simp at h2
            · have hbe : b = c := le_antisymm (not_lt.mp hcb) (not_lt.mp hbc)
              subst hbe
              simp [hab]
        · by_cases hba : b < a
          · simp [hab, hba] at h1
          · have hEq : a = b := le_antisymm (not_lt.mp hba) (not_lt.mp hab)
            subst hEq
            rw [if_neg (lt_irrefl a), if_neg (lt_irrefl a)] at h1
            by_cases hac : a < c
            · simp [hac]
            · by_cases hca : c < a
              · rw [if_neg hac, if_pos hca] at h2
                simp at h2
              · rw [if_neg hac, if_neg hca] at h2 ⊢
                exact ih bs cs h1 h2

/-- The characters of `"$abcloop$"`. -/
def abcloopPfx : List Char := ['$', 'a', 'b', 'c', 'l', 'o', 'o', 'p', '$']

/-- The name `"$abcloop$" << autoidx` of the synthetic loop-breaking
wire (orlo.cc:581-583). -/
def abcloopName (m : Nat) : List Char := abcloopPfx ++ natToDecStr m

/-- State of `handle_loops`: the registry globals plus the local
`edges` / `in_edges_count` / `workpool` of orlo.cc:496-498, the global
`autoidx` used for fresh wire names, and the host-module connections
added by breaks (`module->connect`, driven signal first). -/
structure HLState where
  sl : List Gate
  smap : List (BitM × Nat)
  edges_keys : Finset Nat
  eout : Nat → Finset Nat
  counts : List Nat
  wp : Finset Nat
  aidx : Nat
  conns : List (BitM × BitM)

/-- Initial state built by the loop at orlo.cc:506-527: boundary and
flip-flop nodes seed the workpool; every other (combinational) node
contributes one edge `u → g.id` and one in-count per distinct fan-in
`u`.  (Node ids equal `signal_list` positions, the registry's
construction invariant.) -/
def initHL (sl : List Gate) (smap : List (BitM × Nat)) (aidx : Nat) : HLState :=
  { sl := sl, smap := smap,
    edges_keys := (sl.filter (fun g => decide (isComb g))).foldr
      (fun g acc => fanSet g ∪ acc) ∅,
    eout := fun u =>
      ((sl.filter (fun g => decide (isComb g) && decide (u ∈ fanSet g))).map Gate.id).toFinset,
    counts := sl.map (fun g => if isComb g then (fanSet g).card else 0),
    wp := ((sl.filter (fun g => !decide (isComb g))).map Gate.id).toFinset,
    aidx := aidx, conns := [] }

/-- Removal of a workpool node (orlo.cc:531-543): decrement the
in-count of each successor, enqueueing those that reach zero, then
erase the node's edge-map entry. -/
def popStep (st : HLState) (id : Nat) : HLState :=
  let succs := st.eout id
  { st with
    wp := (st.wp.erase id) ∪ succs.filter (fun i => st.counts.getD i 0 = 1),
    counts := st.counts.mapIdx (fun i c => if i ∈ succs then c - 1 else c),
    eout := Function.update st.eout id ∅,
    edges_keys := st.edges_keys.erase id }

/-- The wire pointer of the bit a node originates from. -/
def wireOfId (st : HLState) (i : Nat) : Option WireM :=
  (st.sl[i]?).bind (fun g => g.bit.wire)

/-- One comparison of the candidate scan at orlo.cc:554-572: does the
entry `id2` replace the current candidate `id1`? -/
def chooseCand (st : HLState) (id1 id2 : Nat) : Bool :=
  match wireOfId st id1, wireOfId st id2 with
  | none, _ => true
  | some _, none => false
  | some w1, some w2 =>
    if w1.name.head? = some '$' ∧ w2.name.head? = some '\\' then true
    else if w1.name.head? = some '\\' ∧ w2.name.head? = some '$' then false
    else if (st.eout id1).card < (st.eout id2).card then true
    else if (st.eout id2).card < (st.eout id1).card then false
    else strLt w2.name w1.name

/-- The edge-map keys in ascending key order (`std::map` iteration
order; every key is a node id, hence below `signal_list.size()`). -/
def sortedKeys (st : HLState) : List Nat :=
  (List.range st.sl.length).filter (fun k => decide (k ∈ st.edges_keys))

/-- The node picked for breaking (orlo.cc:552-572): start from
`edges.begin()` and scan all entries with `chooseCand`. -/
def chooseBreak (st : HLState) : Nat :=
  match sortedKeys st with
  | [] => 0
  | k0 :: ks => (k0 :: ks).foldl (fun id1 id2 => if chooseCand st id1 id2 then id2 else id1) k0

theorem chooseBreak_mem (st : HLState) (h : sortedKeys st ≠ []) :
    chooseBreak st ∈ sortedKeys st := by
  unfold chooseBreak
  rcases hs : sortedKeys st with _ | ⟨k0, ks⟩
  · exact absurd hs h
  · have main : ∀ (l : List Nat) (acc : Nat) (big : List Nat), acc ∈ big → (∀ x ∈ l, x ∈ big) →
        l.foldl (fun id1 id2 => if chooseCand st id1 id2 then id2 else id1) acc ∈ big := by
      intro l
      induction l with
      | nil => intro acc big hacc _; exact hacc
      | cons x xs ih =>
        intro acc big hacc hsub
        simp only [List.foldl_cons]
        by_cases hc : chooseCand st acc x = true
        · rw [if_pos hc]
          exact ih x big (hsub x (List.mem_cons_self _ _)) (fun y hy => hsub y (List.mem_cons_of_mem _ hy))
        · rw [if_neg (by simpa using hc)]
          exact ih acc big hacc (fun y hy => hsub y (List.mem_cons_of_mem _ hy))
    exact main (k0 :: ks) k0 (k0 :: ks) (List.mem_cons_self _ _) (fun x hx => hx)

/-- Set the `is_port` flag of the node at index `i`. -/
def setPort (sl : List Gate) (i : Nat) : List Gate :=
  match sl[i]? with
  | some g => sl.set i { g with is_port := true }
  | none => sl

/-- Rewrite the fan-in references `id1 → id3` of one gate
(orlo.cc:603-612). -/
def rewireGate (id1 id3 : Nat) (g : Gate) : Gate :=
  { g with
    in1 := if g.in1 = (id1 : Int) then (id3 : Int) else g.in1,
    in2 := if g.in2 = (id1 : Int) then (id3 : Int) else g.in2,
    in3 := if g.in3 = (id1 : Int) then (id3 : Int) else g.in3,
    in4 := if g.in4 = (id1 : Int) then (id3 : Int) else g.in4 }

/-- Breaking a loop at the chosen node `id1` (orlo.cc:579-616): create
the fresh `$abcloop$` wire, register it (a fresh bit misses the signal
map and allocates the next id — `log_assert(id3 ==
in_edges_count.size())`, modelled by the guard; the other assert is
`signal_list[id1].bit.wire != nullptr`), mark both nodes as ports,
rewrite every successor's fan-in from `id1` to `id3`, swap the two
edge-map entries, enqueue `id3`, and connect the new node's bit as
driver of the original bit (`SigSig(signal_list[id3].bit,
signal_list[id1].bit)`, driven first). -/
def breakStep (iv : BitM → InitV) (st : HLState) (id1 : Nat) : Option HLState :=
  if wireOfId st id1 = none then none
  else
    let b : BitM := { wire := some { name := abcloopName st.aidx, width := 1 }, offset := 0 }
    let r := map_signal (fun x => x) iv { signal_list := st.sl, signal_map := st.smap } b
    let id3 := r.1
    if id3 = st.counts.length then
      let sl1 := setPort (setPort r.2.signal_list id1) id3
      let sl2 := sl1.map (fun g => if g.id ∈ st.eout id1 then rewireGate id1 id3 g else g)
      some
        { sl := sl2,
          smap := r.2.signal_map,
          edges_keys := insert id3 st.edges_keys,
          eout := Function.update (Function.update st.eout id3 (st.eout id1)) id1 (st.eout id3),
          counts := st.counts ++ [0],
          wp := insert id3 st.wp,
          aidx := st.aidx + 1,
          conns := st.conns ++ [(b, match st.sl[id1]? with
            | some g => g.bit
            | none => b)] }
    else none

theorem filter_length_mono {p q : Nat → Bool} :
    ∀ l : List Nat, (∀ x, q x = true → p x = true) →
      (l.filter q).length ≤ (l.filter p).length := by
  intro l himp
  induction l with
  | nil => simp
  | cons x xs ih =>
    by_cases hq : q x = true
    · rw [List.filter_cons_of_pos hq, List.filter_cons_of_pos (himp x hq)]
      simpa using ih
    · rw [List.filter_cons_of_neg (by simpa using hq)]
      by_cases hp : p x = true
      · rw [List.filter_cons_of_pos hp]
        simp only [List.length_cons]
        omega
      · rw [List.filter_cons_of_neg (by simpa using hp)]
        exact ih

theorem filter_length_strict {p q : Nat → Bool} :
    ∀ l : List Nat, (∀ x, q x = true → p x = true) →
      ∀ a ∈ l, p a = true → q a = false →
        (l.filter q).length < (l.filter p).length := by
  intro l himp
  induction l with
  | nil => intro a ha; simp at ha
  | cons x xs ih =>
    intro a ha hpa hqa
    rcases List.mem_cons.mp ha with rfl | hma
    · rw [List.filter_cons_of_pos hpa, List.filter_cons_of_neg (by simp [hqa])]
      have := filter_length_mono (p := p) (q := q) xs himp
      simp only [List.length_cons]
      omega
    · by_cases hq : q x = true
      · rw [List.filter_cons_of_pos hq, List.filter_cons_of_pos (himp x hq)]
        simpa using ih a hma hpa hqa
      · rw [List.filter_cons_of_neg (by simpa using hq)]
        by_cases hp : p x = true
        · rw [List.filter_cons_of_pos hp]
          have := ih a hma hpa hqa
          simp only [List.length_cons]
          omega
        · rw [List.filter_cons_of_neg (by simpa using hp)]
          exact ih a hma hpa hqa

theorem sortedKeys_erase_length (st : HLState) (id1 : Nat)
    (h : id1 ∈ sortedKeys st) :
    (sortedKeys { st with edges_keys := st.edges_keys.erase id1 }).length
      < (sortedKeys st).length := by
  unfold sortedKeys at h ⊢
  simp only [List.mem_filter, List.mem_range, decide_eq_true_eq] at h
  exact filter_length_strict (List.range st.sl.length)
    (fun x hx => by
      simp only [decide_eq_true_eq] at hx ⊢
      exact Finset.mem_of_mem_erase hx)
    id1 (List.mem_range.mpr h.1) (by simp [h.2]) (by simp)

/-- The inner `while (workpool.size() == 0)` loop of orlo.cc:547-617:
break cycles (or drop empty edge-map entries) until the workpool is
repopulated or the edge map is exhausted. -/
def innerLoop (iv : BitM → InitV) (st : HLState) : Option HLState :=
  if st.wp ≠ ∅ then some st
  else if h : sortedKeys st = [] then some st
  else
    let id1 := chooseBreak st
    if st.eout id1 = ∅ then
      innerLoop iv { st with edges_keys := st.edges_keys.erase id1 }
    else breakStep iv st id1
termination_by (sortedKeys st).length
decreasing_by
  exact sortedKeys_erase_length st (chooseBreak st) (chooseBreak_mem st h)

/-- The outer `while (workpool.size() > 0)` loop of orlo.cc:531-618,
with explicit fuel: pop `*workpool.begin()` (the minimum — `std::set`
iterates in order), process it, then run the inner loop. -/
def outerLoop (iv : BitM → InitV) : Nat → HLState → Option HLState
  | 0, _ => none
  | fuel + 1, st =>
    if h : st.wp = ∅ then some st
    else
      match innerLoop iv (popStep st (st.wp.min' (Finset.nonempty_iff_ne_empty.mpr h))) with
      | none => none
      | some st2 => outerLoop iv fuel st2

/-- Does the node at index `k` exist and is it combinational? -/
def combAtB (sl : List Gate) (k : Nat) : Bool :=
  match sl[k]? with
  | some g => decide (isComb g)
  | none => false

/-- Termination measure for the outer loop: edges weighted 3 from a
combinational source and 1 from a boundary/flip-flop source (an edge
is relocated at most once, always from weight 3 to weight 1), plus the
workpool size, the key count, and the total remaining in-count. -/
def phi (st : HLState) : Nat :=
  st.edges_keys.sum (fun k => (st.eout k).card * (if combAtB st.sl k then 3 else 1))
    + st.wp.card + st.edges_keys.card
    + (Finset.range st.counts.length).sum (fun i => st.counts.getD i 0)

/-- `handle_loops` (orlo.cc:491-622): build the initial Kahn state and
run the loop; `none` models a `log_assert` abort or fuel exhaustion
(the termination theorem shows the fuel suffices). -/
def handle_loops (iv : BitM → InitV) (sl : List Gate) (smap : List (BitM × Nat))
    (aidx : Nat) : Option HLState :=
  outerLoop iv (phi (initHL sl smap aidx) + 1) (initHL sl smap aidx)

/-- The directed fan-in edge relation restricted to combinational
nodes: `u → v` when `v` is combinational with fan-in `u`, itself
combinational. -/
def combEdgeB (sl : List Gate) (u v : Nat) : Bool :=
  match sl[u]?, sl[v]? with
  | some gu, some gv => decide (isComb gu) && decide (isComb gv) && decide (u ∈ fanSet gv)
  | _, _ => false

/-- Propositional form of `combEdgeB`. -/
def combEdge (sl : List Gate) (u v : Nat) : Prop := combEdgeB sl u v = true

instance (sl : List Gate) (u v : Nat) : Decidable (combEdge sl u v) := by
  unfold combEdge; infer_instance

/-- Counterexample input for C3: two buffers driving each other — a
combinational cycle with no boundary or flip-flop node, so the initial
workpool is empty. -/
def slLoop : List Gate :=
  [{ id := 0, type := G_BUF, in1 := 1, in2 := -1, in3 := -1, in4 := -1,
     is_port := false, bit := { wire := some { name := ['\\', 'a'], width := 1 }, offset := 0 },
     init := InitV.sx },
   { id := 1, type := G_BUF, in1 := 0, in2 := -1, in3 := -1, in4 := -1,
     is_port := false, bit := { wire := some { name := ['\\', 'b'], width := 1 }, offset := 0 },
     init := InitV.sx }]

/-- Counterexample for C3: on `slLoop` — a finite node graph with a
directed cycle among combinational nodes — `handle_loops` terminates
immediately (the `while (workpool.size() > 0)` loop is never entered),
returning the state unchanged, and the combinational fan-in graph
still has the cycle `0 → 1 → 0`: it is not a DAG. -/
theorem handle_loops_empty_workpool_keeps_cycle_cx :
    Relation.TransGen (combEdge slLoop) 0 0 ∧
    handle_loops (fun _ => InitV.sx) slLoop [] 0 = some (initHL slLoop [] 0) ∧
    Relation.TransGen (combEdge (initHL slLoop [] 0).sl) 0 0 := by
  refine ⟨Relation.TransGen.head (show combEdge slLoop 0 1 by decide)
      (Relation.TransGen.single (show combEdge slLoop 1 0 by decide)), ?_, ?_⟩
  · rfl
  · exact Relation.TransGen.head (show combEdge (initHL slLoop [] 0).sl 0 1 by decide)
      (Relation.TransGen.single (show combEdge (initHL slLoop [] 0).sl 1 0 by decide))

/-- Counterexample state for C4, part (a): edge-map key 0 is a node
with no backing wire (synthetic), key 1 is wire-backed; both have one
remaining successor. -/
def stC4a : HLState :=
  { sl := [{ id := 0, type := G_BUF, in1 := 1, in2 := -1, in3 := -1, in4 := -1,
             is_port := false, bit := { wire := none, offset := 0 }, init := InitV.sx },
           { id := 1, type := G_BUF, in1 := 0, in2 := -1, in3 := -1, in4 := -1,
             is_port := false,
             bit := { wire := some { name := ['\\', 'a'], width := 1 }, offset := 0 },
             init := InitV.sx }],
    smap := [], edges_keys := {0, 1},
    eout := fun k => if k = 0 then {1} else if k = 1 then {0} else ∅,
    counts := [1, 1], wp := ∅, aidx := 0, conns := [] }

/-- Counterexample state for C4, part (b): key 0 is backed by an
internal (`$`-named) wire, key 1 by a user (`\`-named) wire; equal
successor counts. -/
def stC4b : HLState :=
  { sl := [{ id := 0, type := G_BUF, in1 := 1, in2 := -1, in3 := -1, in4 := -1,
             is_port := false,
             bit := { wire := some { name := ['$', 'x'], width := 1 }, offset := 0 },
             init := InitV.sx },
           { id := 1, type := G_BUF, in1 := 0, in2 := -1, in3 := -1, in4 := -1,
             is_port := false,
             bit := { wire := some { name := ['\\', 'a'], width := 1 }, offset := 0 },
             init := InitV.sx }],
    smap := [], edges_keys := {0, 1},
    eout := fun k => if k = 0 then {1} else if k = 1 then {0} else ∅,
    counts := [1, 1], wp := ∅, aidx := 0, conns := [] }

/-- Counterexample for C4: (a) with a synthetic (no-wire) node 0 and a
wire-backed node 1 both having remaining successors, the scan chooses
the wire-backed node 1, not the synthetic node the claim prefers;
(b) with an internal `$`-named node 0 and a user `\`-named node 1 of
equal successor count, the scan chooses the user-named node 1, not the
`$`-named one the claim prefers. -/
theorem choose_break_preference_cx :
    (chooseBreak stC4a = 1 ∧ wireOfId stC4a 0 = none ∧ wireOfId stC4a 1 ≠ none ∧
      0 ∈ stC4a.edges_keys ∧ stC4a.eout 0 ≠ ∅ ∧ (stC4a.eout 0).card = (stC4a.eout 1).card) ∧
    (chooseBreak stC4b = 1 ∧
      (∃ w, wireOfId stC4b 0 = some w ∧ w.name.head? = some '$') ∧
      (∃ w, wireOfId stC4b 1 = some w ∧ w.name.head? = some '\\') ∧
      0 ∈ stC4b.edges_keys ∧ stC4b.eout 0 ≠ ∅ ∧
      (stC4b.eout 0).card = (stC4b.eout 1).card) := by
  refine ⟨⟨?_, ?_, ?_, ?_, ?_, ?_⟩, ⟨?_, ?_, ?_, ?_, ?_, ?_⟩⟩
  · decide
  · decide
  · decide
  · decide
  · decide
  · decide
  · decide
  · exact ⟨{ name := ['$', 'x'], width := 1 }, by decide, by decide⟩
  · exact ⟨{ name := ['\\', 'a'], width := 1 }, by decide, by decide⟩
  · decide
  · decide
  · decide

theorem smLookup_eq_none {m : List (BitM × Nat)} {b : BitM}
    (h : ∀ p ∈ m, p.1 ≠ b) : smLookup m b = none := by
  induction m with
  | nil => rfl
  | cons p m ih =>
    have hp := h p (List.mem_cons_self _ _)
    simp only [smLookup]
    obtain ⟨k, v⟩ := p
    rw [if_neg (by simpa using hp)]
    exact ih (fun q hq => h q (List.mem_cons_of_mem _ hq))

theorem set_concat_self {α : Type} (l : List α) (a : α) :
    (l ++ [a]).set l.length a = l ++ [a] := by
  induction l with
  | nil => rfl
  | cons x xs ih =>
    simp only [List.cons_append, List.length_cons, List.set_cons_succ, ih]

theorem map_signal_fresh (iv : BitM → InitV) (sl : List Gate)
    (smap : List (BitM × Nat)) (b : BitM) (h : smLookup smap b = none) :
    map_signal (fun x => x) iv { signal_list := sl, signal_map := smap } b
      = (sl.length,
         { signal_list := sl ++
             [{ id := sl.length, type := G_NONE, in1 := -1, in2 := -1, in3 := -1,
                in4 := -1, is_port := false, bit := b, init := iv b }],
           signal_map := (b, sl.length) :: smap }) := by
  unfold map_signal
  simp only [h, if_pos rfl, smLookup, reduceIte]
  rw [List.getElem?_concat_length]
  simp only [ne_eq, not_true_eq_false, if_false, Prod.mk.injEq,
    show ¬((0:Int) ≤ -1) by decide, reduceIte]
  exact ⟨trivial, by rw [set_concat_self]⟩

/-- Kahn-state invariant of `handle_loops`, with the ghost pop history
`τ` (ids in pop order).  `content` says the edge map holds exactly the
fan-in edges into combinational nodes whose source is not yet popped;
`popOrder` says a popped combinational node was popped after all its
fan-ins — the facts that make the final graph acyclic. -/
structure HLInv (st : HLState) (τ : List Nat) : Prop where
  lenC   : st.counts.length = st.sl.length
  ids    : ∀ (i : Nat) (g : Gate), st.sl[i]? = some g → g.id = i
  keysLt : ∀ k ∈ st.edges_keys, k < st.sl.length
  wpLt   : ∀ k ∈ st.wp, k < st.sl.length
  popLt  : ∀ k ∈ τ, k < st.sl.length
  fanLt  : ∀ g ∈ st.sl, ∀ u ∈ fanSet g, u < st.sl.length
  nod    : τ.Nodup
  outEmpty : ∀ k, k ∉ st.edges_keys → st.eout k = ∅
  content : ∀ u v, v ∈ st.eout u ↔
    ((∃ g, st.sl[v]? = some g ∧ isComb g ∧ u ∈ fanSet g) ∧ u ∉ τ)
  cnts : ∀ (v : Nat) (g : Gate), st.sl[v]? = some g →
    st.counts.getD v 0 = if isComb g then (fanSet g \ τ.toFinset).card else 0
  nonComb : ∀ (i : Nat) (g : Gate), st.sl[i]? = some g → ¬ isComb g →
    i ∈ st.wp ∨ i ∈ τ
  wpFan : ∀ v ∈ st.wp, ∀ g, st.sl[v]? = some g → isComb g →
    ∀ u ∈ fanSet g, u ∈ τ
  popOrder : ∀ (v : Nat) (g : Gate), v ∈ τ → st.sl[v]? = some g → isComb g →
    ∀ u ∈ fanSet g, u ∈ τ ∧ τ.indexOf u < τ.indexOf v
  combWire : ∀ g ∈ st.sl, isComb g → g.bit.wire ≠ none
  fresh : ∀ p ∈ st.smap, ∀ w, p.1.wire = some w → w.name.take 9 = abcloopPfx →
    decValue (w.name.drop 9) < st.aidx

theorem toFinset_append_singleton (τ : List Nat) (a : Nat) :
    (τ ++ [a]).toFinset = insert a τ.toFinset := by
  ext x
  simp [or_comm]

theorem hlinv_target_lt {st : HLState} {τ : List Nat} (inv : HLInv st τ)
    {u v : Nat} (h : v ∈ st.eout u) : v < st.sl.length := by
  obtain ⟨⟨g, hg, -, -⟩, -⟩ := (inv.content u v).mp h
  exact (List.getElem?_eq_some.mp hg).1

theorem getD_mapIdx (l : List Nat) (f : Nat → Nat → Nat) (v : Nat) :
    (l.mapIdx f).getD v 0 = match l[v]? with
      | some c => f v c
      | none => 0 := by
  rw [List.getD_eq_getElem?_getD, List.getElem?_mapIdx]
  cases l[v]? <;> rfl

theorem pop_inv {st : HLState} {τ : List Nat} (inv : HLInv st τ)
    {id : Nat} (hid : id ∈ st.wp) :
    (id ∈ τ → HLInv (popStep st id) τ) ∧
    (id ∉ τ → HLInv (popStep st id) (τ ++ [id])) := by
  have hcnt_len : (popStep st id).counts.length = st.counts.length := by
    simp [popStep, List.length_mapIdx]
  constructor
  · -- a node popped twice: its edge entry is already empty
    intro hpop
    have hsem : st.eout id = ∅ := by
      rw [Finset.eq_empty_iff_forall_not_mem]
      intro v hv
      exact ((inv.content id v).mp hv).2 hpop
    refine
      { lenC := by rw [hcnt_len]; exact inv.lenC
        ids := inv.ids
        keysLt := fun k hk => inv.keysLt k (Finset.mem_of_mem_erase hk)
        wpLt := ?_
        popLt := inv.popLt
        fanLt := inv.fanLt
        nod := inv.nod
        outEmpty := ?_
        content := ?_
        cnts := ?_
        nonComb := ?_
        wpFan := ?_
        popOrder := inv.popOrder
        combWire := inv.combWire
        fresh := inv.fresh }
    · intro k hk
      rcases Finset.mem_union.mp hk with hk | hk
      · exact inv.wpLt k (Finset.mem_of_mem_erase hk)
      · exact hlinv_target_lt inv (Finset.mem_of_mem_filter k hk)
    · intro k hk
      by_cases hkid : k = id
      · subst hkid
        simp [popStep, Function.update_same]
      · have : k ∉ st.edges_keys := fun hc =>
          hk (Finset.mem_erase.mpr ⟨hkid, hc⟩)
        simpa [popStep, Function.update_noteq hkid] using inv.outEmpty k this
    · intro u v
      by_cases huid : u = id
      · subst huid
        simp only [popStep, Function.update_same]
        constructor
        · intro hv; exact absurd hv (Finset.not_mem_empty v)
        · rintro ⟨-, hu⟩; exact absurd hpop hu
      · simpa [popStep, Function.update_noteq huid] using inv.content u v
    · intro v g hg
      have hvlen : v < st.counts.length := by
        rw [inv.lenC]; exact (List.getElem?_eq_some.mp hg).1
      have := inv.cnts v g hg
      rw [List.getD_eq_getElem?_getD] at this
      simp only [popStep]
      rw [getD_mapIdx]
      rcases hc : st.counts[v]? with _ | c
      · rw [List.getElem?_eq_none_iff] at hc; omega
      · rw [hc] at this
        simp only [Option.getD_some] at this
        simp only [hc, hsem, Finset.not_mem_empty, if_false]
        exact this
    · intro i g hg hnc
      rcases inv.nonComb i g hg hnc with hiw | hit
      · by_cases hiid : i = id
        · exact Or.inr (hiid ▸ hpop)
        · exact Or.inl (Finset.mem_union_left _ (Finset.mem_erase.mpr ⟨hiid, hiw⟩))
      · exact Or.inr hit
    · intro v hv g hg hc u hu
      rcases Finset.mem_union.mp hv with hv | hv
      · exact inv.wpFan v (Finset.mem_of_mem_erase hv) g hg hc u hu
      · have := Finset.mem_of_mem_filter v hv
        rw [hsem] at this
        exact absurd this (Finset.not_mem_empty v)
  · -- a genuinely new pop: extend the ghost history
    intro hpop
    have hidlt : id < st.sl.length := inv.wpLt id hid
    have hfin : (τ ++ [id]).toFinset = insert id τ.toFinset :=
      toFinset_append_singleton τ id
    refine
      { lenC := by rw [hcnt_len]; exact inv.lenC
        ids := inv.ids
        keysLt := fun k hk => inv.keysLt k (Finset.mem_of_mem_erase hk)
        wpLt := ?_
        popLt := ?_
        fanLt := inv.fanLt
        nod := by simp [List.nodup_append, inv.nod, hpop]
        outEmpty := ?_
        content := ?_
        cnts := ?_
        nonComb := ?_
        wpFan := ?_
        popOrder := ?_
        combWire := inv.combWire
        fresh := inv.fresh }
    · intro k hk
      rcases Finset.mem_union.mp hk with hk | hk
      · exact inv.wpLt k (Finset.mem_of_mem_erase hk)
      · exact hlinv_target_lt inv (Finset.mem_of_mem_filter k hk)
    · intro k hk
      rcases List.mem_append.mp hk with hk | hk
      · exact inv.popLt k hk
      · rw [List.mem_singleton.mp hk]; exact hidlt
    · intro k hk
      by_cases hkid : k = id
      · subst hkid
        simp [popStep, Function.update_same]
      · have : k ∉ st.edges_keys := fun hc =>
          hk (Finset.mem_erase.mpr ⟨hkid, hc⟩)
        simpa [popStep, Function.update_noteq hkid] using inv.outEmpty k this
    · intro u v
      by_cases huid : u = id
      · subst huid
        simp only [popStep, Function.update_same]
        constructor
        · intro hv; exact absurd hv (Finset.not_mem_empty v)
        · rintro ⟨-, hu⟩
          exact (hu (List.mem_append.mpr (Or.inr (List.mem_singleton.mpr rfl)))).elim
      · have base := inv.content u v
        simp only [popStep, Function.update_noteq huid]
        rw [base]
        constructor
        · rintro ⟨hg, hu⟩
          refine ⟨hg, fun hc => ?_⟩
          rcases List.mem_append.mp hc with hc | hc
          · exact hu hc
          · exact huid (List.mem_singleton.mp hc)
        · rintro ⟨hg, hu⟩
          exact ⟨hg, fun hc => hu (List.mem_append.mpr (Or.inl hc))⟩
    · intro v g hg
      have hvlen : v < st.counts.length := by
        rw [inv.lenC]; exact (List.getElem?_eq_some.mp hg).1
      have hold := inv.cnts v g hg
      rw [List.getD_eq_getElem?_getD] at hold
      have hgs : st.sl[v]? = some g := hg
      simp only [popStep]
      rw [getD_mapIdx]
      rcases hc : st.counts[v]? with _ | c
      · rw [List.getElem?_eq_none_iff] at hc; omega
      · rw [hc] at hold
        simp only [Option.getD_some] at hold
        simp only [hc]
        rw [hfin, Finset.sdiff_insert]
        by_cases hcomb : isComb g
        · rw [if_pos hcomb] at hold ⊢
          by_cases hvs : v ∈ st.eout id
          · have hidf : id ∈ fanSet g ∧ id ∉ τ := by
              obtain ⟨⟨g2, hg2, -, hf2⟩, hnτ⟩ := (inv.content id v).mp hvs
              rw [hgs] at hg2
              obtain rfl := Option.some_inj.mp hg2
              exact ⟨hf2, hnτ⟩
            have hmem : id ∈ fanSet g \ τ.toFinset :=
              Finset.mem_sdiff.mpr ⟨hidf.1, by simpa using hidf.2⟩
            rw [if_pos hvs, Finset.card_erase_of_mem hmem, hold]
          · have hidnf : id ∉ fanSet g \ τ.toFinset := by
              intro hmem
              obtain ⟨hf, hnτ⟩ := Finset.mem_sdiff.mp hmem
              exact hvs ((inv.content id v).mpr ⟨⟨g, hgs, hcomb, hf⟩, by simpa using hnτ⟩)
            rw [if_neg hvs, hold, Finset.erase_eq_of_not_mem hidnf]
        · rw [if_neg hcomb] at hold ⊢
          have hvns : v ∉ st.eout id := by
            intro hvs
            obtain ⟨⟨g2, hg2, hc2, -⟩, -⟩ := (inv.content id v).mp hvs
            rw [hgs] at hg2
            obtain rfl := Option.some_inj.mp hg2
            exact hcomb hc2
          rw [if_neg hvns, hold]
    · intro i g hg hnc
      rcases inv.nonComb i g hg hnc with hiw | hit
      · by_cases hiid : i = id
        · exact Or.inr (List.mem_append.mpr (Or.inr (by simp [hiid])))
        · exact Or.inl (Finset.mem_union_left _ (Finset.mem_erase.mpr ⟨hiid, hiw⟩))
      · exact Or.inr (List.mem_append.mpr (Or.inl hit))
    · intro v hv g hg hc u hu
      rcases Finset.mem_union.mp hv with hv | hv
      · exact List.mem_append.mpr
          (Or.inl (inv.wpFan v (Finset.mem_of_mem_erase hv) g hg hc u hu))
      · obtain ⟨hvs, hcnt1⟩ := Finset.mem_filter.mp hv
        have hcv := inv.cnts v g hg
        rw [List.getD_eq_getElem?_getD] at hcv
        rw [List.getD_eq_getElem?_getD] at hcnt1
        rw [if_pos hc] at hcv
        have hcard : (fanSet g \ τ.toFinset).card = 1 := by omega
        by_cases huτ : u ∈ τ
        · exact List.mem_append.mpr (Or.inl huτ)
        · -- u is the remaining fan-in, which must be id itself
          have humem : u ∈ fanSet g \ τ.toFinset :=
            Finset.mem_sdiff.mpr ⟨hu, by simpa using huτ⟩
          have hidmem : id ∈ fanSet g \ τ.toFinset := by
            obtain ⟨⟨g2, hg2, -, hf2⟩, hnτ⟩ := (inv.content id v).mp hvs
            rw [(show st.sl[v]? = some g from hg)] at hg2
            obtain rfl := Option.some_inj.mp hg2
            exact Finset.mem_sdiff.mpr ⟨hf2, by simpa using hnτ⟩
          obtain ⟨x, hx⟩ := Finset.card_eq_one.mp hcard
          rw [hx] at humem hidmem
          have : u = id := by
            rw [Finset.mem_singleton.mp humem, ← Finset.mem_singleton.mp hidmem]
          exact List.mem_append.mpr (Or.inr (by simp [this]))
    · intro v g hv hg hc u hu
      rcases List.mem_append.mp hv with hv | hv
      · obtain ⟨huτ, hidx⟩ := inv.popOrder v g hv hg hc u hu
        refine ⟨List.mem_append.mpr (Or.inl huτ), ?_⟩
        rw [List.indexOf_append_of_mem huτ, List.indexOf_append_of_mem hv]
        exact hidx
      · have hvid : v = id := List.mem_singleton.mp hv
        subst hvid
        have huτ : u ∈ τ := inv.wpFan v hid g hg hc u hu
        refine ⟨List.mem_append.mpr (Or.inl huτ), ?_⟩
        rw [List.indexOf_append_of_mem huτ, List.indexOf_append_of_not_mem hpop]
        simp only [List.indexOf_cons_self, Nat.add_zero]
        exact List.indexOf_lt_length.mpr huτ

theorem setPort_length (sl : List Gate) (i : Nat) : (setPort sl i).length = sl.length := by
  unfold setPort
  cases sl[i]? <;> simp

theorem setPort_getElem?_ne (sl : List Gate) (i v : Nat) (h : v ≠ i) :
    (setPort sl i)[v]? = sl[v]? := by
  unfold setPort
  cases sl[i]? with
  | none => rfl
  | some g => exact List.getElem?_set_ne (fun hc => h hc.symm)

theorem setPort_getElem?_self (sl : List Gate) (i : Nat) (g : Gate)
    (h : sl[i]? = some g) :
    (setPort sl i)[i]? = some { g with is_port := true } := by
  unfold setPort
  rw [h, List.getElem?_set_self', h]
  rfl

theorem fanSet_rewire (id1 id3 : Nat) (g : Gate) (hne : id1 ≠ id3) :
    ∀ u : Nat, u ∈ fanSet (rewireGate id1 id3 g) ↔
      ((u ∈ fanSet g ∧ u ≠ id1) ∨ (u = id3 ∧ id1 ∈ fanSet g)) := by
  intro u
  simp only [mem_fanSet, rewireGate]
  constructor
  · intro h
    by_cases hf : g.in1 = (id1 : Int) ∨ g.in2 = (id1 : Int) ∨ g.in3 = (id1 : Int) ∨
        g.in4 = (id1 : Int)
    · by_cases hu3 : u = id3
      · exact Or.inr ⟨hu3, hf⟩
      · refine Or.inl ⟨?_, ?_⟩ <;> split_ifs at h <;> omega
    · push_neg at hf
      obtain ⟨h1, h2, h3, h4⟩ := hf
      rw [if_neg h1, if_neg h2, if_neg h3, if_neg h4] at h
      refine Or.inl ⟨h, ?_⟩
      rintro rfl
      rcases h with h | h | h | h <;> omega
  · rintro (⟨hu, hne1⟩ | ⟨rfl, hf⟩)
    · rcases hu with h | h | h | h
      · left; rw [h]; rw [if_neg (by omega)]
      · right; left; rw [h]; rw [if_neg (by omega)]
      · right; right; left; rw [h]; rw [if_neg (by omega)]
      · right; right; right; rw [h]; rw [if_neg (by omega)]
    · rcases hf with h | h | h | h
      · left; rw [h, if_pos rfl]
      · right; left; rw [h, if_pos rfl]
      · right; right; left; rw [h, if_pos rfl]
      · right; right; right; rw [h, if_pos rfl]

theorem rewire_fields (id1 id3 : Nat) (g : Gate) :
    (rewireGate id1 id3 g).id = g.id ∧ (rewireGate id1 id3 g).type = g.type ∧
    (rewireGate id1 id3 g).is_port = g.is_port ∧ (rewireGate id1 id3 g).bit = g.bit ∧
    (rewireGate id1 id3 g).init = g.init :=
  ⟨rfl, rfl, rfl, rfl, rfl⟩

theorem getElem?_append_singleton_ne {α : Type} (l : List α) (g : α) (v : Nat)
    (h : v ≠ l.length) : (l ++ [g])[v]? = l[v]? := by
  by_cases hv : v < l.length
  · exact List.getElem?_append_left hv
  · rw [List.getElem?_eq_none (by simp; omega), List.getElem?_eq_none (by omega)]

theorem erase_sdiff_comm (F t : Finset Nat) (a : Nat) :
    (F.erase a) \ t = (F \ t).erase a := by
  ext x
  simp [and_assoc, and_comm, and_left_comm]

/-- The bit of the synthetic `$abcloop$` wire created by a break. -/
def loopBit (aidx : Nat) : BitM :=
  { wire := some { name := abcloopName aidx, width := 1 }, offset := 0 }

/-- The registry record `map_signal` creates for the synthetic wire. -/
def loopGate (iv : BitM → InitV) (n aidx : Nat) : Gate :=
  { id := n, type := G_NONE, in1 := -1, in2 := -1, in3 := -1, in4 := -1,
    is_port := false, bit := loopBit aidx, init := iv (loopBit aidx) }

theorem break_state (iv : BitM → InitV) (st : HLState) (id1 : Nat)
    (hguard : wireOfId st id1 ≠ none)
    (hmiss : smLookup st.smap (loopBit st.aidx) = none)
    (hlen : st.counts.length = st.sl.length) :
    breakStep iv st id1 = some
      { sl := (setPort (setPort (st.sl ++ [loopGate iv st.sl.length st.aidx])
            id1) st.sl.length).map
          (fun g => if g.id ∈ st.eout id1 then rewireGate id1 st.sl.length g else g),
        smap := (loopBit st.aidx, st.sl.length) :: st.smap,
        edges_keys := insert st.sl.length st.edges_keys,
        eout := Function.update (Function.update st.eout st.sl.length (st.eout id1)) id1
          (st.eout st.sl.length),
        counts := st.counts ++ [0],
        wp := insert st.sl.length st.wp,
        aidx := st.aidx + 1,
        conns := st.conns ++
          [(loopBit st.aidx,
            match st.sl[id1]? with
            | some g => g.bit
            | none => loopBit st.aidx)] } := by
  unfold breakStep
  rw [if_neg hguard]
  dsimp only
  rw [show ({ wire := some { name := abcloopName st.aidx, width := 1 }, offset := 0 } : BitM)
    = loopBit st.aidx from rfl]
  rw [map_signal_fresh iv st.sl st.smap _ hmiss]
  dsimp only
  rw [if_pos hlen.symm]
  rfl

theorem isComb_of_type_eq {g g2 : Gate} (h : g2.type = g.type) :
    isComb g2 ↔ isComb g := by unfold isComb; rw [h]

theorem break_inv (iv : BitM → InitV) {st : HLState} {τ : List Nat}
    (inv : HLInv st τ) (hwp : st.wp = ∅) {id1 : Nat} (hne : st.eout id1 ≠ ∅) :
    ∃ st', breakStep iv st id1 = some st' ∧ HLInv st' τ ∧ st'.wp ≠ ∅ ∧
      phi st' ≤ phi st := by
  obtain ⟨v0, hv0⟩ := Finset.nonempty_iff_ne_empty.mpr hne
  obtain ⟨⟨gv0, hgv0, hcv0, hf0⟩, hid1τ⟩ := (inv.content id1 v0).mp hv0
  have hid1lt : id1 < st.sl.length :=
    inv.fanLt gv0 (List.getElem?_mem hgv0) id1 hf0
  obtain ⟨g1, hg1⟩ : ∃ g, st.sl[id1]? = some g :=
    ⟨st.sl[id1], List.getElem?_eq_getElem hid1lt⟩
  have hcomb1 : isComb g1 := by
    by_contra hnc
    rcases inv.nonComb id1 g1 hg1 hnc with h | h
    · rw [hwp] at h; exact absurd h (Finset.not_mem_empty id1)
    · exact hid1τ h
  have hguard : wireOfId st id1 ≠ none := by
    unfold wireOfId
    rw [hg1]
    simpa using inv.combWire g1 (List.getElem?_mem hg1) hcomb1
  have hmiss : smLookup st.smap (loopBit st.aidx) = none := by
    apply smLookup_eq_none
    intro p hp hpb
    have h9 : (abcloopName st.aidx).take 9 = abcloopPfx := by
      unfold abcloopName
      have := List.take_left abcloopPfx (natToDecStr st.aidx)
      simpa [abcloopPfx] using this
    have hd9 : (abcloopName st.aidx).drop 9 = natToDecStr st.aidx := by
      unfold abcloopName
      have := List.drop_left abcloopPfx (natToDecStr st.aidx)
      simpa [abcloopPfx] using this
    have := inv.fresh p hp { name := abcloopName st.aidx, width := 1 }
      (by rw [hpb]; rfl) h9
    rw [hd9, decValue_natToDecStr] at this
    omega
  have hbs := break_state iv st id1 hguard hmiss inv.lenC
  rw [hbs]
  refine ⟨_, rfl, ?_⟩
  -- naming for the new state pieces
  set n := st.sl.length with hn
  have hn_notin_eout : ∀ u, n ∉ st.eout u := by
    intro u hc
    exact absurd (hlinv_target_lt inv hc) (lt_irrefl n)
  have hn_nokey : n ∉ st.edges_keys := fun hc => absurd (inv.keysLt n hc) (lt_irrefl n)
  have hid1_key : id1 ∈ st.edges_keys := by
    by_contra hc
    exact hne (inv.outEmpty id1 hc)
  have heoutn : st.eout n = ∅ := inv.outEmpty n hn_nokey
  -- characterize the new signal list
  set gF : Gate := { loopGate iv n st.aidx with is_port := true } with hgF
  set SL2 : List Gate := (setPort (setPort (st.sl ++ [loopGate iv n st.aidx])
      id1) n).map
    (fun g => if g.id ∈ st.eout id1 then rewireGate id1 n g else g) with hSL2
  have hlen2 : SL2.length = n + 1 := by
    rw [hSL2, List.length_map, setPort_length, setPort_length, List.length_append,
      List.length_singleton]
  have hchar : ∀ v : Nat, SL2[v]? =
      (if v = n then some gF
       else (st.sl[v]?).map (fun g =>
         if v ∈ st.eout id1 then
           rewireGate id1 n (if v = id1 then { g with is_port := true } else g)
         else (if v = id1 then { g with is_port := true } else g))) := by
    intro v
    by_cases hvn : v = n
    · subst hvn
      rw [if_pos rfl, hSL2, List.getElem?_map]
      rw [setPort_getElem?_self _ _ _
        (by rw [setPort_getElem?_ne _ _ _ (by omega), List.getElem?_concat_length])]
      simp only [Option.map_some']
      rw [if_neg (show ¬(({ loopGate iv n st.aidx with is_port := true } : Gate).id
        ∈ st.eout id1) from hn_notin_eout id1)]
    · rw [if_neg hvn, hSL2, List.getElem?_map]
      by_cases hvid1 : v = id1
      · rw [hvid1]
        have hne1n : id1 ≠ n := by omega
        rw [setPort_getElem?_ne _ _ _ hne1n,
          setPort_getElem?_self _ _ g1
            (by rw [getElem?_append_singleton_ne _ _ _ hne1n]; exact hg1),
          hg1]
        have hid0 : g1.id = id1 := inv.ids id1 g1 hg1
        simp only [Option.map_some', eq_self_iff_true, if_true, hid0]
      · rw [setPort_getElem?_ne _ _ _ hvn, setPort_getElem?_ne _ _ _ hvid1,
          getElem?_append_singleton_ne _ _ _ hvn]
        rcases hsv : st.sl[v]? with _ | g
        · rfl
        · have hid : g.id = v := inv.ids v g hsv
          simp only [Option.map_some', if_neg hvid1, hid]
  -- basic facts about the new pieces
  have hidne : id1 ≠ n := by omega
  have hτn : n ∉ τ := fun hc => absurd (inv.popLt n hc) (lt_irrefl n)
  have hcombF : ¬ isComb gF := fun h => h.1 rfl
  have hfanF : fanSet gF = ∅ := rfl
  have hgFid : gF.id = n := rfl
  have hE1 : (Function.update (Function.update st.eout n (st.eout id1)) id1
      (st.eout n)) id1 = ∅ := by
    rw [Function.update_same, heoutn]
  have hEn : (Function.update (Function.update st.eout n (st.eout id1)) id1
      (st.eout n)) n = st.eout id1 := by
    rw [Function.update_noteq (fun hc => hidne hc.symm), Function.update_same]
  have hEo : ∀ u, u ≠ id1 → u ≠ n →
      (Function.update (Function.update st.eout n (st.eout id1)) id1
        (st.eout n)) u = st.eout u := by
    intro u h1 h2
    rw [Function.update_noteq h1, Function.update_noteq h2]
  -- the gate stored at an old position, with its fan-in relation
  have hcharOld : ∀ (v : Nat) (g' : Gate), v ≠ n → SL2[v]? = some g' →
      ∃ g, st.sl[v]? = some g ∧
        g'.type = g.type ∧ g'.bit = g.bit ∧ g'.id = g.id ∧
        ((v ∈ st.eout id1 ∧ ∀ u : Nat, u ∈ fanSet g' ↔
            ((u ∈ fanSet g ∧ u ≠ id1) ∨ (u = n ∧ id1 ∈ fanSet g))) ∨
         (v ∉ st.eout id1 ∧ fanSet g' = fanSet g)) := by
    intro v g' hvn hv'
    rw [hchar v, if_neg hvn] at hv'
    rcases hsv : st.sl[v]? with _ | g
    · rw [hsv] at hv'; exact absurd hv' (by simp)
    · rw [hsv] at hv'
      simp only [Option.map_some'] at hv'
      obtain rfl := (Option.some_inj.mp hv').symm
      refine ⟨g, rfl, ?_⟩
      by_cases hvin : v ∈ st.eout id1
      · rw [if_pos hvin]
        by_cases hvid : v = id1 <;> [rw [if_pos hvid]; rw [if_neg hvid]] <;>
          exact ⟨rfl, rfl, rfl, Or.inl ⟨hvin, fanSet_rewire id1 n _ hidne⟩⟩
      · rw [if_neg hvin]
        by_cases hvid : v = id1 <;> [rw [if_pos hvid]; rw [if_neg hvid]] <;>
          exact ⟨rfl, rfl, rfl, Or.inr ⟨hvin, rfl⟩⟩
  have hcharN : SL2[n]? = some gF := by rw [hchar n, if_pos rfl]
  have hcharFwd : ∀ (v : Nat) (g : Gate), st.sl[v]? = some g →
      SL2[v]? = some (if v ∈ st.eout id1 then
        rewireGate id1 n (if v = id1 then { g with is_port := true } else g)
        else (if v = id1 then { g with is_port := true } else g)) := by
    intro v g hv
    have hvn : v ≠ n := by
      have := (List.getElem?_eq_some.mp hv).1
      omega
    rw [hchar v, if_neg hvn, hv]
    rfl
  refine ⟨?_, by simp, ?_⟩
  · -- the invariant for the post-break state
    refine
      { lenC := by
          simp only [List.length_append, List.length_singleton, hlen2, inv.lenC]
        ids := ?_
        keysLt := ?_
        wpLt := ?_
        popLt := fun k hk => by rw [hlen2]; exact Nat.lt_succ_of_lt (inv.popLt k hk)
        fanLt := ?_
        nod := inv.nod
        outEmpty := ?_
        content := ?_
        cnts := ?_
        nonComb := ?_
        wpFan := ?_
        popOrder := ?_
        combWire := ?_
        fresh := ?_ }
    · -- ids
      intro i g' hi
      by_cases hin : i = n
      · subst hin
        rw [hcharN] at hi
        rw [← Option.some_inj.mp hi, hgFid]
      · obtain ⟨g, hg, -, -, hid, -⟩ := hcharOld i g' hin hi
        rw [hid]
        exact inv.ids i g hg
    · -- keysLt
      intro k hk
      rw [hlen2]
      rcases Finset.mem_insert.mp hk with rfl | hk
      · omega
      · exact Nat.lt_succ_of_lt (inv.keysLt k hk)
    · -- wpLt
      intro k hk
      rw [hlen2]
      rcases Finset.mem_insert.mp hk with rfl | hk
      · omega
      · exact Nat.lt_succ_of_lt (inv.wpLt k hk)
    · -- fanLt
      intro g' hg' u hu
      rw [hlen2]
      obtain ⟨i, hi⟩ := List.mem_iff_getElem?.mp hg'
      by_cases hin : i = n
      · subst hin
        rw [hcharN] at hi
        rw [← Option.some_inj.mp hi, hfanF] at hu
        exact absurd hu (Finset.not_mem_empty u)
      · obtain ⟨g, hg, -, -, -, hcase⟩ := hcharOld i g' hin hi
        rcases hcase with ⟨-, hiff⟩ | ⟨-, heq⟩
        · rcases (hiff u).mp hu with ⟨hug, -⟩ | ⟨rfl, -⟩
          · exact Nat.lt_succ_of_lt (inv.fanLt g (List.getElem?_mem hg) u hug)
          · omega
        · rw [heq] at hu
          exact Nat.lt_succ_of_lt (inv.fanLt g (List.getElem?_mem hg) u hu)
    · -- outEmpty
      dsimp only
      intro k hk
      have hkn : k ≠ n := by rintro rfl; exact hk (Finset.mem_insert_self n _)
      have hkk : k ∉ st.edges_keys := fun hc => hk (Finset.mem_insert_of_mem hc)
      have hkid : k ≠ id1 := fun hc => hkk (hc ▸ hid1_key)
      rw [hEo k hkid hkn]
      exact inv.outEmpty k hkk
    · -- content
      dsimp only
      intro u v
      by_cases hu1 : u = id1
      · subst hu1
        rw [hE1]
        simp only [Finset.not_mem_empty, false_iff]
        rintro ⟨⟨g', hv', hc', hf'⟩, huτ⟩
        by_cases hvn : v = n
        · subst hvn
          rw [hcharN] at hv'
          rw [← Option.some_inj.mp hv'] at hc'
          exact hcombF hc'
        · obtain ⟨g, hg, hty, -, -, hcase⟩ := hcharOld v g' hvn hv'
          rcases hcase with ⟨hvin, hiff⟩ | ⟨hvout, heq⟩
          · rcases (hiff u).mp hf' with ⟨-, hne'⟩ | ⟨he, -⟩
            · exact hne' rfl
            · exact hidne he
          · rw [heq] at hf'
            have hcomb : isComb g := (isComb_of_type_eq hty).mp hc'
            exact hvout ((inv.content u v).mpr ⟨⟨g, hg, hcomb, hf'⟩, huτ⟩)
      · by_cases hun : u = n
        · subst hun
          rw [hEn]
          constructor
          · intro hv
            obtain ⟨⟨g, hg, hcomb, hf⟩, -⟩ := (inv.content id1 v).mp hv
            have hvn : v ≠ n := by
              have := (List.getElem?_eq_some.mp hg).1
              omega
            have := hcharFwd v g hg
            rw [if_pos hv] at this
            refine ⟨⟨_, this, ?_, ?_⟩, hτn⟩
            · by_cases hvid : v = id1 <;> [rw [if_pos hvid]; rw [if_neg hvid]] <;>
                exact hcomb
            · rw [fanSet_rewire id1 n _ hidne]
              right
              refine ⟨rfl, ?_⟩
              by_cases hvid : v = id1 <;> [rw [if_pos hvid]; rw [if_neg hvid]] <;>
                exact hf
          · rintro ⟨⟨g', hv', hc', hf'⟩, -⟩
            by_cases hvn : v = n
            · subst hvn
              rw [hcharN] at hv'
              rw [← Option.some_inj.mp hv'] at hc'
              exact absurd hc' hcombF
            · obtain ⟨g, hg, hty, -, -, hcase⟩ := hcharOld v g' hvn hv'
              rcases hcase with ⟨hvin, -⟩ | ⟨-, heq⟩
              · exact hvin
              · rw [heq] at hf'
                exact absurd (inv.fanLt g (List.getElem?_mem hg) n hf')
                  (lt_irrefl n)
        · rw [hEo u hu1 hun]
          constructor
          · intro hv
            obtain ⟨⟨g, hg, hcomb, hf⟩, huτ⟩ := (inv.content u v).mp hv
            have := hcharFwd v g hg
            refine ⟨⟨_, this, ?_, ?_⟩, huτ⟩
            · by_cases hvin : v ∈ st.eout id1 <;>
                [rw [if_pos hvin]; rw [if_neg hvin]] <;>
                (by_cases hvid : v = id1 <;> [rw [if_pos hvid]; rw [if_neg hvid]] <;>
                  exact hcomb)
            · by_cases hvin : v ∈ st.eout id1
              · rw [if_pos hvin, fanSet_rewire id1 n _ hidne]
                left
                refine ⟨?_, hu1⟩
                by_cases hvid : v = id1 <;> [rw [if_pos hvid]; rw [if_neg hvid]] <;>
                  exact hf
              · rw [if_neg hvin]
                by_cases hvid : v = id1 <;> [rw [if_pos hvid]; rw [if_neg hvid]] <;>
                  exact hf
          · rintro ⟨⟨g', hv', hc', hf'⟩, huτ⟩
            by_cases hvn : v = n
            · subst hvn
              rw [hcharN] at hv'
              rw [← Option.some_inj.mp hv'] at hc'
              exact absurd hc' hcombF
            · obtain ⟨g, hg, hty, -, -, hcase⟩ := hcharOld v g' hvn hv'
              have hcomb : isComb g := (isComb_of_type_eq hty).mp hc'
              rcases hcase with ⟨hvin, hiff⟩ | ⟨-, heq⟩
              · rcases (hiff u).mp hf' with ⟨hug, -⟩ | ⟨he, -⟩
                · exact (inv.content u v).mpr ⟨⟨g, hg, hcomb, hug⟩, huτ⟩
                · exact absurd he hun
              · rw [heq] at hf'
                exact (inv.content u v).mpr ⟨⟨g, hg, hcomb, hf'⟩, huτ⟩
    · -- cnts
      dsimp only
      intro v g' hv'
      by_cases hvn : v = n
      · subst hvn
        rw [hcharN] at hv'
        rw [← Option.some_inj.mp hv']
        rw [if_neg hcombF]
        have : (st.counts ++ [0])[n]? = some 0 := by
          rw [hn, ← inv.lenC, List.getElem?_concat_length]
        rw [List.getD_eq_getElem?_getD, this]
        rfl
      · obtain ⟨g, hg, hty, -, -, hcase⟩ := hcharOld v g' hvn hv'
        have hvlt : v < st.counts.length := by
          rw [inv.lenC]
          exact (List.getElem?_eq_some.mp hg).1
        have hgetD : (st.counts ++ [0]).getD v 0 = st.counts.getD v 0 := by
          rw [List.getD_eq_getElem?_getD, List.getD_eq_getElem?_getD,
            List.getElem?_append_left hvlt]
        rw [hgetD]
        have hold := inv.cnts v g hg
        by_cases hcomb : isComb g
        · rw [if_pos hcomb] at hold
          rw [if_pos ((isComb_of_type_eq hty).mpr hcomb)]
          rcases hcase with ⟨hvin, hiff⟩ | ⟨-, heq⟩
          · -- rewired: the fan-in set swaps id1 for n, preserving the count
            obtain ⟨⟨g2, hg2, -, hf2⟩, -⟩ := (inv.content id1 v).mp hvin
            rw [hg] at hg2
            obtain rfl := Option.some_inj.mp hg2
            have hset : fanSet g' \ τ.toFinset
                = insert n ((fanSet g \ τ.toFinset).erase id1) := by
              ext x
              simp only [Finset.mem_sdiff, hiff x, Finset.mem_insert,
                Finset.mem_erase, List.mem_toFinset]
              constructor
              · rintro ⟨⟨hx, hxne⟩ | ⟨rfl, -⟩, hxτ⟩
                · exact Or.inr ⟨hxne, ⟨hx, hxτ⟩⟩
                · exact Or.inl rfl
              · rintro (rfl | ⟨hxne, hx, hxτ⟩)
                · exact ⟨Or.inr ⟨rfl, hf2⟩, by simpa using hτn⟩
                · exact ⟨Or.inl ⟨hx, hxne⟩, hxτ⟩
            rw [hold, hset]
            have hnmem : n ∉ (fanSet g \ τ.toFinset).erase id1 := by
              intro hc
              have := Finset.mem_sdiff.mp (Finset.mem_of_mem_erase hc)
              exact absurd (inv.fanLt g (List.getElem?_mem hg) n this.1)
                (lt_irrefl n)
            have hidmem : id1 ∈ fanSet g \ τ.toFinset :=
              Finset.mem_sdiff.mpr ⟨hf2, by simpa using hid1τ⟩
            rw [Finset.card_insert_of_not_mem hnmem,
              Finset.card_erase_of_mem hidmem]
            have : 0 < (fanSet g \ τ.toFinset).card := Finset.card_pos.mpr ⟨id1, hidmem⟩
            omega
          · rw [heq, hold]
        · rw [if_neg hcomb] at hold
          rw [if_neg (fun hc => hcomb ((isComb_of_type_eq hty).mp hc)), hold]
    · -- nonComb
      dsimp only
      intro i g' hi hnc
      by_cases hin : i = n
      · subst hin
        exact Or.inl (Finset.mem_insert_self _ _)
      · obtain ⟨g, hg, hty, -, -, -⟩ := hcharOld i g' hin hi
        rcases inv.nonComb i g hg (fun hc => hnc ((isComb_of_type_eq hty).mpr hc)) with hiw | hit
        · exact Or.inl (Finset.mem_insert_of_mem hiw)
        · exact Or.inr hit
    · -- wpFan
      dsimp only
      intro v hv g' hg' hc' u hu
      rcases Finset.mem_insert.mp hv with rfl | hv
      · rw [hcharN] at hg'
        rw [← Option.some_inj.mp hg'] at hc'
        exact absurd hc' hcombF
      · rw [hwp] at hv
        exact absurd hv (Finset.not_mem_empty v)
    · -- popOrder
      dsimp only
      intro v g' hv hg' hc' u hu
      have hvn : v ≠ n := fun hc => hτn (hc ▸ hv)
      obtain ⟨g, hg, hty, -, -, hcase⟩ := hcharOld v g' hvn hg'
      have hcomb : isComb g := (isComb_of_type_eq hty).mp hc'
      rcases hcase with ⟨hvin, -⟩ | ⟨-, heq⟩
      · -- a rewired node cannot already be popped
        obtain ⟨⟨g2, hg2, -, hf2⟩, -⟩ := (inv.content id1 v).mp hvin
        rw [hg] at hg2
        obtain rfl := Option.some_inj.mp hg2
        exact absurd (inv.popOrder v g hv hg hcomb id1 hf2).1 hid1τ
      · rw [heq] at hu
        exact inv.popOrder v g hv hg hcomb u hu
    · -- combWire
      dsimp only
      intro g' hg' hc'
      obtain ⟨i, hi⟩ := List.mem_iff_getElem?.mp hg'
      by_cases hin : i = n
      · subst hin
        rw [hcharN] at hi
        rw [← Option.some_inj.mp hi] at hc'
        exact absurd hc' hcombF
      · obtain ⟨g, hg, hty, hbit, -, -⟩ := hcharOld i g' hin hi
        rw [hbit]
        exact inv.combWire g (List.getElem?_mem hg) ((isComb_of_type_eq hty).mp hc')
    · -- fresh
      dsimp only
      intro p hp w hw h9
      rcases List.mem_cons.mp hp with rfl | hp
      · simp only [loopBit] at hw
        obtain rfl := Option.some_inj.mp hw.symm
        have hd9 : (abcloopName st.aidx).drop 9 = natToDecStr st.aidx := by
          unfold abcloopName
          have := List.drop_left abcloopPfx (natToDecStr st.aidx)
          simpa [abcloopPfx] using this
        simp only [hd9, decValue_natToDecStr]
        omega
      · have := inv.fresh p hp w hw h9
        omega
  · -- the measure does not increase
    unfold phi
    dsimp only
    have hwnew : (insert n st.wp).card = 1 := by rw [hwp]; rfl
    have hknew : (insert n st.edges_keys).card = st.edges_keys.card + 1 :=
      Finset.card_insert_of_not_mem hn_nokey
    -- the in-count total is unchanged
    have htc : (Finset.range (st.counts ++ [0]).length).sum
        (fun i => (st.counts ++ [0]).getD i 0)
        = (Finset.range st.counts.length).sum (fun i => st.counts.getD i 0) := by
      rw [List.length_append, List.length_singleton, Finset.sum_range_succ]
      have hlast : (st.counts ++ [0]).getD st.counts.length 0 = 0 := by
        rw [List.getD_eq_getElem?_getD, List.getElem?_concat_length]
        rfl
      rw [hlast, Nat.add_zero]
      apply Finset.sum_congr rfl
      intro i hi
      rw [List.getD_eq_getElem?_getD, List.getD_eq_getElem?_getD,
        List.getElem?_append_left (Finset.mem_range.mp hi)]
    rw [htc, hwnew, hwp]
    simp only [Finset.card_empty, Nat.add_zero]
    rw [hknew]
    -- the weighted edge sum drops by 2 per moved edge
    have hwn : combAtB SL2 n = false := by
      unfold combAtB
      rw [hcharN]
      simp [hcombF]
    have hw1 : combAtB st.sl id1 = true := by
      unfold combAtB
      rw [hg1]
      simp [hcomb1]
    have hsum_new : (insert n st.edges_keys).sum
        (fun k => ((Function.update (Function.update st.eout n (st.eout id1)) id1
          (st.eout n)) k).card * (if combAtB SL2 k then 3 else 1))
        = (st.eout id1).card +
          (st.edges_keys.erase id1).sum
            (fun k => (st.eout k).card * (if combAtB SL2 k then 3 else 1)) := by
      rw [Finset.sum_insert hn_nokey, hEn, hwn]
      simp only [Bool.false_eq_true, if_false, Nat.mul_one]
      congr 1
      rw [← Finset.add_sum_erase _ _ hid1_key, hE1]
      simp only [Finset.card_empty, Nat.zero_mul, Nat.zero_add]
      apply Finset.sum_congr rfl
      intro k hk
      have hk1 : k ≠ id1 := (Finset.mem_erase.mp hk).1
      have hkn : k ≠ n := fun hc =>
        hn_nokey (hc ▸ Finset.mem_of_mem_erase hk)
      rw [hEo k hk1 hkn]
    have hsum_old : st.edges_keys.sum
        (fun k => (st.eout k).card * (if combAtB st.sl k then 3 else 1))
        = (st.eout id1).card * 3 +
          (st.edges_keys.erase id1).sum
            (fun k => (st.eout k).card * (if combAtB st.sl k then 3 else 1)) := by
      rw [← Finset.add_sum_erase _ _ hid1_key, hw1]
      rfl
    have hsum_same : (st.edges_keys.erase id1).sum
        (fun k => (st.eout k).card * (if combAtB SL2 k then 3 else 1))
        = (st.edges_keys.erase id1).sum
          (fun k => (st.eout k).card * (if combAtB st.sl k then 3 else 1)) := by
      apply Finset.sum_congr rfl
      intro k hk
      have hkn : k ≠ n := fun hc =>
        hn_nokey (hc ▸ Finset.mem_of_mem_erase hk)
      have hsame : combAtB SL2 k = combAtB st.sl k := by
        unfold combAtB
        rw [hchar k, if_neg hkn]
        rcases hsk : st.sl[k]? with _ | g
        · rfl
        · simp only [Option.map_some']
          by_cases hkin : k ∈ st.eout id1 <;> [rw [if_pos hkin]; rw [if_neg hkin]] <;>
            (by_cases hkid : k = id1 <;> [rw [if_pos hkid]; rw [if_neg hkid]] <;> rfl)
      rw [hsame]
    rw [hsum_new, hsum_old, hsum_same]
    have hcard1 : 1 ≤ (st.eout id1).card :=
      Finset.card_pos.mpr (Finset.nonempty_iff_ne_empty.mpr hne)
    omega

theorem erase_key_inv {st : HLState} {τ : List Nat} (inv : HLInv st τ)
    {id1 : Nat} (hid : st.eout id1 = ∅) :
    HLInv { st with edges_keys := st.edges_keys.erase id1 } τ ∧
    phi { st with edges_keys := st.edges_keys.erase id1 } ≤ phi st := by
  constructor
  · exact
      { lenC := inv.lenC
        ids := inv.ids
        keysLt := fun k hk => inv.keysLt k (Finset.mem_of_mem_erase hk)
        wpLt := inv.wpLt
        popLt := inv.popLt
        fanLt := inv.fanLt
        nod := inv.nod
        outEmpty := fun k hk => by
          by_cases hk1 : k = id1
          · rw [hk1]; exact hid
          · exact inv.outEmpty k (fun hc => hk (Finset.mem_erase.mpr ⟨hk1, hc⟩))
        content := inv.content
        cnts := inv.cnts
        nonComb := inv.nonComb
        wpFan := inv.wpFan
        popOrder := inv.popOrder
        combWire := inv.combWire
        fresh := inv.fresh }
  · unfold phi
    dsimp only
    have h1 := Finset.sum_le_sum_of_subset
      (f := fun k => (st.eout k).card * (if combAtB st.sl k then 3 else 1))
      (Finset.erase_subset id1 st.edges_keys)
    dsimp only at h1
    have h2 : (st.edges_keys.erase id1).card ≤ st.edges_keys.card :=
      Finset.card_le_card (Finset.erase_subset _ _)
    omega

theorem pop_phi {st : HLState} {τ : List Nat} (inv : HLInv st τ)
    {id : Nat} (hid : id ∈ st.wp) : phi (popStep st id) < phi st := by
  have hcsum : (Finset.range st.counts.length).sum
      (fun i => (st.counts.mapIdx (fun i c => if i ∈ st.eout id then c - 1 else c)).getD i 0)
      + (st.eout id).card
      = (Finset.range st.counts.length).sum (fun i => st.counts.getD i 0) := by
    have hpt : ∀ i ∈ Finset.range st.counts.length,
        (st.counts.mapIdx (fun i c => if i ∈ st.eout id then c - 1 else c)).getD i 0
          + (if i ∈ st.eout id then 1 else 0)
        = st.counts.getD i 0 := by
      intro i hi
      have hilt : i < st.counts.length := Finset.mem_range.mp hi
      obtain ⟨c, hc⟩ : ∃ c, st.counts[i]? = some c :=
        ⟨st.counts[i], List.getElem?_eq_getElem hilt⟩
      have hgd0 : st.counts.getD i 0 = c := by
        rw [List.getD_eq_getElem?_getD, hc]
        rfl
      have hgd : (st.counts.mapIdx (fun i c => if i ∈ st.eout id then c - 1 else c)).getD i 0
          = if i ∈ st.eout id then c - 1 else c := by
        rw [getD_mapIdx, hc]
      by_cases him : i ∈ st.eout id
      · obtain ⟨⟨g, hg, hcomb, hfan⟩, hτi⟩ := (inv.content id i).mp him
        have h1 : 1 ≤ st.counts.getD i 0 := by
          rw [inv.cnts i g hg, if_pos hcomb]
          exact Finset.card_pos.mpr
            ⟨id, Finset.mem_sdiff.mpr ⟨hfan, by simpa using hτi⟩⟩
        rw [hgd, if_pos him, if_pos him, hgd0]
        rw [hgd0] at h1
        omega
      · rw [hgd, if_neg him, if_neg him, hgd0]
        omega
    have hsplit : (Finset.range st.counts.length).sum
        (fun i => (st.counts.mapIdx (fun i c => if i ∈ st.eout id then c - 1 else c)).getD i 0
          + (if i ∈ st.eout id then 1 else 0))
        = (Finset.range st.counts.length).sum (fun i => st.counts.getD i 0) :=
      Finset.sum_congr rfl hpt
    rw [Finset.sum_add_distrib] at hsplit
    have hsub : st.eout id ⊆ Finset.range st.counts.length := by
      intro i hi
      rw [Finset.mem_range, inv.lenC]
      exact hlinv_target_lt inv hi
    have hind : (Finset.range st.counts.length).sum
        (fun i => if i ∈ st.eout id then 1 else 0) = (st.eout id).card := by
      rw [Finset.sum_ite_mem, Finset.inter_eq_right.mpr hsub]
      simp
    omega
  have hesum : (st.edges_keys.erase id).sum
      (fun k => ((Function.update st.eout id ∅) k).card * (if combAtB st.sl k then 3 else 1))
      + (st.eout id).card
      ≤ st.edges_keys.sum
          (fun k => (st.eout k).card * (if combAtB st.sl k then 3 else 1)) := by
    have hcong : (st.edges_keys.erase id).sum
        (fun k => ((Function.update st.eout id ∅) k).card * (if combAtB st.sl k then 3 else 1))
        = (st.edges_keys.erase id).sum
          (fun k => (st.eout k).card * (if combAtB st.sl k then 3 else 1)) := by
      apply Finset.sum_congr rfl
      intro k hk
      rw [Function.update_noteq (Finset.mem_erase.mp hk).1]
    rw [hcong]
    by_cases hmem : id ∈ st.edges_keys
    · have hadd := Finset.add_sum_erase st.edges_keys
        (fun k => (st.eout k).card * (if combAtB st.sl k then 3 else 1)) hmem
      dsimp only at hadd
      have hw : (st.eout id).card
          ≤ (st.eout id).card * (if combAtB st.sl id then 3 else 1) := by
        by_cases h : combAtB st.sl id <;> simp [h] <;> omega
      omega
    · rw [Finset.erase_eq_of_not_mem hmem, inv.outEmpty id hmem]
      simp
  have hwpc : ((st.wp.erase id) ∪ (st.eout id).filter (fun i => st.counts.getD i 0 = 1)).card + 1
      ≤ st.wp.card + (st.eout id).card := by
    have h1 := Finset.card_union_le (st.wp.erase id)
      ((st.eout id).filter (fun i => st.counts.getD i 0 = 1))
    have h2 : (st.wp.erase id).card = st.wp.card - 1 := Finset.card_erase_of_mem hid
    have h3 := Finset.card_filter_le (st.eout id) (fun i => st.counts.getD i 0 = 1)
    have h4 : 1 ≤ st.wp.card := Finset.card_pos.mpr ⟨id, hid⟩
    omega
  have hkc : (st.edges_keys.erase id).card ≤ st.edges_keys.card :=
    Finset.card_le_card (Finset.erase_subset _ _)
  unfold phi popStep
  dsimp only
  simp only [List.length_mapIdx]
  omega

theorem innerLoop_spec (iv : BitM → InitV) :
    ∀ (N : Nat) (st : HLState) (τ : List Nat), (sortedKeys st).length ≤ N →
      HLInv st τ →
      ∃ st', innerLoop iv st = some st' ∧ HLInv st' τ ∧ phi st' ≤ phi st ∧
        (st'.wp = ∅ → ∀ u, st'.eout u = ∅) := by
  intro N
  induction N with
  | zero =>
    intro st τ hlen inv
    rw [innerLoop]
    by_cases hwp : st.wp ≠ ∅
    · rw [if_pos hwp]
      exact ⟨st, rfl, inv, le_refl _, fun h => absurd h hwp⟩
    · rw [if_neg hwp]
      have hsk : sortedKeys st = [] := List.length_eq_zero.mp (Nat.le_zero.mp hlen)
      rw [dif_pos hsk]
      refine ⟨st, rfl, inv, le_refl _, fun _ u => ?_⟩
      apply inv.outEmpty
      intro hc
      have hmem : u ∈ sortedKeys st := by
        unfold sortedKeys
        simp only [List.mem_filter, List.mem_range, decide_eq_true_eq]
        exact ⟨inv.keysLt u hc, hc⟩
      rw [hsk] at hmem
      exact absurd hmem (List.not_mem_nil u)
  | succ N ih =>
    intro st τ hlen inv
    rw [innerLoop]
    by_cases hwp : st.wp ≠ ∅
    · rw [if_pos hwp]
      exact ⟨st, rfl, inv, le_refl _, fun h => absurd h hwp⟩
    · rw [if_neg hwp]
      have hwp0 : st.wp = ∅ := not_ne_iff.mp hwp
      by_cases hsk : sortedKeys st = []
      · rw [dif_pos hsk]
        refine ⟨st, rfl, inv, le_refl _, fun _ u => ?_⟩
        apply inv.outEmpty
        intro hc
        have hmem : u ∈ sortedKeys st := by
          unfold sortedKeys
          simp only [List.mem_filter, List.mem_range, decide_eq_true_eq]
          exact ⟨inv.keysLt u hc, hc⟩
        rw [hsk] at hmem
        exact absurd hmem (List.not_mem_nil u)
      · rw [dif_neg hsk]
        by_cases hez : st.eout (chooseBreak st) = ∅
        · rw [if_pos hez]
          obtain ⟨inv1, hphi1⟩ := erase_key_inv inv hez
          have hlt := sortedKeys_erase_length st (chooseBreak st) (chooseBreak_mem st hsk)
          obtain ⟨st', h1, h2, h3, h4⟩ := ih _ τ (by omega) inv1
          exact ⟨st', h1, h2, le_trans h3 hphi1, h4⟩
        · rw [if_neg hez]
          obtain ⟨st', h1, h2, h3, h4⟩ := break_inv iv inv hwp0 hez
          exact ⟨st', h1, h2, h4, fun h => absurd h h3⟩

theorem outer_spec (iv : BitM → InitV) :
    ∀ (fuel : Nat) (st : HLState) (τ : List Nat), HLInv st τ → phi st < fuel →
      (st.wp = ∅ → ∀ u, st.eout u = ∅) →
      ∃ st' τ', outerLoop iv fuel st = some st' ∧ HLInv st' τ' ∧
        ∀ u, st'.eout u = ∅ := by
  intro fuel
  induction fuel with
  | zero => intro st τ _ h _; omega
  | succ fuel ih =>
    intro st τ inv hfuel hnorm
    rw [outerLoop]
    by_cases hwp : st.wp = ∅
    · rw [dif_pos hwp]
      exact ⟨st, τ, rfl, inv, hnorm hwp⟩
    · rw [dif_neg hwp]
      have hmin : st.wp.min' (Finset.nonempty_iff_ne_empty.mpr hwp) ∈ st.wp :=
        Finset.min'_mem _ _
      have hpp := pop_phi inv hmin
      by_cases hτm : st.wp.min' (Finset.nonempty_iff_ne_empty.mpr hwp) ∈ τ
      · have inv2 := (pop_inv inv hmin).1 hτm
        obtain ⟨st2, h1, h2, h3, h4⟩ := innerLoop_spec iv
          (sortedKeys (popStep st (st.wp.min' (Finset.nonempty_iff_ne_empty.mpr hwp)))).length
          _ τ (le_refl _) inv2
        rw [h1]
        exact ih st2 τ h2 (by omega) h4
      · have inv2 := (pop_inv inv hmin).2 hτm
        obtain ⟨st2, h1, h2, h3, h4⟩ := innerLoop_spec iv
          (sortedKeys (popStep st (st.wp.min' (Finset.nonempty_iff_ne_empty.mpr hwp)))).length
          _ (τ ++ [st.wp.min' (Finset.nonempty_iff_ne_empty.mpr hwp)]) (le_refl _) inv2
        rw [h1]
        exact ih st2 _ h2 (by omega) h4

theorem mem_foldr_union (l : List Gate) (k : Nat) :
    k ∈ l.foldr (fun g acc => fanSet g ∪ acc) ∅ ↔ ∃ g ∈ l, k ∈ fanSet g := by
  induction l with
  | nil => simp
  | cons x xs ih => simp [List.foldr_cons, Finset.mem_union, ih]

theorem init_inv (sl : List Gate) (smap : List (BitM × Nat)) (aidx : Nat)
    (hids : ∀ (i : Nat) (g : Gate), sl[i]? = some g → g.id = i)
    (hfan : ∀ g ∈ sl, ∀ u ∈ fanSet g, u < sl.length)
    (hwire : ∀ g ∈ sl, isComb g → g.bit.wire ≠ none)
    (hfresh : ∀ p ∈ smap, ∀ w, p.1.wire = some w → w.name.take 9 = abcloopPfx →
      decValue (w.name.drop 9) < aidx) :
    HLInv (initHL sl smap aidx) [] := by
  have hmemPos : ∀ g ∈ sl, sl[g.id]? = some g := by
    intro g hg
    obtain ⟨i, hi⟩ := List.mem_iff_getElem?.mp hg
    rw [hids i g hi]
    exact hi
  refine
    { lenC := by simp [initHL]
      ids := hids
      keysLt := ?_
      wpLt := ?_
      popLt := fun k hk => absurd hk (List.not_mem_nil k)
      fanLt := hfan
      nod := List.nodup_nil
      outEmpty := ?_
      content := ?_
      cnts := ?_
      nonComb := ?_
      wpFan := ?_
      popOrder := fun v g hv => absurd hv (List.not_mem_nil v)
      combWire := hwire
      fresh := hfresh }
  · -- keysLt
    intro k hk
    obtain ⟨g, hgf, hkf⟩ := (mem_foldr_union _ k).mp hk
    exact hfan g (List.mem_filter.mp hgf).1 k hkf
  · -- wpLt
    intro k hk
    obtain ⟨g, hgf, hgid⟩ := List.mem_map.mp (List.mem_toFinset.mp hk)
    rw [← hgid]
    exact (List.getElem?_eq_some.mp (hmemPos g (List.mem_filter.mp hgf).1)).1
  · -- outEmpty
    intro k hk
    rw [Finset.eq_empty_iff_forall_not_mem]
    intro v hv
    obtain ⟨g, hgf, hgid⟩ := List.mem_map.mp (List.mem_toFinset.mp hv)
    obtain ⟨hgsl, hb⟩ := List.mem_filter.mp hgf
    simp only [Bool.and_eq_true, decide_eq_true_eq] at hb
    exact hk ((mem_foldr_union _ k).mpr
      ⟨g, List.mem_filter.mpr ⟨hgsl, by simp [hb.1]⟩, hb.2⟩)
  · -- content
    intro u v
    constructor
    · intro hv
      obtain ⟨g, hgf, hgid⟩ := List.mem_map.mp (List.mem_toFinset.mp hv)
      obtain ⟨hgsl, hb⟩ := List.mem_filter.mp hgf
      simp only [Bool.and_eq_true, decide_eq_true_eq] at hb
      refine ⟨⟨g, ?_, hb.1, hb.2⟩, List.not_mem_nil u⟩
      rw [← hgid]
      exact hmemPos g hgsl
    · rintro ⟨⟨g, hgv, hcomb, hfm⟩, -⟩
      exact List.mem_toFinset.mpr (List.mem_map.mpr
        ⟨g, List.mem_filter.mpr ⟨List.getElem?_mem hgv, by simp [hcomb, hfm]⟩,
          hids v g hgv⟩)
  · -- cnts
    intro v g hgv
    have hgv2 : sl[v]? = some g := hgv
    show (sl.map (fun g => if isComb g then (fanSet g).card else 0)).getD v 0 = _
    rw [List.getD_eq_getElem?_getD, List.getElem?_map, hgv2]
    simp [Finset.sdiff_empty]
  · -- nonComb
    intro i g hi hnc
    exact Or.inl (List.mem_toFinset.mpr (List.mem_map.mpr
      ⟨g, List.mem_filter.mpr ⟨List.getElem?_mem hi, by simp [hnc]⟩, hids i g hi⟩))
  · -- wpFan
    intro v hv g hgv hcomb u hu
    obtain ⟨g2, hg2f, hg2id⟩ := List.mem_map.mp (List.mem_toFinset.mp hv)
    obtain ⟨hg2sl, hb2⟩ := List.mem_filter.mp hg2f
    simp only [Bool.not_eq_true', decide_eq_false_iff_not] at hb2
    have hgv2 : sl[v]? = some g := hgv
    have h0 : sl[v]? = some g2 := by rw [← hg2id]; exact hmemPos g2 hg2sl
    rw [hgv2] at h0
    obtain rfl := Option.some_inj.mp h0
    exact absurd hcomb hb2

theorem no_cycle_of_final {st : HLState} {τ : List Nat} (inv : HLInv st τ)
    (hemp : ∀ u, st.eout u = ∅) :
    ∀ x, ¬ Relation.TransGen (combEdge st.sl) x x := by
  have hdec : ∀ u v, combEdge st.sl u v →
      ∃ gu gv, st.sl[u]? = some gu ∧ st.sl[v]? = some gv ∧
        isComb gu ∧ isComb gv ∧ u ∈ fanSet gv := by
    intro u v h
    unfold combEdge combEdgeB at h
    rcases hu : st.sl[u]? with _ | gu <;> rw [hu] at h
    · exact absurd h (by simp)
    · rcases hv : st.sl[v]? with _ | gv <;> rw [hv] at h
      · exact absurd h (by simp)
      · simp only [Bool.and_eq_true, decide_eq_true_eq] at h
        exact ⟨gu, gv, rfl, rfl, h.1.1, h.1.2, h.2⟩
  have hsrc : ∀ u v, combEdge st.sl u v → u ∈ τ := by
    intro u v h
    obtain ⟨gu, gv, hu, hv, hcu, hcv, hf⟩ := hdec u v h
    by_contra huτ
    have hmem : v ∈ st.eout u := (inv.content u v).mpr ⟨⟨gv, hv, hcv, hf⟩, huτ⟩
    rw [hemp u] at hmem
    exact absurd hmem (Finset.not_mem_empty v)
  have hedge : ∀ b c, combEdge st.sl b c → c ∈ τ →
      b ∈ τ ∧ τ.indexOf b < τ.indexOf c := by
    intro b c h hcτ
    obtain ⟨gb, gc, hb, hc, hcb, hcc, hf⟩ := hdec b c h
    exact inv.popOrder c gc hcτ hc hcc b hf
  have hrank : ∀ u v, Relation.TransGen (combEdge st.sl) u v → v ∈ τ →
      τ.indexOf u < τ.indexOf v := by
    intro u v h
    induction h with
    | single hbc => intro hvτ; exact (hedge _ _ hbc hvτ).2
    | tail hab hbc ih =>
      intro hcτ
      obtain ⟨hbτ, hlt⟩ := hedge _ _ hbc hcτ
      exact lt_trans (ih hbτ) hlt
  intro x hx
  have hxτ : x ∈ τ := by
    obtain ⟨y, hxy, -⟩ := Relation.TransGen.head'_iff.mp hx
    exact hsrc x y hxy
  exact absurd (hrank x x hx hxτ) (lt_irrefl _)

/-- Witness input for the amended C3: node 0 is an unconnected
(`G_NONE`) node seeding the workpool, nodes 1 and 2 are buffers in a
combinational cycle `1 → 2 → 1`. -/
def slW3 : List Gate :=
  [{ id := 0, type := G_NONE, in1 := -1, in2 := -1, in3 := -1, in4 := -1,
     is_port := false, bit := { wire := none, offset := 0 }, init := InitV.sx },
   { id := 1, type := G_BUF, in1 := 2, in2 := -1, in3 := -1, in4 := -1,
     is_port := false,
     bit := { wire := some { name := ['\\', 'p'], width := 1 }, offset := 0 },
     init := InitV.sx },
   { id := 2, type := G_BUF, in1 := 1, in2 := -1, in3 := -1, in4 := -1,
     is_port := false,
     bit := { wire := some { name := ['\\', 'q'], width := 1 }, offset := 0 },
     init := InitV.sx }]

/-- C3 (amended): on a well-formed registry (positional ids, in-range
fan-ins, wire-backed combinational nodes, loop-wire-fresh signal map)
that contains at least one boundary or flip-flop node to seed the
workpool, `handle_loops` terminates (returns a state rather than
exhausting its fuel or aborting), and in the resulting signal list the
fan-in graph restricted to combinational nodes is acyclic.  (Without
the seed hypothesis the claim fails: see the counterexample.) -/
theorem handle_loops_terminates_dag (iv : BitM → InitV) (sl : List Gate)
    (smap : List (BitM × Nat)) (aidx : Nat)
    (hids : ∀ i : Fin sl.length, (sl.get i).id = (i : Nat))
    (hfan : ∀ g ∈ sl, ∀ u ∈ fanSet g, u < sl.length)
    (hwire : ∀ g ∈ sl, isComb g → g.bit.wire ≠ none)
    (hfresh : ∀ p ∈ smap, ∀ w, p.1.wire = some w → w.name.take 9 = abcloopPfx →
      decValue (w.name.drop 9) < aidx)
    (hseed : ∃ g ∈ sl, ¬ isComb g) :
    ∃ st', handle_loops iv sl smap aidx = some st' ∧
      ∀ x, ¬ Relation.TransGen (combEdge st'.sl) x x := by
  have hids' : ∀ (i : Nat) (g : Gate), sl[i]? = some g → g.id = i := by
    intro i g hg
    have hilt : i < sl.length := (List.getElem?_eq_some.mp hg).1
    have hsg : sl[i] = g := by
      have h0 := List.getElem?_eq_getElem hilt
      rw [hg] at h0
      exact (Option.some_inj.mp h0).symm
    have h2 := hids ⟨i, hilt⟩
    rw [List.get_eq_getElem] at h2
    dsimp only at h2
    rw [hsg] at h2
    exact h2
  have hwpne : (initHL sl smap aidx).wp ≠ ∅ := by
    obtain ⟨g, hg, hnc⟩ := hseed
    exact Finset.ne_empty_of_mem (List.mem_toFinset.mpr (List.mem_map.mpr
      ⟨g, List.mem_filter.mpr ⟨hg, by simp [hnc]⟩, rfl⟩))
  have inv0 := init_inv sl smap aidx hids' hfan hwire hfresh
  obtain ⟨st', τ', heq, hinv, hempt⟩ := outer_spec iv (phi (initHL sl smap aidx) + 1)
    (initHL sl smap aidx) [] inv0 (by omega) (fun h => absurd h hwpne)
  exact ⟨st', heq, no_cycle_of_final hinv hempt⟩

/-- C3 (amended) witness: the hypotheses hold for the concrete registry
`slW3` (which contains the combinational cycle `1 → 2 → 1` and the
boundary node 0), and the theorem applies to it. -/
theorem handle_loops_terminates_dag_witness :
    ∃ st', handle_loops (fun _ => InitV.sx) slW3 [] 0 = some st' ∧
      ∀ x, ¬ Relation.TransGen (combEdge st'.sl) x x :=
  handle_loops_terminates_dag (fun _ => InitV.sx) slW3 [] 0
    (by decide) (by decide) (by decide)
    (fun p hp => absurd hp (List.not_mem_nil p)) (by decide)

/-- Lexicographic step used by the candidate scan on equal name
classes: more successors win, ties go to the smaller display name. -/
theorem lex_cnt_trans {x y z : Nat} {nx ny nz : List Char}
    (h1 : x < y ∨ (x = y ∧ strLt ny nx = true))
    (h2 : y < z ∨ (y = z ∧ strLt nz ny = true)) :
    x < z ∨ (x = z ∧ strLt nz nx = true) := by
  rcases h1 with h1 | ⟨he1, hs1⟩
  · rcases h2 with h2 | ⟨he2, -⟩
    · exact Or.inl (by omega)
    · exact Or.inl (by omega)
  · rcases h2 with h2 | ⟨he2, hs2⟩
    · exact Or.inl (by omega)
    · exact Or.inr ⟨by omega, strLt_trans nz ny nx hs2 hs1⟩

theorem lex_cnt_neg_trans {m a x : Nat} {nm na nx : List Char}
    (h1 : m < x ∨ (m = x ∧ strLt nx nm = true))
    (h2 : ¬ (a < x ∨ (a = x ∧ strLt nx na = true))) :
    m < a ∨ (m = a ∧ strLt na nm = true) := by
  push_neg at h2
  obtain ⟨hax, haeq⟩ := h2
  rcases h1 with h1 | ⟨he1, hs1⟩
  · exact Or.inl (by omega)
  · by_cases hma : m < a
    · exact Or.inl hma
    · have heq : m = a := by omega
      refine Or.inr ⟨heq, ?_⟩
      have hxa : a = x := by omega
      by_cases hT : strLt na nx = true
      · exact strLt_trans na nx nm hT hs1
      · have hT1 : strLt na nx = false := by
          cases hcc : strLt na nx
          · rfl
          · exact absurd hcc hT
        have hT2 : strLt nx na = false := by
          cases hcc : strLt nx na
          · rfl
          · exact absurd hcc (haeq hxa)
        rw [strLt_total na nx hT1 hT2]
        exact hs1

theorem chooseCand_none_left {st : HLState} {a b : Nat}
    (h : wireOfId st a = none) : chooseCand st a b = true := by
  unfold chooseCand
  rw [h]

theorem chooseCand_none_right {st : HLState} {a b : Nat} {w : WireM}
    (h : wireOfId st a = some w) (h2 : wireOfId st b = none) :
    chooseCand st a b = false := by
  unfold chooseCand
  rw [h, h2]

theorem chooseCand_irrefl {st : HLState} {a : Nat} {w : WireM}
    (h : wireOfId st a = some w) : chooseCand st a a = false := by
  unfold chooseCand
  rw [h]
  dsimp only
  rw [if_neg (fun hc : _ ∧ _ => by
      rw [hc.1] at hc
      exact absurd (Option.some_inj.mp hc.2) (by decide)),
    if_neg (fun hc : _ ∧ _ => by
      rw [hc.1] at hc
      exact absurd (Option.some_inj.mp hc.2) (by decide)),
    if_neg (lt_irrefl _), if_neg (lt_irrefl _)]
  exact strLt_irrefl w.name

/-- The candidate comparison at orlo.cc:554-572, for two wire-backed
entries whose names start with `$` or `\`: the challenger wins exactly
when it is user-named against internal, or same-class with more
successors, or same-class equal-count with the smaller name. -/
theorem chooseCand_backed {st : HLState} {a b : Nat} {wa wb : WireM}
    (ha : wireOfId st a = some wa) (hb : wireOfId st b = some wb)
    (hha : wa.name.head? = some '$' ∨ wa.name.head? = some '\\')
    (hhb : wb.name.head? = some '$' ∨ wb.name.head? = some '\\') :
    (chooseCand st a b = true) ↔
      ((wa.name.head? = some '$' ∧ wb.name.head? = some '\\') ∨
       (wa.name.head? = wb.name.head? ∧
         ((st.eout a).card < (st.eout b).card ∨
          ((st.eout a).card = (st.eout b).card ∧ strLt wb.name wa.name)))) := by
  unfold chooseCand
  rw [ha, hb]
  dsimp only
  rcases hha with h1 | h1 <;> rcases hhb with h2 | h2
  · rw [if_neg (by rw [h2]; rintro ⟨-, hc⟩; exact absurd (Option.some_inj.mp hc) (by decide)),
      if_neg (by rw [h1]; rintro ⟨hc, -⟩; exact absurd (Option.some_inj.mp hc) (by decide))]
    constructor
    · intro h
      refine Or.inr ⟨h1.trans h2.symm, ?_⟩
      by_cases hc1 : (st.eout a).card < (st.eout b).card
      · exact Or.inl hc1
      · rw [if_neg hc1] at h
        by_cases hc2 : (st.eout b).card < (st.eout a).card
        · rw [if_pos hc2] at h; exact absurd h (by decide)
        · rw [if_neg hc2] at h
          exact Or.inr ⟨by omega, h⟩
    · rintro (⟨-, hc⟩ | ⟨-, hcnt⟩)
      · rw [h2] at hc; exact absurd (Option.some_inj.mp hc) (by decide)
      · rcases hcnt with hlt | ⟨heq, hstr⟩
        · rw [if_pos hlt]
        · rw [if_neg (by omega), if_neg (by omega)]
          exact hstr
  · rw [if_pos ⟨h1, h2⟩]
    simp [h1, h2]
  · rw [if_neg (by rw [h1, h2]; rintro ⟨hc, -⟩; exact absurd (Option.some_inj.mp hc) (by decide)),
      if_pos ⟨h1, h2⟩]
    constructor
    · intro h; exact absurd h (by decide)
    · rintro (⟨hc, -⟩ | ⟨hc, -⟩)
      · rw [h1] at hc; exact absurd (Option.some_inj.mp hc) (by decide)
      · rw [h1, h2] at hc; exact absurd (Option.some_inj.mp hc) (by decide)
  · rw [if_neg (by rw [h1]; rintro ⟨hc, -⟩; exact absurd (Option.some_inj.mp hc) (by decide)),
      if_neg (by rw [h2]; rintro ⟨-, hc⟩; exact absurd (Option.some_inj.mp hc) (by decide))]
    constructor
    · intro h
      refine Or.inr ⟨h1.trans h2.symm, ?_⟩
      by_cases hc1 : (st.eout a).card < (st.eout b).card
      · exact Or.inl hc1
      · rw [if_neg hc1] at h
        by_cases hc2 : (st.eout b).card < (st.eout a).card
        · rw [if_pos hc2] at h; exact absurd h (by decide)
        · rw [if_neg hc2] at h
          exact Or.inr ⟨by omega, h⟩
    · rintro (⟨hc, -⟩ | ⟨-, hcnt⟩)
      · rw [h1] at hc; exact absurd (Option.some_inj.mp hc) (by decide)
      · rcases hcnt with hlt | ⟨heq, hstr⟩
        · rw [if_pos hlt]
        · rw [if_neg (by omega), if_neg (by omega)]
          exact hstr

/-- A node's head-character condition: if it is wire-backed, the name
starts with `$` (internal) or `\` (user-given), the RTLIL naming
invariant. -/
def headOK (st : HLState) (k : Nat) : Prop :=
  ∀ w, wireOfId st k = some w →
    w.name.head? = some '$' ∨ w.name.head? = some '\\'

theorem chooseCand_trans {st : HLState} {a b c : Nat}
    (hOKa : headOK st a) (hOKb : headOK st b) (hOKc : headOK st c)
    {wa : WireM} (ha : wireOfId st a = some wa)
    (h1 : chooseCand st a b = true) (h2 : chooseCand st b c = true) :
    chooseCand st a c = true := by
  rcases hwb : wireOfId st b with _ | wb
  · rw [chooseCand_none_right ha hwb] at h1
    exact absurd h1 (by decide)
  · rcases hwc : wireOfId st c with _ | wc
    · rw [chooseCand_none_right hwb hwc] at h2
      exact absurd h2 (by decide)
    · have hA := hOKa wa ha
      have hB := hOKb wb hwb
      have hC := hOKc wc hwc
      rw [chooseCand_backed ha hwb hA hB] at h1
      rw [chooseCand_backed hwb hwc hB hC] at h2
      rw [chooseCand_backed ha hwc hA hC]
      rcases h1 with ⟨haD, hbD⟩ | ⟨hab, hlex1⟩
      · rcases h2 with ⟨hb2, -⟩ | ⟨hbc, -⟩
        · rw [hbD] at hb2
          exact absurd (Option.some_inj.mp hb2) (by decide)
        · exact Or.inl ⟨haD, hbc ▸ hbD⟩
      · rcases h2 with ⟨hb2, hc2⟩ | ⟨hbc, hlex2⟩
        · exact Or.inl ⟨hab.trans hb2, hc2⟩
        · exact Or.inr ⟨hab.trans hbc, lex_cnt_trans hlex1 hlex2⟩

theorem chooseCand_neg_trans {st : HLState} {m a x : Nat}
    (hOKm : headOK st m) (hOKa : headOK st a) (hOKx : headOK st x)
    {wm wa : WireM} (hm : wireOfId st m = some wm) (ha : wireOfId st a = some wa)
    (h1 : chooseCand st m x = true) (h2 : chooseCand st a x = false) :
    chooseCand st m a = true := by
  rcases hwx : wireOfId st x with _ | wx
  · rw [chooseCand_none_right hm hwx] at h1
    exact absurd h1 (by decide)
  · have hM := hOKm wm hm
    have hA := hOKa wa ha
    have hX := hOKx wx hwx
    rw [chooseCand_backed hm hwx hM hX] at h1
    rw [chooseCand_backed hm ha hM hA]
    have h2' : ¬ ((wa.name.head? = some '$' ∧ wx.name.head? = some '\\') ∨
        (wa.name.head? = wx.name.head? ∧
          ((st.eout a).card < (st.eout x).card ∨
           ((st.eout a).card = (st.eout x).card ∧ strLt wx.name wa.name)))) := by
      intro hc
      rw [← chooseCand_backed ha hwx hA hX] at hc
      rw [h2] at hc
      exact absurd hc (by decide)
    rcases h1 with ⟨hmD, hxD⟩ | ⟨hmx, hlex1⟩
    · rcases hA with hA1 | hA1
      · rcases hX with hX1 | hX1
        · rw [hxD] at hX1
          exact absurd (Option.some_inj.mp hX1) (by decide)
        · exact absurd (Or.inl ⟨hA1, hxD⟩) h2'
      · exact Or.inl ⟨hmD, hA1⟩
    · rcases hA with hA1 | hA1 <;> rcases hM with hM1 | hM1
      · -- both internal: a did not beat x, x class = m class = a class
        refine Or.inr ⟨hM1.trans hA1.symm, ?_⟩
        have h2'' : ¬ ((st.eout a).card < (st.eout x).card ∨
            ((st.eout a).card = (st.eout x).card ∧ strLt wx.name wa.name)) := by
          intro hc
          exact h2' (Or.inr ⟨hA1.trans (hmx ▸ hM1).symm, hc⟩)
        exact lex_cnt_neg_trans hlex1 h2''
      · -- a internal, m user: a beats nothing relevant; m wins by class
        rw [hmx] at hM1
        rcases hX with hX1 | hX1
        · rw [hM1] at hX1
          exact absurd (Option.some_inj.mp hX1) (by decide)
        · exact absurd (Or.inl ⟨hA1, hX1⟩) h2'
      · -- a user, m internal: impossible unless a failed to beat x of its own class
        exact Or.inl ⟨hM1, hA1⟩
      · refine Or.inr ⟨hM1.trans hA1.symm, ?_⟩
        have h2'' : ¬ ((st.eout a).card < (st.eout x).card ∨
            ((st.eout a).card = (st.eout x).card ∧ strLt wx.name wa.name)) := by
          intro hc
          exact h2' (Or.inr ⟨hA1.trans (hmx ▸ hM1).symm, hc⟩)
        exact lex_cnt_neg_trans hlex1 h2''

/-- The scan of orlo.cc:554-572 as a fold (the body of `chooseBreak`). -/
def scanFold (st : HLState) (acc : Nat) (l : List Nat) : Nat :=
  l.foldl (fun id1 id2 => if chooseCand st id1 id2 then id2 else id1) acc

theorem scanFold_spec (st : HLState) :
    ∀ (l : List Nat) (acc : Nat),
      headOK st acc → (∀ x ∈ l, headOK st x) →
      (scanFold st acc l = acc ∨ scanFold st acc l ∈ l) ∧
      ((wireOfId st acc ≠ none ∨ ∃ x ∈ l, wireOfId st x ≠ none) →
        wireOfId st (scanFold st acc l) ≠ none) ∧
      (wireOfId st (scanFold st acc l) ≠ none →
        ∀ k, (k = acc ∨ k ∈ l) → chooseCand st (scanFold st acc l) k = false) := by
  intro l
  induction l with
  | nil =>
    intro acc hOKa _
    refine ⟨Or.inl rfl, ?_, ?_⟩
    · rintro (h | ⟨x, hx, -⟩)
      · exact h
      · exact absurd hx (List.not_mem_nil x)
    · rintro hb k (rfl | hk)
      · rcases hw : wireOfId st k with _ | w
        · exact absurd hw hb
        · exact chooseCand_irrefl hw
      · exact absurd hk (List.not_mem_nil k)
  | cons x xs ih =>
    intro acc hOKa hOKl
    have hOKx : headOK st x := hOKl x (List.mem_cons_self _ _)
    have hOKxs : ∀ y ∈ xs, headOK st y := fun y hy => hOKl y (List.mem_cons_of_mem _ hy)
    have hstep : scanFold st acc (x :: xs)
        = scanFold st (if chooseCand st acc x then x else acc) xs := rfl
    by_cases hR : chooseCand st acc x = true
    · rw [hstep, if_pos hR]
      obtain ⟨m1, m2, m3⟩ := ih x hOKx hOKxs
      have hOKm : headOK st (scanFold st x xs) := by
        rcases m1 with h | h
        · rw [h]; exact hOKx
        · exact hOKxs _ h
      refine ⟨?_, ?_, ?_⟩
      · rcases m1 with h | h
        · rw [h]; exact Or.inr (List.mem_cons_self _ _)
        · exact Or.inr (List.mem_cons_of_mem _ h)
      · intro hprem
        apply m2
        rcases hwa : wireOfId st acc with _ | wa
        · rcases hprem with h | ⟨y, hy, hyb⟩
          · exact absurd hwa h
          · rcases List.mem_cons.mp hy with rfl | hy2
            · exact Or.inl hyb
            · exact Or.inr ⟨y, hy2, hyb⟩
        · left
          intro hxnone
          rw [chooseCand_none_right hwa hxnone] at hR
          exact absurd hR (by decide)
      · intro hb k hk
        rcases hk with rfl | hk2
        · -- the old accumulator: it was beaten by x, and x never beats the result
          rcases hwa : wireOfId st k with _ | wa
          · rcases hwm : wireOfId st (scanFold st x xs) with _ | wm
            · exact absurd hwm hb
            · exact chooseCand_none_right hwm hwa
          · by_contra hc
            have hc2 : chooseCand st (scanFold st x xs) k = true := by
              cases hcc : chooseCand st (scanFold st x xs) k
              · exact absurd hcc hc
              · rfl
            rcases hwm : wireOfId st (scanFold st x xs) with _ | wm
            · exact absurd hwm hb
            · have htr := chooseCand_trans hOKm hOKa hOKx hwm hc2 hR
              have hx2 := m3 hb x (Or.inl rfl)
              rw [hx2] at htr
              exact absurd htr (by decide)
        · rcases List.mem_cons.mp hk2 with rfl | hk3
          · exact m3 hb k (Or.inl rfl)
          · exact m3 hb k (Or.inr hk3)
    · rw [hstep, if_neg hR]
      obtain ⟨m1, m2, m3⟩ := ih acc hOKa hOKxs
      have hwa : ∃ w, wireOfId st acc = some w := by
        rcases hw : wireOfId st acc with _ | wa
        · rw [chooseCand_none_left hw] at hR
          exact absurd rfl hR
        · exact ⟨wa, rfl⟩
      obtain ⟨wa, hwa⟩ := hwa
      have hOKm : headOK st (scanFold st acc xs) := by
        rcases m1 with h | h
        · rw [h]; exact hOKa
        · exact hOKxs _ h
      refine ⟨?_, ?_, ?_⟩
      · rcases m1 with h | h
        · exact Or.inl h
        · exact Or.inr (List.mem_cons_of_mem _ h)
      · intro hprem
        apply m2
        left
        rw [hwa]
        intro hc
        exact absurd hc (by simp)
      · intro hb k hk
        rcases hk with rfl | hk2
        · exact m3 hb k (Or.inl rfl)
        · rcases List.mem_cons.mp hk2 with rfl | hk3
          · -- k = x: it failed against acc, and acc never beats the result
            rcases hwk : wireOfId st k with _ | wk
            · rcases hwm : wireOfId st (scanFold st acc xs) with _ | wm
              · exact absurd hwm hb
              · exact chooseCand_none_right hwm hwk
            · by_contra hc
              have hc2 : chooseCand st (scanFold st acc xs) k = true := by
                cases hcc : chooseCand st (scanFold st acc xs) k
                · exact absurd hcc hc
                · rfl
              rcases hwm : wireOfId st (scanFold st acc xs) with _ | wm
              · exact absurd hwm hb
              · have hR2 : chooseCand st acc k = false := by
                  cases hcc : chooseCand st acc k
                  · rfl
                  · exact absurd hcc hR
                have htr := chooseCand_neg_trans hOKm hOKa hOKx hwm hwa hc2 hR2
                have hacc2 := m3 hb acc (Or.inl rfl)
                rw [hacc2] at htr
                exact absurd htr (by decide)
          · exact m3 hb k (Or.inr hk3)

/-- The preference relation of the amended C4, written from the
criteria the code applies: challenger `k` beats current `m` when `m`
is synthetic and `k` wire-backed; or both are backed and `k` is
user-named against internal; or same class with more successors; or
same class, equal count, and lexicographically smaller name. -/
def beats (st : HLState) (k m : Nat) : Prop :=
  (wireOfId st m = none ∧ wireOfId st k ≠ none) ∨
  (∃ wk wm, wireOfId st k = some wk ∧ wireOfId st m = some wm ∧
    ((wm.name.head? = some '$' ∧ wk.name.head? = some '\\') ∨
     (wm.name.head? = wk.name.head? ∧
       ((st.eout m).card < (st.eout k).card ∨
        ((st.eout m).card = (st.eout k).card ∧ strLt wk.name wm.name)))))

theorem beats_imp_chooseCand {st : HLState} {k m : Nat}
    (hOKm : headOK st m) (hOKk : headOK st k) (h : beats st k m) :
    chooseCand st m k = true := by
  rcases h with ⟨hm, hk⟩ | ⟨wk, wm, hk, hm, hrest⟩
  · exact chooseCand_none_left hm
  · rw [chooseCand_backed hm hk (hOKm wm hm) (hOKk wk hk)]
    exact hrest

/-- C4 (amended): among edge-map entries with remaining outgoing
edges, the scan picks a wire-backed node (never a synthetic one while
a wire-backed key exists), and the node it picks is undominated under
the preference order the code applies: wire-backed over synthetic,
then user (`\`) names over internal (`$`) names, then more remaining
successors, then the lexicographically smaller display name. -/
theorem choose_break_order (st : HLState)
    (hne : sortedKeys st ≠ [])
    (hheads : ∀ k ∈ sortedKeys st, headOK st k)
    (hsome : ∃ k0 ∈ sortedKeys st, wireOfId st k0 ≠ none) :
    chooseBreak st ∈ sortedKeys st ∧
    wireOfId st (chooseBreak st) ≠ none ∧
    ∀ k ∈ sortedKeys st, ¬ beats st k (chooseBreak st) := by
  rcases hs : sortedKeys st with _ | ⟨k0, ks⟩
  · exact absurd hs hne
  · have hfold : chooseBreak st = scanFold st k0 (k0 :: ks) := by
      unfold chooseBreak scanFold
      rw [hs]
    have hOKa : headOK st k0 := hheads k0 (by rw [hs]; exact List.mem_cons_self _ _)
    have hOKl : ∀ x ∈ (k0 :: ks), headOK st x := fun x hx => hheads x (by rw [hs]; exact hx)
    obtain ⟨m1, m2, m3⟩ := scanFold_spec st (k0 :: ks) k0 hOKa hOKl
    have hbacked : wireOfId st (scanFold st k0 (k0 :: ks)) ≠ none := by
      apply m2
      obtain ⟨x, hx, hxb⟩ := hsome
      rw [hs] at hx
      exact Or.inr ⟨x, hx, hxb⟩
    refine ⟨?_, ?_, ?_⟩
    · rw [hfold]
      rcases m1 with h | h
      · rw [h]; exact List.mem_cons_self _ _
      · exact h
    · rw [hfold]; exact hbacked
    · intro k hk hbeat
      have hdom := m3 hbacked k (Or.inr hk)
      have hOKm : headOK st (chooseBreak st) := by
        rw [hfold]
        rcases m1 with h | h
        · rw [h]; exact hOKa
        · exact hOKl _ h
      have := beats_imp_chooseCand hOKm (hOKl k hk) hbeat
      rw [hfold] at this
      rw [hdom] at this
      exact absurd this (by decide)

/-- C4 (amended) witness: on the two-key state `stC4b` the scan picks
key 1 (user-named), which is wire-backed and undominated. -/
theorem choose_break_order_witness :
    chooseBreak stC4b ∈ sortedKeys stC4b ∧
    wireOfId stC4b (chooseBreak stC4b) ≠ none ∧
    ∀ k ∈ sortedKeys stC4b, ¬ beats stC4b k (chooseBreak stC4b) :=
  choose_break_order stC4b (by decide)
    (fun k hk w hw => by
      have hsk : sortedKeys stC4b = [0, 1] := by decide
      rw [hsk] at hk
      have hk2 : k = 0 ∨ k = 1 := by simpa using hk
      rcases hk2 with rfl | rfl
      · rw [show wireOfId stC4b 0 = some { name := ['$', 'x'], width := 1 } from rfl] at hw
        obtain rfl := Option.some_inj.mp hw.symm
        left
        rfl
      · rw [show wireOfId stC4b 1 = some { name := ['\\', 'a'], width := 1 } from rfl] at hw
        obtain rfl := Option.some_inj.mp hw.symm
        right
        rfl)
    ⟨1, by decide, by decide⟩

/-! ## The clock-domain partitioner (orlo.cc:2042-2186)

Cells and bits are modelled by ids; the `std::set` worklists are
lists whose inserted elements are always fresh (the code inserts only
cells just removed from `unassigned_cells`), and `*q.begin()` is the
element minimal in an arbitrary injective priority (the pointer
order), the parameter that captures "traversal order" in C5. -/

/-- A clock-domain key: `tuple<bool, SigSpec, bool, SigSpec>`
(orlo.cc:2049); an empty `SigSpec` is `none`. -/
structure ClkDom where
  pol : Bool
  clk : Option Nat
  enPol : Bool
  en : Option Nat
  deriving DecidableEq, Repr

/-- The default domain `clkdomain_t(true, SigSpec(), true, SigSpec())`
of orlo.cc:2163. -/
def defaultKey : ClkDom := { pol := true, clk := none, enPol := true, en := none }

/-- Cell kinds the seeding loop distinguishes (orlo.cc:2077-2090). -/
inductive CKind where
  | dffN | dffP | dffeNN | dffeNP | dffePN | dffePP | comb
  deriving DecidableEq, Repr

/-- One connection bit of a cell with its port direction flags
(`ct.cell_input` / `ct.cell_output`). -/
structure Conn where
  isIn : Bool
  isOut : Bool
  bit : Nat
  deriving DecidableEq, Repr

/-- A selected cell: id, kind, clock/enable signals, connections. -/
structure CellM where
  id : Nat
  kind : CKind
  clk : Nat
  en : Nat
  conns : List Conn
  deriving DecidableEq, Repr

/-- The clock-domain key of a flip-flop cell (orlo.cc:2077-2090);
`none` for any other kind (the loop `continue`s). -/
def keyOf (x : CellM) : Option ClkDom :=
  match x.kind with
  | CKind.dffN => some { pol := false, clk := some x.clk, enPol := true, en := none }
  | CKind.dffP => some { pol := true, clk := some x.clk, enPol := true, en := none }
  | CKind.dffeNN => some { pol := false, clk := some x.clk, enPol := false, en := some x.en }
  | CKind.dffeNP => some { pol := false, clk := some x.clk, enPol := true, en := some x.en }
  | CKind.dffePN => some { pol := true, clk := some x.clk, enPol := false, en := some x.en }
  | CKind.dffePP => some { pol := true, clk := some x.clk, enPol := true, en := some x.en }
  | CKind.comb => none

/-- All connection bits of a cell (`cell_to_bit`). -/
def cellBitsAll (x : CellM) : Finset Nat := (x.conns.map (fun cn => cn.bit)).toFinset

/-- Input-side bits (`cell_to_bit_up`). -/
def cellBitsIn (x : CellM) : Finset Nat :=
  ((x.conns.filter (fun cn => cn.isIn)).map (fun cn => cn.bit)).toFinset

/-- Output-side bits (`cell_to_bit_down`). -/
def cellBitsOut (x : CellM) : Finset Nat :=
  ((x.conns.filter (fun cn => cn.isOut)).map (fun cn => cn.bit)).toFinset

/-- `cell_to_bit[c]` as a function of the cell list. -/
def cbF (cells : List CellM) (c : Nat) : Finset Nat :=
  match cells.find? (fun x => x.id == c) with
  | some x => cellBitsAll x
  | none => ∅

/-- `cell_to_bit_up[c]`. -/
def cbUF (cells : List CellM) (c : Nat) : Finset Nat :=
  match cells.find? (fun x => x.id == c) with
  | some x => cellBitsIn x
  | none => ∅

/-- `cell_to_bit_down[c]`. -/
def cbDF (cells : List CellM) (c : Nat) : Finset Nat :=
  match cells.find? (fun x => x.id == c) with
  | some x => cellBitsOut x
  | none => ∅

/-- `bit_to_cell[b]`: the cells connected to bit `b`. -/
def bcF (cells : List CellM) (b : Nat) : Finset Nat :=
  ((cells.filter (fun x => decide (b ∈ cellBitsAll x))).map (fun x => x.id)).toFinset

/-- `bit_to_cell_up[b]`: the cells with `b` on an output port (drivers). -/
def bcUF (cells : List CellM) (b : Nat) : Finset Nat :=
  ((cells.filter (fun x => decide (b ∈ cellBitsOut x))).map (fun x => x.id)).toFinset

/-- `bit_to_cell_down[b]`: the cells with `b` on an input port (readers). -/
def bcDF (cells : List CellM) (b : Nat) : Finset Nat :=
  ((cells.filter (fun x => decide (b ∈ cellBitsIn x))).map (fun x => x.id)).toFinset

/-- The flip-flop cells seeding the expansion (orlo.cc:2092-2098). -/
def seedIds (cells : List CellM) : List Nat :=
  (cells.filter (fun x => (keyOf x).isSome)).map (fun x => x.id)

/-- Reverse-map lookup `assigned_cells_reverse` over the assignment
list (first binding wins; each cell is bound once). -/
def akey : List (Nat × ClkDom) → Nat → Option ClkDom
  | [], _ => none
  | p :: ps, c => if p.1 = c then some p.2 else akey ps c

/-- State of the partitioner: the unassigned cells, the three worklist
pairs, the mutable `bit_to_cell` of the undirected phase, and the
assignment list in `push_back` order. -/
structure PartState where
  unassigned : List Nat
  qUp : List Nat
  qDown : List Nat
  nqUp : List Nat
  nqDown : List Nat
  q : List Nat
  nq : List Nat
  btc : Nat → Finset Nat
  assigned : List (Nat × ClkDom)

/-- `*s.begin()` of a `std::set` ordered by the priority `pri`. -/
def pick (pri : Nat → Nat) : List Nat → Nat
  | [] => 0
  | x :: xs => xs.foldl (fun a b => if pri b < pri a then b else a) x

/-- The state after the seeding loop of orlo.cc:2056-2098. -/
def initPart (cells : List CellM) : PartState :=
  { unassigned := (cells.filter (fun x => keyOf x = none)).map (fun x => x.id)
    qUp := seedIds cells
    qDown := seedIds cells
    nqUp := []
    nqDown := []
    q := seedIds cells
    nq := []
    btc := fun b => bcF cells b
    assigned := cells.filterMap (fun x => (keyOf x).map (fun k => (x.id, k))) }

/-- The up-expansion body (orlo.cc:2103-2117). -/
def processUp (cells : List CellM) (st : PartState) (c : Nat) : PartState :=
  let key := (akey st.assigned c).getD defaultKey
  let p := fun c2 => decide (∃ b ∈ cbUF cells c, c2 ∈ bcUF cells b)
  let newly := st.unassigned.filter p
  { st with
    qUp := st.qUp.erase c
    unassigned := st.unassigned.filter (fun c2 => !(p c2))
    nqUp := st.nqUp ++ newly
    q := st.q ++ newly
    assigned := st.assigned ++ newly.map (fun c2 => (c2, key)) }

/-- The down-expansion body (orlo.cc:2119-2133); note the new cells go
to `next_expand_queue_up`, exactly as written at orlo.cc:2129. -/
def processDown (cells : List CellM) (st : PartState) (c : Nat) : PartState :=
  let key := (akey st.assigned c).getD defaultKey
  let p := fun c2 => decide (∃ b ∈ cbDF cells c, c2 ∈ bcDF cells b)
  let newly := st.unassigned.filter p
  { st with
    qDown := st.qDown.erase c
    unassigned := st.unassigned.filter (fun c2 => !(p c2))
    nqUp := st.nqUp ++ newly
    q := st.q ++ newly
    assigned := st.assigned ++ newly.map (fun c2 => (c2, key)) }

/-- One iteration of the directed while loop (orlo.cc:2100-2141):
up-step if pending, down-step if pending, then the generation swap
when both queues drain. -/
def step1 (cells : List CellM) (pri : Nat → Nat) (st : PartState) : PartState :=
  let st1 := if st.qUp = [] then st else processUp cells st (pick pri st.qUp)
  let st2 := if st1.qDown = [] then st1 else processDown cells st1 (pick pri st1.qDown)
  if st2.qUp = [] ∧ st2.qDown = [] then
    { st2 with qUp := st2.nqUp, qDown := st2.nqDown, nqUp := [], nqDown := [] }
  else st2

/-- The directed expansion loop, with fuel. -/
def loop1 (cells : List CellM) (pri : Nat → Nat) : Nat → PartState → PartState
  | 0, st => st
  | f + 1, st =>
    if st.qUp = [] ∧ st.qDown = [] then st
    else loop1 cells pri f (step1 cells pri st)

/-- One iteration of the undirected closure loop (orlo.cc:2143-2161):
expand through every bit of the cell, clear those bits' `bit_to_cell`
entries, swap generations when the queue drains. -/
def processQ (cells : List CellM) (st : PartState) (c : Nat) : PartState :=
  let key := (akey st.assigned c).getD defaultKey
  let p := fun c2 => decide (∃ b ∈ cbF cells c, c2 ∈ st.btc b)
  let newly := st.unassigned.filter p
  let q2 := st.q.erase c
  let st2 : PartState :=
    { st with
      q := q2
      unassigned := st.unassigned.filter (fun c2 => !(p c2))
      nq := st.nq ++ newly
      btc := fun b => if b ∈ cbF cells c then ∅ else st.btc b
      assigned := st.assigned ++ newly.map (fun c2 => (c2, key)) }
  if q2 = [] then { st2 with q := st2.nq, nq := [] } else st2

/-- The undirected closure loop, with fuel. -/
def loop2 (cells : List CellM) (pri : Nat → Nat) : Nat → PartState → PartState
  | 0, st => st
  | f + 1, st =>
    if st.q = [] then st
    else loop2 cells pri f (processQ cells st (pick pri st.q))

/-- Fuel bound for the directed loop. -/
def mu1 (st : PartState) : Nat :=
  2 * st.unassigned.length + st.qUp.length + st.qDown.length
    + st.nqUp.length + st.nqDown.length

/-- Fuel bound for the undirected loop. -/
def mu2 (st : PartState) : Nat :=
  2 * st.unassigned.length + st.q.length + st.nq.length

/-- The whole partitioner of `OrloPass::execute` (orlo.cc:2042-2165):
seed, directed expansion, undirected closure, then the default-domain
sweep of the remaining unassigned cells. -/
def orlo_partition (pri : Nat → Nat) (cells : List CellM) : List (Nat × ClkDom) :=
  let st0 := initPart cells
  let st1 := loop1 cells pri (mu1 st0 + 1) st0
  let st2 := loop2 cells pri (mu2 st1 + 1) st1
  st2.assigned ++ st2.unassigned.map (fun c => (c, defaultKey))

theorem map_fst_pair_const {α : Type} (l : List Nat) (f : Nat → α) :
    (l.map (fun c2 => (c2, f c2))).map Prod.fst = l := by
  rw [List.map_map]
  have hcomp : (Prod.fst ∘ fun c2 : Nat => (c2, f c2)) = fun c2 : Nat => c2 := rfl
  rw [hcomp, List.map_id']

/-- Bookkeeping invariant of the partitioner: assigned cells and the
unassigned list are duplicate-free, and together they split the
selected cells exactly. -/
structure PBook (ids : List Nat) (st : PartState) : Prop where
  nodA : (st.assigned.map Prod.fst).Nodup
  nodU : st.unassigned.Nodup
  split : ∀ c : Nat, c ∈ ids ↔ (c ∈ st.assigned.map Prod.fst ∨ c ∈ st.unassigned)
  disj : ∀ c : Nat, ¬ (c ∈ st.assigned.map Prod.fst ∧ c ∈ st.unassigned)

theorem assign_shape_book {ids : List Nat} {st st' : PartState}
    (key : ClkDom) (p : Nat → Bool)
    (hA : st'.assigned = st.assigned ++ (st.unassigned.filter p).map (fun c2 => (c2, key)))
    (hU : st'.unassigned = st.unassigned.filter (fun c2 => !(p c2)))
    (hb : PBook ids st) : PBook ids st' := by
  have hmapA : st'.assigned.map Prod.fst
      = st.assigned.map Prod.fst ++ st.unassigned.filter p := by
    rw [hA, List.map_append, map_fst_pair_const]
  refine
    { nodA := ?_
      nodU := ?_
      split := ?_
      disj := ?_ }
  · rw [hmapA]
    refine List.Nodup.append hb.nodA (List.Nodup.filter _ hb.nodU) ?_
    intro c hc1 hc2
    exact hb.disj c ⟨hc1, List.mem_of_mem_filter hc2⟩
  · rw [hU]
    exact List.Nodup.filter _ hb.nodU
  · intro c
    rw [hmapA, hU, List.mem_append]
    constructor
    · intro hc
      rcases (hb.split c).mp hc with hc2 | hc2
      · exact Or.inl (Or.inl hc2)
      · by_cases hp : p c = true
        · exact Or.inl (Or.inr (List.mem_filter.mpr ⟨hc2, hp⟩))
        · exact Or.inr (List.mem_filter.mpr ⟨hc2, by simp [hp]⟩)
    · intro hc
      rcases hc with hc | hc
      · rcases hc with hc2 | hc2
        · exact (hb.split c).mpr (Or.inl hc2)
        · exact (hb.split c).mpr (Or.inr (List.mem_of_mem_filter hc2))
      · exact (hb.split c).mpr (Or.inr (List.mem_of_mem_filter hc))
  · intro c hc
    obtain ⟨hc1, hc2⟩ := hc
    rw [hU] at hc2
    rw [hmapA, List.mem_append] at hc1
    rcases hc1 with hc3 | hc3
    · exact hb.disj c ⟨hc3, List.mem_of_mem_filter hc2⟩
    · have hp1 := (List.mem_filter.mp hc3).2
      have hp2 := (List.mem_filter.mp hc2).2
      rw [hp1] at hp2
      exact absurd hp2 (by decide)

theorem processUp_book {ids : List Nat} {cells : List CellM} {st : PartState}
    {c : Nat} (hb : PBook ids st) : PBook ids (processUp cells st c) :=
  assign_shape_book _ _ rfl rfl hb

theorem processDown_book {ids : List Nat} {cells : List CellM} {st : PartState}
    {c : Nat} (hb : PBook ids st) : PBook ids (processDown cells st c) :=
  assign_shape_book _ _ rfl rfl hb

theorem processQ_book {ids : List Nat} {cells : List CellM} {st : PartState}
    {c : Nat} (hb : PBook ids st) : PBook ids (processQ cells st c) := by
  unfold processQ
  dsimp only
  by_cases hq : st.q.erase c = []
  · rw [if_pos hq]
    exact assign_shape_book _ _ rfl rfl hb
  · rw [if_neg hq]
    exact assign_shape_book _ _ rfl rfl hb

theorem step1_book {ids : List Nat} {cells : List CellM} {pri : Nat → Nat}
    {st : PartState} (hb : PBook ids st) : PBook ids (step1 cells pri st) := by
  unfold step1
  dsimp only
  set stA := if st.qUp = [] then st else processUp cells st (pick pri st.qUp) with hA
  have hbu : PBook ids stA := by
    rw [hA]
    by_cases h : st.qUp = []
    · rw [if_pos h]; exact hb
    · rw [if_neg h]; exact processUp_book hb
  set stB := if stA.qDown = [] then stA else processDown cells stA (pick pri stA.qDown) with hB
  have hbd : PBook ids stB := by
    rw [hB]
    by_cases h : stA.qDown = []
    · rw [if_pos h]; exact hbu
    · rw [if_neg h]; exact processDown_book hbu
  by_cases h : stB.qUp = [] ∧ stB.qDown = []
  · rw [if_pos h]
    exact { nodA := hbd.nodA, nodU := hbd.nodU, split := hbd.split, disj := hbd.disj }
  · rw [if_neg h]
    exact hbd

theorem loop1_book {ids : List Nat} {cells : List CellM} {pri : Nat → Nat} :
    ∀ (f : Nat) (st : PartState), PBook ids st → PBook ids (loop1 cells pri f st) := by
  intro f
  induction f with
  | zero => intro st hb; exact hb
  | succ f ih =>
    intro st hb
    rw [loop1]
    by_cases h : st.qUp = [] ∧ st.qDown = []
    · rw [if_pos h]; exact hb
    · rw [if_neg h]; exact ih _ (step1_book hb)

theorem loop2_book {ids : List Nat} {cells : List CellM} {pri : Nat → Nat} :
    ∀ (f : Nat) (st : PartState), PBook ids st → PBook ids (loop2 cells pri f st) := by
  intro f
  induction f with
  | zero => intro st hb; exact hb
  | succ f ih =>
    intro st hb
    rw [loop2]
    by_cases h : st.q = []
    · rw [if_pos h]; exact hb
    · rw [if_neg h]; exact ih _ (processQ_book hb)

theorem filterMap_key_fst (cells : List CellM) :
    (cells.filterMap (fun x => (keyOf x).map (fun k => (x.id, k)))).map Prod.fst
      = (cells.filter (fun x => (keyOf x).isSome)).map CellM.id := by
  induction cells with
  | nil => rfl
  | cons x xs ih =>
    rcases hk : keyOf x with _ | k <;>
      simp [List.filterMap_cons, hk, List.filter_cons, ih]

theorem init_book {cells : List CellM} (hnod : (cells.map CellM.id).Nodup) :
    PBook (cells.map CellM.id) (initPart cells) := by
  have hinj : ∀ x ∈ cells, ∀ y ∈ cells, x.id = y.id → x = y :=
    List.inj_on_of_nodup_map hnod
  have hmapA : (initPart cells).assigned.map Prod.fst
      = (cells.filter (fun x => (keyOf x).isSome)).map CellM.id :=
    filterMap_key_fst cells
  refine { nodA := ?_, nodU := ?_, split := ?_, disj := ?_ }
  · rw [hmapA]
    apply List.Nodup.map_on
    · intro x hx y hy h
      exact hinj x (List.mem_filter.mp hx).1 y (List.mem_filter.mp hy).1 h
    · exact List.Nodup.filter _ (List.Nodup.of_map CellM.id hnod)
  · apply List.Nodup.map_on
    · intro x hx y hy h
      exact hinj x (List.mem_filter.mp hx).1 y (List.mem_filter.mp hy).1 h
    · exact List.Nodup.filter _ (List.Nodup.of_map CellM.id hnod)
  · intro c
    rw [hmapA]
    show c ∈ cells.map CellM.id ↔ _ ∨ c ∈ (cells.filter (fun x => keyOf x = none)).map (fun x => x.id)
    constructor
    · intro hc
      obtain ⟨x, hx, rfl⟩ := List.mem_map.mp hc
      rcases hk : keyOf x with _ | k
      · exact Or.inr (List.mem_map.mpr ⟨x, List.mem_filter.mpr ⟨hx, by simp [hk]⟩, rfl⟩)
      · exact Or.inl (List.mem_map.mpr ⟨x, List.mem_filter.mpr ⟨hx, by simp [hk]⟩, rfl⟩)
    · intro hc
      rcases hc with hc | hc
      · obtain ⟨x, hx, rfl⟩ := List.mem_map.mp hc
        exact List.mem_map.mpr ⟨x, (List.mem_filter.mp hx).1, rfl⟩
      · obtain ⟨x, hx, rfl⟩ := List.mem_map.mp hc
        exact List.mem_map.mpr ⟨x, (List.mem_filter.mp hx).1, rfl⟩
  · intro c hc
    obtain ⟨hc1, hc2⟩ := hc
    rw [hmapA] at hc1
    obtain ⟨x, hx, hxid⟩ := List.mem_map.mp hc1
    obtain ⟨y, hy, hyid⟩ := List.mem_map.mp hc2
    have hxy : x = y := hinj x (List.mem_filter.mp hx).1 y (List.mem_filter.mp hy).1
      (by rw [hxid, hyid])
    have hkx := (List.mem_filter.mp hx).2
    have hky := (List.mem_filter.mp hy).2
    rw [hxy] at hkx
    simp only [decide_eq_true_eq] at hkx hky
    rw [hky] at hkx
    exact absurd hkx (by decide)

/-- C6: the partitioner's result is a strict partition of the selected
cells: the concatenation of all domain lists holds exactly the
selected cell ids, each once; at least one domain is produced when any
cell exists, and every produced domain holds at least one cell. -/
theorem orlo_partition_is_partition (pri : Nat → Nat) (cells : List CellM)
    (hnod : (cells.map CellM.id).Nodup) :
    ((orlo_partition pri cells).map Prod.fst).Perm (cells.map CellM.id) ∧
    (cells ≠ [] → orlo_partition pri cells ≠ []) ∧
    (∀ k ∈ (orlo_partition pri cells).map Prod.snd,
      ∃ c, (c, k) ∈ orlo_partition pri cells) := by
  have hb : PBook (cells.map CellM.id)
      (loop2 cells pri (mu2 (loop1 cells pri (mu1 (initPart cells) + 1) (initPart cells)) + 1)
        (loop1 cells pri (mu1 (initPart cells) + 1) (initPart cells))) :=
    loop2_book _ _ (loop1_book _ _ (init_book hnod))
  have hmap : (orlo_partition pri cells).map Prod.fst
      = (loop2 cells pri (mu2 (loop1 cells pri (mu1 (initPart cells) + 1) (initPart cells)) + 1)
          (loop1 cells pri (mu1 (initPart cells) + 1) (initPart cells))).assigned.map Prod.fst
        ++ (loop2 cells pri (mu2 (loop1 cells pri (mu1 (initPart cells) + 1) (initPart cells)) + 1)
          (loop1 cells pri (mu1 (initPart cells) + 1) (initPart cells))).unassigned := by
    have h0 : orlo_partition pri cells
        = (loop2 cells pri (mu2 (loop1 cells pri (mu1 (initPart cells) + 1) (initPart cells)) + 1)
            (loop1 cells pri (mu1 (initPart cells) + 1) (initPart cells))).assigned
          ++ (loop2 cells pri (mu2 (loop1 cells pri (mu1 (initPart cells) + 1) (initPart cells)) + 1)
            (loop1 cells pri (mu1 (initPart cells) + 1)
              (initPart cells))).unassigned.map (fun c => (c, defaultKey)) := rfl
    rw [h0, List.map_append, map_fst_pair_const]
  have hnodR : ((orlo_partition pri cells).map Prod.fst).Nodup := by
    rw [hmap]
    refine List.Nodup.append hb.nodA hb.nodU ?_
    intro c hc1 hc2
    exact hb.disj c ⟨hc1, hc2⟩
  have hiff : ∀ c, c ∈ (orlo_partition pri cells).map Prod.fst ↔ c ∈ cells.map CellM.id := by
    intro c
    rw [hmap, List.mem_append]
    constructor
    · intro hc
      rcases hc with hc | hc
      · exact (hb.split c).mpr (Or.inl hc)
      · exact (hb.split c).mpr (Or.inr hc)
    · intro hc
      exact (hb.split c).mp hc
  have hperm : ((orlo_partition pri cells).map Prod.fst).Perm (cells.map CellM.id) :=
    (List.perm_ext_iff_of_nodup hnodR hnod).mpr hiff
  refine ⟨hperm, ?_, ?_⟩
  · intro hcne hres
    have hnil : cells.map CellM.id = [] := by
      have h2 := hperm
      rw [hres] at h2
      exact h2.symm.eq_nil
    exact hcne (List.map_eq_nil_iff.mp hnil)
  · intro k hk
    obtain ⟨p, hp, hpk⟩ := List.mem_map.mp hk
    refine ⟨p.1, ?_⟩
    rw [← hpk, show (p.1, p.2) = p from rfl]
    exact hp

/-- C6 witness design: one flip-flop and one combinational cell. -/
def cellsW6 : List CellM :=
  [{ id := 0, kind := CKind.dffP, clk := 5, en := 0,
     conns := [{ isIn := true, isOut := false, bit := 3 },
               { isIn := false, isOut := true, bit := 4 }] },
   { id := 1, kind := CKind.comb, clk := 0, en := 0,
     conns := [{ isIn := true, isOut := false, bit := 4 },
               { isIn := false, isOut := true, bit := 9 }] }]

/-- C6 witness: the partition property holds on `cellsW6`. -/
theorem orlo_partition_is_partition_witness :
    ((orlo_partition (fun c => c) cellsW6).map Prod.fst).Perm (cellsW6.map CellM.id) ∧
    (cellsW6 ≠ [] → orlo_partition (fun c => c) cellsW6 ≠ []) ∧
    (∀ k ∈ (orlo_partition (fun c => c) cellsW6).map Prod.snd,
      ∃ c, (c, k) ∈ orlo_partition (fun c => c) cellsW6) :=
  orlo_partition_is_partition (fun c => c) cellsW6 (by decide)

/-! ## C5: traversal-order dependence of the partitioner -/

/-- Counterexample design for C5: two flip-flops in different clock
domains (ids 0 and 1) both read bit 7, which combinational cell 2
drives.  Whichever flip-flop the up-expansion processes first claims
cell 2 for its domain. -/
def cellsC5 : List CellM :=
  [{ id := 0, kind := CKind.dffP, clk := 100, en := 0,
     conns := [{ isIn := true, isOut := false, bit := 7 }] },
   { id := 1, kind := CKind.dffP, clk := 200, en := 0,
     conns := [{ isIn := true, isOut := false, bit := 7 }] },
   { id := 2, kind := CKind.comb, clk := 0, en := 0,
     conns := [{ isIn := false, isOut := true, bit := 7 }] }]

/-- Counterexample for C5: the same design, two runs differing only in
the set-iteration priority, and the shared combinational cell 2 lands
in different clock domains. -/
theorem partition_order_dependent_cx :
    akey (orlo_partition (fun c => c) cellsC5) 2
        = some { pol := true, clk := some 100, enPol := true, en := none } ∧
    akey (orlo_partition (fun c => 2 - c) cellsC5) 2
        = some { pol := true, clk := some 200, enPol := true, en := none } ∧
    akey (orlo_partition (fun c => c) cellsC5) 2
        ≠ akey (orlo_partition (fun c => 2 - c) cellsC5) 2 := by
  refine ⟨by decide, by decide, by decide⟩

theorem akey_append_left {l1 l2 : List (Nat × ClkDom)} {c : Nat}
    (h : c ∈ l1.map Prod.fst) : akey (l1 ++ l2) c = akey l1 c := by
  induction l1 with
  | nil => exact absurd h (List.not_mem_nil c)
  | cons p ps ih =>
    simp only [List.cons_append, akey]
    by_cases hp : p.1 = c
    · rw [if_pos hp, if_pos hp]
    · rw [if_neg hp, if_neg hp]
      apply ih
      rcases List.mem_cons.mp h with h2 | h2
      · exact absurd h2.symm hp
      · exact h2

theorem akey_append_right {l1 l2 : List (Nat × ClkDom)} {c : Nat}
    (h : c ∉ l1.map Prod.fst) : akey (l1 ++ l2) c = akey l2 c := by
  induction l1 with
  | nil => rfl
  | cons p ps ih =>
    simp only [List.cons_append, akey]
    have hp : p.1 ≠ c := fun hc => h (List.mem_map.mpr ⟨p, List.mem_cons_self _ _, hc⟩)
    rw [if_neg hp]
    exact ih (fun hc => h (List.mem_cons_of_mem _ hc))

theorem akey_mem_some {l : List (Nat × ClkDom)} {c : Nat}
    (h : c ∈ l.map Prod.fst) : ∃ k, akey l c = some k ∧ (c, k) ∈ l := by
  induction l with
  | nil => exact absurd h (List.not_mem_nil c)
  | cons p ps ih =>
    by_cases hp : p.1 = c
    · refine ⟨p.2, ?_, ?_⟩
      · simp only [akey]
        rw [if_pos hp]
      · have hpc : (c, p.2) = p := by
          rw [← hp]
        rw [hpc]
        exact List.mem_cons_self _ _
    · have h2 : c ∈ ps.map Prod.fst := by
        rcases List.mem_cons.mp h with h2 | h2
        · exact absurd h2.symm hp
        · exact h2
      obtain ⟨k, hk1, hk2⟩ := ih h2
      refine ⟨k, ?_, List.mem_cons_of_mem _ hk2⟩
      simp only [akey]
      rw [if_neg hp]
      exact hk1

theorem akey_none {l : List (Nat × ClkDom)} {c : Nat}
    (h : c ∉ l.map Prod.fst) : akey l c = none := by
  induction l with
  | nil => rfl
  | cons p ps ih =>
    simp only [akey]
    have hp : p.1 ≠ c := fun hc => h (List.mem_map.mpr ⟨p, List.mem_cons_self _ _, hc⟩)
    rw [if_neg hp]
    exact ih (fun hc => h (List.mem_cons_of_mem _ hc))

theorem akey_map_const {l : List Nat} {c : Nat} (K : ClkDom) (h : c ∈ l) :
    akey (l.map (fun c2 => (c2, K))) c = some K := by
  induction l with
  | nil => exact absurd h (List.not_mem_nil c)
  | cons x xs ih =>
    simp only [List.map_cons, akey]
    by_cases hx : x = c
    · rw [if_pos hx]
    · rw [if_neg hx]
      refine ih ?_
      rcases List.mem_cons.mp h with h2 | h2
      · exact absurd h2.symm hx
      · exact h2

theorem pick_mem (pri : Nat → Nat) :
    ∀ (l : List Nat), l ≠ [] → pick pri l ∈ l := by
  have hfold : ∀ (xs : List Nat) (x : Nat),
      xs.foldl (fun a b => if pri b < pri a then b else a) x = x ∨
      xs.foldl (fun a b => if pri b < pri a then b else a) x ∈ xs := by
    intro xs
    induction xs with
    | nil => intro x; exact Or.inl rfl
    | cons y ys ih =>
      intro x
      simp only [List.foldl_cons]
      by_cases hc : pri y < pri x
      · rw [if_pos hc]
        rcases ih y with h | h
        · exact Or.inr (by rw [h]; exact List.mem_cons_self _ _)
        · exact Or.inr (List.mem_cons_of_mem _ h)
      · rw [if_neg hc]
        rcases ih x with h | h
        · exact Or.inl h
        · exact Or.inr (List.mem_cons_of_mem _ h)
  intro l hl
  rcases l with _ | ⟨x, xs⟩
  · exact absurd rfl hl
  · show xs.foldl (fun a b => if pri b < pri a then b else a) x ∈ x :: xs
    rcases hfold xs x with h | h
    · rw [h]; exact List.mem_cons_self _ _
    · exact List.mem_cons_of_mem _ h

/-- The bit-sharing step relation: `c2` shares a bit with `c`. -/
def adjC (cells : List CellM) (c c2 : Nat) : Prop :=
  ∃ b, b ∈ cbF cells c ∧ c2 ∈ bcF cells b

/-- Connectivity to a flip-flop seed through shared bits: the quantity
that determines a cell's domain when all seeds agree. -/
def ReachC (cells : List CellM) (c : Nat) : Prop :=
  ∃ s ∈ seedIds cells, Relation.ReflTransGen (adjC cells) s c

theorem cbUF_sub (cells : List CellM) (c : Nat) : cbUF cells c ⊆ cbF cells c := by
  unfold cbUF cbF
  rcases hfind : cells.find? (fun x => x.id == c) with _ | x <;> simp only [hfind]
  · exact Finset.Subset.refl _
  · intro b hb
    obtain ⟨cn, hcn, hbit⟩ := List.mem_map.mp (List.mem_toFinset.mp hb)
    exact List.mem_toFinset.mpr (List.mem_map.mpr
      ⟨cn, List.mem_of_mem_filter hcn, hbit⟩)

theorem cbDF_sub (cells : List CellM) (c : Nat) : cbDF cells c ⊆ cbF cells c := by
  unfold cbDF cbF
  rcases hfind : cells.find? (fun x => x.id == c) with _ | x <;> simp only [hfind]
  · exact Finset.Subset.refl _
  · intro b hb
    obtain ⟨cn, hcn, hbit⟩ := List.mem_map.mp (List.mem_toFinset.mp hb)
    exact List.mem_toFinset.mpr (List.mem_map.mpr
      ⟨cn, List.mem_of_mem_filter hcn, hbit⟩)

theorem bcUF_sub (cells : List CellM) (b : Nat) : bcUF cells b ⊆ bcF cells b := by
  intro c hc
  obtain ⟨x, hx, hid⟩ := List.mem_map.mp (List.mem_toFinset.mp hc)
  obtain ⟨hxm, hxb⟩ := List.mem_filter.mp hx
  simp only [decide_eq_true_eq] at hxb
  have hall : b ∈ cellBitsAll x := by
    obtain ⟨cn, hcn, hbit⟩ := List.mem_map.mp (List.mem_toFinset.mp hxb)
    exact List.mem_toFinset.mpr (List.mem_map.mpr
      ⟨cn, List.mem_of_mem_filter hcn, hbit⟩)
  exact List.mem_toFinset.mpr (List.mem_map.mpr
    ⟨x, List.mem_filter.mpr ⟨hxm, by simp [hall]⟩, hid⟩)

theorem bcDF_sub (cells : List CellM) (b : Nat) : bcDF cells b ⊆ bcF cells b := by
  intro c hc
  obtain ⟨x, hx, hid⟩ := List.mem_map.mp (List.mem_toFinset.mp hc)
  obtain ⟨hxm, hxb⟩ := List.mem_filter.mp hx
  simp only [decide_eq_true_eq] at hxb
  have hall : b ∈ cellBitsAll x := by
    obtain ⟨cn, hcn, hbit⟩ := List.mem_map.mp (List.mem_toFinset.mp hxb)
    exact List.mem_toFinset.mpr (List.mem_map.mpr
      ⟨cn, List.mem_of_mem_filter hcn, hbit⟩)
  exact List.mem_toFinset.mpr (List.mem_map.mpr
    ⟨x, List.mem_filter.mpr ⟨hxm, by simp [hall]⟩, hid⟩)

theorem bcF_sub_ids (cells : List CellM) (b : Nat) :
    ∀ c ∈ bcF cells b, c ∈ cells.map CellM.id := by
  intro c hc
  obtain ⟨x, hx, hid⟩ := List.mem_map.mp (List.mem_toFinset.mp hc)
  exact List.mem_map.mpr ⟨x, List.mem_of_mem_filter hx, hid⟩

/-- Single-key run invariant: bookkeeping plus (all assigned keys are
`k0`; worklists hold assigned cells; assigned cells are seed-connected;
`bit_to_cell` entries are original or cleared-and-exhausted; every
assigned cell has all bits cleared or is still pending; seeds are
assigned; an empty queue means an empty next queue). -/
structure SInv (cells : List CellM) (k0 : ClkDom) (st : PartState) : Prop where
  book : PBook (cells.map CellM.id) st
  keys : ∀ p ∈ st.assigned, p.2 = k0
  qUpA : ∀ c ∈ st.qUp, c ∈ st.assigned.map Prod.fst
  qDownA : ∀ c ∈ st.qDown, c ∈ st.assigned.map Prod.fst
  nqUpA : ∀ c ∈ st.nqUp, c ∈ st.assigned.map Prod.fst
  nqDownA : ∀ c ∈ st.nqDown, c ∈ st.assigned.map Prod.fst
  qA : ∀ c ∈ st.q, c ∈ st.assigned.map Prod.fst
  nqA : ∀ c ∈ st.nq, c ∈ st.assigned.map Prod.fst
  reach : ∀ c ∈ st.assigned.map Prod.fst, ReachC cells c
  btcI : ∀ b, st.btc b = bcF cells b ∨
    (st.btc b = ∅ ∧ ∀ c2 ∈ bcF cells b, c2 ∈ st.assigned.map Prod.fst)
  pend : ∀ c ∈ st.assigned.map Prod.fst, ∀ b ∈ cbF cells c,
    st.btc b = ∅ ∨ c ∈ st.q ∨ c ∈ st.nq
  seedsA : ∀ c ∈ seedIds cells, c ∈ st.assigned.map Prod.fst
  qnq : st.q = [] → st.nq = []

theorem key_of_assigned {cells : List CellM} {k0 : ClkDom} {st : PartState}
    (inv : SInv cells k0 st) {c : Nat} (hc : c ∈ st.assigned.map Prod.fst) :
    (akey st.assigned c).getD defaultKey = k0 := by
  obtain ⟨k, hk1, hk2⟩ := akey_mem_some hc
  rw [hk1]
  exact inv.keys _ hk2

theorem filter_split_length (p : Nat → Bool) (l : List Nat) :
    (l.filter p).length + (l.filter (fun x => !(p x))).length = l.length := by
  induction l with
  | nil => rfl
  | cons x xs ih =>
    cases hp : p x <;>
      simp [List.filter_cons, hp] <;> omega

theorem processUp_sinv {cells : List CellM} {k0 : ClkDom} {st : PartState} {c : Nat}
    (inv : SInv cells k0 st) (hc : c ∈ st.qUp) :
    SInv cells k0 (processUp cells st c) := by
  have hcA : c ∈ st.assigned.map Prod.fst := inv.qUpA c hc
  have hkey : (akey st.assigned c).getD defaultKey = k0 := key_of_assigned inv hcA
  have hA : (processUp cells st c).assigned
      = st.assigned ++ (st.unassigned.filter
          (fun c2 => decide (∃ b ∈ cbUF cells c, c2 ∈ bcUF cells b))).map
        (fun c2 => (c2, (akey st.assigned c).getD defaultKey)) := rfl
  have hfst : (processUp cells st c).assigned.map Prod.fst
      = st.assigned.map Prod.fst ++ st.unassigned.filter
          (fun c2 => decide (∃ b ∈ cbUF cells c, c2 ∈ bcUF cells b)) := by
    rw [hA, List.map_append, map_fst_pair_const]
  have hmono : ∀ y ∈ st.assigned.map Prod.fst,
      y ∈ (processUp cells st c).assigned.map Prod.fst := by
    intro y hy
    rw [hfst]
    exact List.mem_append_left _ hy
  have hnew : ∀ y ∈ st.unassigned.filter
      (fun c2 => decide (∃ b ∈ cbUF cells c, c2 ∈ bcUF cells b)),
      y ∈ (processUp cells st c).assigned.map Prod.fst := by
    intro y hy
    rw [hfst]
    exact List.mem_append_right _ hy
  refine
    { book := processUp_book inv.book
      keys := ?_
      qUpA := ?_
      qDownA := fun y hy => hmono _ (inv.qDownA y hy)
      nqUpA := ?_
      nqDownA := fun y hy => hmono _ (inv.nqDownA y hy)
      qA := ?_
      nqA := fun y hy => hmono _ (inv.nqA y hy)
      reach := ?_
      btcI := ?_
      pend := ?_
      seedsA := fun y hy => hmono _ (inv.seedsA y hy)
      qnq := ?_ }
  · intro pr hpr
    rw [hA] at hpr
    rcases List.mem_append.mp hpr with h | h
    · exact inv.keys pr h
    · obtain ⟨c2, -, hc2⟩ := List.mem_map.mp h
      rw [← hc2]
      exact hkey
  · intro y hy
    exact hmono _ (inv.qUpA y (List.mem_of_mem_erase hy))
  · intro y hy
    rcases List.mem_append.mp hy with h | h
    · exact hmono _ (inv.nqUpA y h)
    · exact hnew _ h
  · intro y hy
    rcases List.mem_append.mp hy with h | h
    · exact hmono _ (inv.qA y h)
    · exact hnew _ h
  · intro y hy
    rw [hfst] at hy
    rcases List.mem_append.mp hy with h | h
    · exact inv.reach y h
    · obtain ⟨hyun, hyp⟩ := List.mem_filter.mp h
      simp only [decide_eq_true_eq] at hyp
      obtain ⟨b, hb, hyb⟩ := hyp
      obtain ⟨s, hs, hpath⟩ := inv.reach c hcA
      exact ⟨s, hs, hpath.tail ⟨b, cbUF_sub cells c hb, bcUF_sub cells b hyb⟩⟩
  · intro b
    rcases inv.btcI b with h | ⟨h1, h2⟩
    · exact Or.inl h
    · exact Or.inr ⟨h1, fun c2 h3 => hmono _ (h2 c2 h3)⟩
  · intro y hy b hb
    rw [hfst] at hy
    rcases List.mem_append.mp hy with h | h
    · rcases inv.pend y h b hb with h2 | h2 | h2
      · exact Or.inl h2
      · exact Or.inr (Or.inl (List.mem_append_left _ h2))
      · exact Or.inr (Or.inr h2)
    · exact Or.inr (Or.inl (List.mem_append_right _ h))
  · intro h
    obtain ⟨h1, -⟩ := List.append_eq_nil.mp h
    exact inv.qnq h1

theorem processDown_sinv {cells : List CellM} {k0 : ClkDom} {st : PartState} {c : Nat}
    (inv : SInv cells k0 st) (hc : c ∈ st.qDown) :
    SInv cells k0 (processDown cells st c) := by
  have hcA : c ∈ st.assigned.map Prod.fst := inv.qDownA c hc
  have hkey : (akey st.assigned c).getD defaultKey = k0 := key_of_assigned inv hcA
  have hA : (processDown cells st c).assigned
      = st.assigned ++ (st.unassigned.filter
          (fun c2 => decide (∃ b ∈ cbDF cells c, c2 ∈ bcDF cells b))).map
        (fun c2 => (c2, (akey st.assigned c).getD defaultKey)) := rfl
  have hfst : (processDown cells st c).assigned.map Prod.fst
      = st.assigned.map Prod.fst ++ st.unassigned.filter
          (fun c2 => decide (∃ b ∈ cbDF cells c, c2 ∈ bcDF cells b)) := by
    rw [hA, List.map_append, map_fst_pair_const]
  have hmono : ∀ y ∈ st.assigned.map Prod.fst,
      y ∈ (processDown cells st c).assigned.map Prod.fst := by
    intro y hy
    rw [hfst]
    exact List.mem_append_left _ hy
  have hnew : ∀ y ∈ st.unassigned.filter
      (fun c2 => decide (∃ b ∈ cbDF cells c, c2 ∈ bcDF cells b)),
      y ∈ (processDown cells st c).assigned.map Prod.fst := by
    intro y hy
    rw [hfst]
    exact List.mem_append_right _ hy
  refine
    { book := processDown_book inv.book
      keys := ?_
      qUpA := fun y hy => hmono _ (inv.qUpA y hy)
      qDownA := ?_
      nqUpA := ?_
      nqDownA := fun y hy => hmono _ (inv.nqDownA y hy)
      qA := ?_
      nqA := fun y hy => hmono _ (inv.nqA y hy)
      reach := ?_
      btcI := ?_
      pend := ?_
      seedsA := fun y hy => hmono _ (inv.seedsA y hy)
      qnq := ?_ }
  · intro pr hpr
    rw [hA] at hpr
    rcases List.mem_append.mp hpr with h | h
    · exact inv.keys pr h
    · obtain ⟨c2, -, hc2⟩ := List.mem_map.mp h
      rw [← hc2]
      exact hkey
  · intro y hy
    exact hmono _ (inv.qDownA y (List.mem_of_mem_erase hy))
  · intro y hy
    rcases List.mem_append.mp hy with h | h
    · exact hmono _ (inv.nqUpA y h)
    · exact hnew _ h
  · intro y hy
    rcases List.mem_append.mp hy with h | h
    · exact hmono _ (inv.qA y h)
    · exact hnew _ h
  · intro y hy
    rw [hfst] at hy
    rcases List.mem_append.mp hy with h | h
    · exact inv.reach y h
    · obtain ⟨hyun, hyp⟩ := List.mem_filter.mp h
      simp only [decide_eq_true_eq] at hyp
      obtain ⟨b, hb, hyb⟩ := hyp
      obtain ⟨s, hs, hpath⟩ := inv.reach c hcA
      exact ⟨s, hs, hpath.tail ⟨b, cbDF_sub cells c hb, bcDF_sub cells b hyb⟩⟩
  · intro b
    rcases inv.btcI b with h | ⟨h1, h2⟩
    · exact Or.inl h
    · exact Or.inr ⟨h1, fun c2 h3 => hmono _ (h2 c2 h3)⟩
  · intro y hy b hb
    rw [hfst] at hy
    rcases List.mem_append.mp hy with h | h
    · rcases inv.pend y h b hb with h2 | h2 | h2
      · exact Or.inl h2
      · exact Or.inr (Or.inl (List.mem_append_left _ h2))
      · exact Or.inr (Or.inr h2)
    · exact Or.inr (Or.inl (List.mem_append_right _ h))
  · intro h
    obtain ⟨h1, -⟩ := List.append_eq_nil.mp h
    exact inv.qnq h1

theorem swap1_sinv {cells : List CellM} {k0 : ClkDom} {st : PartState}
    (inv : SInv cells k0 st) :
    SInv cells k0 { st with qUp := st.nqUp, qDown := st.nqDown, nqUp := [], nqDown := [] } :=
  { book := { nodA := inv.book.nodA, nodU := inv.book.nodU,
              split := inv.book.split, disj := inv.book.disj }
    keys := inv.keys
    qUpA := inv.nqUpA
    qDownA := inv.nqDownA
    nqUpA := fun c hc => absurd hc (List.not_mem_nil c)
    nqDownA := fun c hc => absurd hc (List.not_mem_nil c)
    qA := inv.qA
    nqA := inv.nqA
    reach := inv.reach
    btcI := inv.btcI
    pend := inv.pend
    seedsA := inv.seedsA
    qnq := inv.qnq }

theorem step1_sinv {cells : List CellM} {k0 : ClkDom} {pri : Nat → Nat}
    {st : PartState} (inv : SInv cells k0 st) : SInv cells k0 (step1 cells pri st) := by
  unfold step1
  dsimp only
  set stA := if st.qUp = [] then st else processUp cells st (pick pri st.qUp) with hA
  have hinvA : SInv cells k0 stA := by
    rw [hA]
    by_cases h : st.qUp = []
    · rw [if_pos h]; exact inv
    · rw [if_neg h]; exact processUp_sinv inv (pick_mem pri _ h)
  set stB := if stA.qDown = [] then stA else processDown cells stA (pick pri stA.qDown) with hB
  have hinvB : SInv cells k0 stB := by
    rw [hB]
    by_cases h : stA.qDown = []
    · rw [if_pos h]; exact hinvA
    · rw [if_neg h]; exact processDown_sinv hinvA (pick_mem pri _ h)
  by_cases h : stB.qUp = [] ∧ stB.qDown = []
  · rw [if_pos h]
    exact swap1_sinv hinvB
  · rw [if_neg h]
    exact hinvB

theorem loop1_sinv {cells : List CellM} {k0 : ClkDom} {pri : Nat → Nat} :
    ∀ (f : Nat) (st : PartState), SInv cells k0 st →
      SInv cells k0 (loop1 cells pri f st) := by
  intro f
  induction f with
  | zero => intro st inv; exact inv
  | succ f ih =>
    intro st inv
    rw [loop1]
    by_cases h : st.qUp = [] ∧ st.qDown = []
    · rw [if_pos h]; exact inv
    · rw [if_neg h]; exact ih _ (step1_sinv inv)

theorem processQ_sinv {cells : List CellM} {k0 : ClkDom} {st : PartState} {c : Nat}
    (inv : SInv cells k0 st) (hc : c ∈ st.q) :
    SInv cells k0 (processQ cells st c) := by
  have hcA : c ∈ st.assigned.map Prod.fst := inv.qA c hc
  have hkey : (akey st.assigned c).getD defaultKey = k0 := key_of_assigned inv hcA
  unfold processQ
  dsimp only
  set p := fun c2 => decide (∃ b ∈ cbF cells c, c2 ∈ st.btc b) with hp
  set newly := st.unassigned.filter p with hnewly
  set ASG := st.assigned ++ newly.map
    (fun c2 => (c2, (akey st.assigned c).getD defaultKey)) with hASG
  have hfst : ASG.map Prod.fst = st.assigned.map Prod.fst ++ newly := by
    rw [hASG, List.map_append, map_fst_pair_const]
  have hmono : ∀ y ∈ st.assigned.map Prod.fst, y ∈ ASG.map Prod.fst := by
    intro y hy
    rw [hfst]
    exact List.mem_append_left _ hy
  have hnew : ∀ y ∈ newly, y ∈ ASG.map Prod.fst := by
    intro y hy
    rw [hfst]
    exact List.mem_append_right _ hy
  have hkeys : ∀ pr ∈ ASG, pr.2 = k0 := by
    intro pr hpr
    rw [hASG] at hpr
    rcases List.mem_append.mp hpr with h | h
    · exact inv.keys pr h
    · obtain ⟨c2, -, hc2⟩ := List.mem_map.mp h
      rw [← hc2]
      exact hkey
  have hreach : ∀ y ∈ ASG.map Prod.fst, ReachC cells y := by
    intro y hy
    rw [hfst] at hy
    rcases List.mem_append.mp hy with h | h
    · exact inv.reach y h
    · obtain ⟨hyun, hyp⟩ := List.mem_filter.mp h
      rw [hp] at hyp
      simp only [decide_eq_true_eq] at hyp
      obtain ⟨b, hb, hyb⟩ := hyp
      have hybc : y ∈ bcF cells b := by
        rcases inv.btcI b with h2 | ⟨h2, -⟩
        · rwa [h2] at hyb
        · rw [h2] at hyb
          exact absurd hyb (Finset.not_mem_empty y)
      obtain ⟨s, hs, hpath⟩ := inv.reach c hcA
      exact ⟨s, hs, hpath.tail ⟨b, hb, hybc⟩⟩
  have hbtcI : ∀ b, (if b ∈ cbF cells c then (∅ : Finset Nat) else st.btc b) = bcF cells b ∨
      ((if b ∈ cbF cells c then (∅ : Finset Nat) else st.btc b) = ∅ ∧
        ∀ c2 ∈ bcF cells b, c2 ∈ ASG.map Prod.fst) := by
    intro b
    by_cases hbc : b ∈ cbF cells c
    · rw [if_pos hbc]
      right
      refine ⟨rfl, ?_⟩
      intro c2 hc2
      rcases inv.btcI b with h2 | ⟨-, h2⟩
      · by_cases hun : c2 ∈ st.unassigned
        · apply hnew
          rw [hnewly]
          refine List.mem_filter.mpr ⟨hun, ?_⟩
          rw [hp]
          simp only [decide_eq_true_eq]
          exact ⟨b, hbc, by rwa [h2]⟩
        · have hid : c2 ∈ cells.map CellM.id := bcF_sub_ids cells b c2 hc2
          rcases (inv.book.split c2).mp hid with h3 | h3
          · exact hmono _ h3
          · exact absurd h3 hun
      · exact hmono _ (h2 c2 hc2)
    · rw [if_neg hbc]
      rcases inv.btcI b with h2 | ⟨h2, h3⟩
      · exact Or.inl h2
      · exact Or.inr ⟨h2, fun c2 h4 => hmono _ (h3 c2 h4)⟩
  have hpend : ∀ y ∈ ASG.map Prod.fst, ∀ b ∈ cbF cells y,
      (if b ∈ cbF cells c then (∅ : Finset Nat) else st.btc b) = ∅ ∨
      (y ≠ c ∧ y ∈ st.q) ∨ y ∈ st.nq ∨ y ∈ newly := by
    intro y hy b hb
    by_cases hyc : y = c
    · subst hyc
      left
      rw [if_pos hb]
    · rw [hfst] at hy
      rcases List.mem_append.mp hy with h | h
      · rcases inv.pend y h b hb with h2 | h2 | h2
        · left
          by_cases hbc : b ∈ cbF cells c
          · rw [if_pos hbc]
          · rw [if_neg hbc]; exact h2
        · exact Or.inr (Or.inl ⟨hyc, h2⟩)
        · exact Or.inr (Or.inr (Or.inl h2))
      · exact Or.inr (Or.inr (Or.inr h))
  by_cases hq2 : st.q.erase c = []
  · rw [if_pos hq2]
    refine
      { book := assign_shape_book _ p rfl rfl inv.book
        keys := hkeys
        qUpA := fun y hy => hmono _ (inv.qUpA y hy)
        qDownA := fun y hy => hmono _ (inv.qDownA y hy)
        nqUpA := fun y hy => hmono _ (inv.nqUpA y hy)
        nqDownA := fun y hy => hmono _ (inv.nqDownA y hy)
        qA := ?_
        nqA := fun y hy => absurd hy (List.not_mem_nil y)
        reach := hreach
        btcI := hbtcI
        pend := ?_
        seedsA := fun y hy => hmono _ (inv.seedsA y hy)
        qnq := fun _ => rfl }
    · intro y hy
      rcases List.mem_append.mp hy with h | h
      · exact hmono _ (inv.nqA y h)
      · exact hnew _ h
    · intro y hy b hb
      rcases hpend y hy b hb with h2 | ⟨hyc, h2⟩ | h2 | h2
      · exact Or.inl h2
      · exact absurd (List.mem_erase_of_ne hyc |>.mpr h2) (by rw [hq2]; exact List.not_mem_nil y)
      · exact Or.inr (Or.inl (List.mem_append_left _ h2))
      · exact Or.inr (Or.inl (List.mem_append_right _ h2))
  · rw [if_neg hq2]
    refine
      { book := assign_shape_book _ p rfl rfl inv.book
        keys := hkeys
        qUpA := fun y hy => hmono _ (inv.qUpA y hy)
        qDownA := fun y hy => hmono _ (inv.qDownA y hy)
        nqUpA := fun y hy => hmono _ (inv.nqUpA y hy)
        nqDownA := fun y hy => hmono _ (inv.nqDownA y hy)
        qA := ?_
        nqA := ?_
        reach := hreach
        btcI := hbtcI
        pend := ?_
        seedsA := fun y hy => hmono _ (inv.seedsA y hy)
        qnq := fun h => absurd h hq2 }
    · intro y hy
      exact hmono _ (inv.qA y (List.mem_of_mem_erase hy))
    · intro y hy
      rcases List.mem_append.mp hy with h | h
      · exact hmono _ (inv.nqA y h)
      · exact hnew _ h
    · intro y hy b hb
      rcases hpend y hy b hb with h2 | ⟨hyc, h2⟩ | h2 | h2
      · exact Or.inl h2
      · exact Or.inr (Or.inl (List.mem_erase_of_ne hyc |>.mpr h2))
      · exact Or.inr (Or.inr (List.mem_append_left _ h2))
      · exact Or.inr (Or.inr (List.mem_append_right _ h2))

theorem processQ_mu2 {cells : List CellM} {st : PartState} {c : Nat}
    (hc : c ∈ st.q) : mu2 (processQ cells st c) < mu2 st := by
  unfold processQ mu2
  dsimp only
  have hsplit := filter_split_length
    (fun c2 => decide (∃ b ∈ cbF cells c, c2 ∈ st.btc b)) st.unassigned
  have herase : (st.q.erase c).length = st.q.length - 1 :=
    List.length_erase_of_mem hc
  have hpos : 0 < st.q.length := List.length_pos.mpr (List.ne_nil_of_mem hc)
  by_cases hq2 : st.q.erase c = []
  · rw [if_pos hq2]
    dsimp only
    simp only [List.length_append, List.length_nil]
    omega
  · rw [if_neg hq2]
    dsimp only
    simp only [List.length_append]
    omega

theorem loop2_sinv {cells : List CellM} {k0 : ClkDom} {pri : Nat → Nat} :
    ∀ (f : Nat) (st : PartState), SInv cells k0 st → mu2 st < f →
      SInv cells k0 (loop2 cells pri f st) ∧ (loop2 cells pri f st).q = [] := by
  intro f
  induction f with
  | zero => intro st _ h; omega
  | succ f ih =>
    intro st inv hf
    rw [loop2]
    by_cases h : st.q = []
    · rw [if_pos h]
      exact ⟨inv, h⟩
    · rw [if_neg h]
      have hm := pick_mem pri _ h
      exact ih _ (processQ_sinv inv hm)
        (by have := @processQ_mu2 cells st (pick pri st.q) hm; omega)

theorem init_sinv {cells : List CellM} {k0 : ClkDom}
    (hnod : (cells.map CellM.id).Nodup)
    (hks : ∀ x ∈ cells, keyOf x = none ∨ keyOf x = some k0) :
    SInv cells k0 (initPart cells) := by
  have hseed : ∀ y ∈ seedIds cells, y ∈ (initPart cells).assigned.map Prod.fst := by
    intro y hy
    show y ∈ (cells.filterMap (fun x => (keyOf x).map (fun k => (x.id, k)))).map Prod.fst
    rw [filterMap_key_fst]
    exact hy
  refine
    { book := init_book hnod
      keys := ?_
      qUpA := hseed
      qDownA := hseed
      nqUpA := fun y hy => absurd hy (List.not_mem_nil y)
      nqDownA := fun y hy => absurd hy (List.not_mem_nil y)
      qA := hseed
      nqA := fun y hy => absurd hy (List.not_mem_nil y)
      reach := ?_
      btcI := fun b => Or.inl rfl
      pend := ?_
      seedsA := hseed
      qnq := fun _ => rfl }
  · intro pr hpr
    obtain ⟨x, hx, hpx⟩ := List.mem_filterMap.mp hpr
    rcases hk : keyOf x with _ | k
    · rw [hk] at hpx
      exact absurd hpx (by simp)
    · rw [hk] at hpx
      simp only [Option.map_some'] at hpx
      obtain rfl := Option.some_inj.mp hpx
      rcases hks x hx with h | h
      · rw [hk] at h
        exact absurd h (by simp)
      · rw [hk] at h
        exact (Option.some_inj.mp h).symm ▸ rfl
  · intro y hy
    have hy2 : y ∈ seedIds cells := by
      have : (initPart cells).assigned.map Prod.fst
          = (cells.filter (fun x => (keyOf x).isSome)).map CellM.id := filterMap_key_fst cells
      rw [this] at hy
      exact hy
    exact ⟨y, hy2, Relation.ReflTransGen.refl⟩
  · intro y hy b hb
    right
    left
    have : (initPart cells).assigned.map Prod.fst
        = (cells.filter (fun x => (keyOf x).isSome)).map CellM.id := filterMap_key_fst cells
    rw [this] at hy
    exact hy

theorem final_closed {cells : List CellM} {k0 : ClkDom} {st : PartState}
    (inv : SInv cells k0 st) (hq : st.q = []) :
    ∀ c, ReachC cells c → c ∈ st.assigned.map Prod.fst := by
  have hnq := inv.qnq hq
  rintro c ⟨s, hs, hpath⟩
  induction hpath with
  | refl => exact inv.seedsA s hs
  | tail hab hbc ih =>
    obtain ⟨bb, hbb, hcb⟩ := hbc
    rcases inv.pend _ ih bb hbb with h2 | h2 | h2
    · rcases inv.btcI bb with h3 | ⟨-, h3⟩
      · rw [h2] at h3
        rw [← h3] at hcb
        exact absurd hcb (Finset.not_mem_empty _)
      · exact h3 _ hcb
    · rw [hq] at h2
      exact absurd h2 (List.not_mem_nil _)
    · rw [hnq] at h2
      exact absurd h2 (List.not_mem_nil _)

theorem orlo_partition_single_key_char (pri : Nat → Nat) (cells : List CellM)
    (k0 : ClkDom) (hnod : (cells.map CellM.id).Nodup)
    (hks : ∀ x ∈ cells, keyOf x = none ∨ keyOf x = some k0) :
    ∀ c : Nat,
      (ReachC cells c → akey (orlo_partition pri cells) c = some k0) ∧
      (c ∈ cells.map CellM.id → ¬ ReachC cells c →
        akey (orlo_partition pri cells) c = some defaultKey) ∧
      (c ∉ cells.map CellM.id → akey (orlo_partition pri cells) c = none) := by
  have hinv0 := init_sinv hnod hks
  have hinv1 := @loop1_sinv cells k0 pri (mu1 (initPart cells) + 1) _ hinv0
  obtain ⟨hinv2, hq2⟩ := @loop2_sinv cells k0 pri
    (mu2 (loop1 cells pri (mu1 (initPart cells) + 1) (initPart cells)) + 1)
    _ hinv1 (by omega)
  have hres : orlo_partition pri cells
      = (loop2 cells pri (mu2 (loop1 cells pri (mu1 (initPart cells) + 1) (initPart cells)) + 1)
          (loop1 cells pri (mu1 (initPart cells) + 1) (initPart cells))).assigned
        ++ (loop2 cells pri (mu2 (loop1 cells pri (mu1 (initPart cells) + 1) (initPart cells)) + 1)
          (loop1 cells pri (mu1 (initPart cells) + 1)
            (initPart cells))).unassigned.map (fun c => (c, defaultKey)) := rfl
  intro c
  refine ⟨?_, ?_, ?_⟩
  · intro hr
    have hcA := final_closed hinv2 hq2 c hr
    rw [hres, akey_append_left hcA]
    obtain ⟨k, hk1, hk2⟩ := akey_mem_some hcA
    have hkk : k = k0 := hinv2.keys _ hk2
    rw [hk1, hkk]
  · intro hcid hnr
    have hcnA : c ∉ (loop2 cells pri
        (mu2 (loop1 cells pri (mu1 (initPart cells) + 1) (initPart cells)) + 1)
        (loop1 cells pri (mu1 (initPart cells) + 1)
          (initPart cells))).assigned.map Prod.fst :=
      fun hcA => hnr (hinv2.reach c hcA)
    have hcun : c ∈ (loop2 cells pri
        (mu2 (loop1 cells pri (mu1 (initPart cells) + 1) (initPart cells)) + 1)
        (loop1 cells pri (mu1 (initPart cells) + 1) (initPart cells))).unassigned := by
      rcases (hinv2.book.split c).mp hcid with h | h
      · exact absurd h hcnA
      · exact h
    rw [hres, akey_append_right hcnA, akey_map_const defaultKey hcun]
  · intro hcid
    have h1 : c ∉ (loop2 cells pri
        (mu2 (loop1 cells pri (mu1 (initPart cells) + 1) (initPart cells)) + 1)
        (loop1 cells pri (mu1 (initPart cells) + 1)
          (initPart cells))).assigned.map Prod.fst :=
      fun h => hcid ((hinv2.book.split c).mpr (Or.inl h))
    have h2 : c ∉ (loop2 cells pri
        (mu2 (loop1 cells pri (mu1 (initPart cells) + 1) (initPart cells)) + 1)
        (loop1 cells pri (mu1 (initPart cells) + 1) (initPart cells))).unassigned :=
      fun h => hcid ((hinv2.book.split c).mpr (Or.inr h))
    rw [hres, akey_append_right h1]
    apply akey_none
    rw [map_fst_pair_const]
    exact h2

/-- C5 (amended): the partitioner's final domain assignment is in
general order-dependent (see the counterexample), but when every
flip-flop seed computes the same clock-domain key the final assignment
is independent of the traversal order: every two runs that differ only
in the worklist iteration priority assign every cell the same domain
(the shared key on the connected component of the seeds, the default
key elsewhere). -/
theorem partition_single_key_order_independent (cells : List CellM) (k0 : ClkDom)
    (hnod : (cells.map CellM.id).Nodup)
    (hks : ∀ x ∈ cells, keyOf x = none ∨ keyOf x = some k0)
    (pri1 pri2 : Nat → Nat) :
    ∀ c : Nat, akey (orlo_partition pri1 cells) c = akey (orlo_partition pri2 cells) c := by
  intro c
  by_cases hr : ReachC cells c
  · rw [(orlo_partition_single_key_char pri1 cells k0 hnod hks c).1 hr,
      (orlo_partition_single_key_char pri2 cells k0 hnod hks c).1 hr]
  · by_cases hid : c ∈ cells.map CellM.id
    · rw [(orlo_partition_single_key_char pri1 cells k0 hnod hks c).2.1 hid hr,
        (orlo_partition_single_key_char pri2 cells k0 hnod hks c).2.1 hid hr]
    · rw [(orlo_partition_single_key_char pri1 cells k0 hnod hks c).2.2 hid,
        (orlo_partition_single_key_char pri2 cells k0 hnod hks c).2.2 hid]

/-- C5 (amended) witness design: a single clock domain — one flip-flop
and one combinational cell sharing bit 3. -/
def cellsW5 : List CellM :=
  [{ id := 0, kind := CKind.dffP, clk := 5, en := 0,
     conns := [{ isIn := true, isOut := false, bit := 3 }] },
   { id := 1, kind := CKind.comb, clk := 0, en := 0,
     conns := [{ isIn := false, isOut := true, bit := 3 }] }]

/-- C5 (amended) witness: on the single-domain design `cellsW5`, two
runs with different traversal priorities agree on cell 1's domain. -/
theorem partition_single_key_order_independent_witness :
    akey (orlo_partition (fun c => c) cellsW5) 1
      = akey (orlo_partition (fun c => 5 - c) cellsW5) 1 :=
  partition_single_key_order_independent cellsW5
    { pol := true, clk := some 5, enPol := true, en := none }
    (by decide) (by decide) (fun c => c) (fun c => 5 - c) 1

end Orlo